import Mathlib

/-!
# flexrouter: a shallow embedding of the route tree, the matcher and the dispatcher

The Go sources `router.go` and `httpmethod.go` are rendered as Lean functions.

* A Go `string` is the list of its characters (`List Char`).  The only
  character the code looks for is `'/'`, which is one byte wide, so cutting a
  string at a `'/'` and dropping a leading `'/'` mean the same on characters
  as on bytes.
* Indexing and slicing that Go checks at run time (`pathParts[0]`,
  `params[0]`, `part[1:]`, `path[a:b]`, `matches[1]`) return an `Outcome`,
  whose `panicked` value stands for the run-time panic.
* A handler slice that may be `nil` is an `Option (List H)`: `none` is the
  `nil` slice, `some []` an empty slice that is not `nil`.
* Code that writes through a pointer (`*nodes`, `*param`, the `params`
  buffer) returns the new contents instead.
-/

namespace Flexrouter

/-- Result of running Go code that may hit a run-time panic. -/
inductive Outcome (α : Type) where
  | ok : α → Outcome α
  | panicked : Outcome α
  deriving DecidableEq, Repr

/-- Go strings, as lists of characters. -/
abbrev Str := List Char

/-- The slice expression `s[lo:hi]`, which panics unless `lo ≤ hi ≤ len(s)`. -/
def goSlice {α : Type} (s : List α) (lo hi : Nat) : Outcome (List α) :=
  if lo ≤ hi ∧ hi ≤ s.length then .ok ((s.drop lo).take (hi - lo)) else .panicked

/-- The `for idx, ch := range path` loop of `parts`: `todo` is the part of
`path` not yet visited, `idx` the position of its first character, and the
result is the final `pathParts` and `curStart`. -/
def partsLoop (path : Str) : Str → Nat → Nat → List Str → Outcome (List Str × Nat)
  | [], _, curStart, pathParts => .ok (pathParts, curStart)
  | ch :: todo, idx, curStart, pathParts =>
    if idx ≠ curStart ∧ ch = '/' then
      match goSlice path curStart idx with
      | .ok seg => partsLoop path todo (idx + 1) idx (pathParts ++ [seg])
      | .panicked => .panicked
    else partsLoop path todo (idx + 1) curStart pathParts

/-- `parts(path)`: `none` is the `nil` result. -/
def parts (path : Str) : Outcome (Option (List Str)) :=
  match path with
  | [] => .ok none
  | c :: _ =>
    if c ≠ '/' then .ok none
    else
      match partsLoop path path 0 0 [] with
      | .panicked => .panicked
      | .ok (pathParts, curStart) =>
        match goSlice path curStart path.length with
        | .panicked => .panicked
        | .ok seg => .ok (some (pathParts ++ [seg]))

/-- The constant `nodetype_literal`. -/
def nodetype_literal : Nat := 0

/-- The constant `nodetype_param`. -/
def nodetype_param : Nat := 1

/-- The struct `node`; the field `Type` is called `NodeType` here. -/
structure node (H : Type) where
  NodeType : Nat
  Part : Str
  ParamName : Str
  ParamEval : Str
  SubNodes : List (node H)
  Handlers : Option (List H)

/-- A compiled regular expression, as its `FindStringSubmatch`: the empty
list is the `nil` result (no match), otherwise the whole match followed by
the capture groups. -/
abbrev Regexp := Str → List Str

/-- The character class `[^:}]`. -/
def notColonBrace (c : Char) : Bool := c != ':' && c != '}'

/-- The pattern `^/{([^:}]+):([^:}]+)}$`.  Both groups exclude `':'` and
`'}'`, so each greedy group is the longest run of other characters and the
match, when there is one, is unique. -/
def defaultParamNodeRegex : Regexp := fun part =>
  match part with
  | '/' :: '{' :: rest =>
    match rest.dropWhile notColonBrace with
    | ':' :: rest2 =>
      match rest2.dropWhile notColonBrace with
      | ['}'] =>
        if rest.takeWhile notColonBrace ≠ [] ∧ rest2.takeWhile notColonBrace ≠ [] then
          [part, rest.takeWhile notColonBrace, rest2.takeWhile notColonBrace]
        else []
      | _ => []
    | _ => []
  | _ => []

/-- The index expression `xs[i]`. -/
def goIndex {α : Type} (xs : List α) (i : Nat) : Outcome α :=
  match xs.get? i with
  | some x => .ok x
  | none => .panicked

/-- `specPartNode(part, paramRegex)`; `none` is the `nil` regexp and `found`
the variable `matches`. -/
def specPartNode {H : Type} (part : Str) (paramRegex : Option Regexp) : Outcome (node H) :=
  let found : List Str :=
    match paramRegex with
    | some re => re part
    | none => []
  if found.length > 0 then
    match goIndex found 1, goIndex found 2 with
    | .ok name, .ok ev =>
      .ok { NodeType := nodetype_param, Part := part, ParamName := name, ParamEval := ev,
            SubNodes := [], Handlers := none }
    | _, _ => .panicked
  else
    .ok { NodeType := nodetype_literal, Part := part, ParamName := [], ParamEval := [],
          SubNodes := [], Handlers := none }

/-- `append(s, hs...)` on a handler slice that may be `nil`. -/
def goAppend {H : Type} (s : Option (List H)) (hs : List H) : Option (List H) :=
  match s, hs with
  | none, [] => none
  | none, h :: t => some (h :: t)
  | some l, hs => some (l ++ hs)

/-- What `addPartsToTree` does to the node `matchNode` points at: `rest` is
`pathParts[1:]` and `recur` the recursive call on it. -/
def updateMatchNode {H : Type} (handlers : List H) (rest : List Str)
    (recur : List (node H) → Outcome (List (node H))) (matchNode : node H) : Outcome (node H) :=
  if rest.length = 0 then
    .ok { matchNode with Handlers := goAppend matchNode.Handlers handlers }
  else
    match recur matchNode.SubNodes with
    | .ok subs => .ok { matchNode with SubNodes := subs }
    | .panicked => .panicked

/-- The sibling loop of `addPartsToTree` together with the update that
follows it: the first node of `nodes` whose `Part` is that of `partNode` is
updated in place; when there is none, `partNode` is updated and appended. -/
def addAtLevel {H : Type} (upd : node H → Outcome (node H)) (partNode : node H) :
    List (node H) → Outcome (List (node H))
  | [] =>
    match upd partNode with
    | .ok n => .ok [n]
    | .panicked => .panicked
  | n :: ns =>
    if n.Part = partNode.Part then
      match upd n with
      | .ok m => .ok (m :: ns)
      | .panicked => .panicked
    else
      match addAtLevel upd partNode ns with
      | .ok ms => .ok (n :: ms)
      | .panicked => .panicked

/-- `addPartsToTree(pathParts, handlers, nodes, paramRegex)`, returning the
new `*nodes`. -/
def addPartsToTree {H : Type} (paramRegex : Option Regexp) (handlers : List H) :
    List Str → List (node H) → Outcome (List (node H))
  | [], _ => .panicked
  | part :: rest, nodes =>
    match specPartNode part paramRegex with
    | .panicked => .panicked
    | .ok partNode =>
      addAtLevel (updateMatchNode handlers rest (addPartsToTree paramRegex handlers rest))
        partNode nodes

/-- The struct `Param`; `V` stands for `interface{}` and its `default` for
the `nil` interface value. -/
structure Param (V : Type) where
  Name : Str
  ValueRaw : Str
  Value : V
  deriving DecidableEq, Repr

/-- The zero value `Param{}`. -/
def Param.zero {V : Type} [Inhabited V] : Param V :=
  { Name := [], ValueRaw := [], Value := default }

/-- The type `ParamFunc`. -/
abbrev ParamFunc (V : Type) := Str → Bool × V

/-- The type `ParamFuncMap`: `none` where the map has no entry. -/
abbrev ParamFuncMap (V : Type) := Str → Option (ParamFunc V)

/-- `matchPartNode(part, n, paramFuncs, param)`: the returned boolean and
the new contents of `*param`. -/
def matchPartNode {H V : Type} (part : Str) (n : node H) (paramFuncs : ParamFuncMap V)
    (param : Param V) : Outcome (Bool × Param V) :=
  if n.NodeType = nodetype_literal then .ok (decide (part = n.Part), param)
  else if n.NodeType = nodetype_param then
    match paramFuncs n.ParamEval with
    | none => .ok (false, param)
    | some fn =>
      match goSlice part 1 part.length with
      | .panicked => .panicked
      | .ok arg =>
        if (fn arg).1 then
          .ok (true, { Name := n.ParamName, ValueRaw := arg, Value := (fn arg).2 })
        else .ok (false, param)
  else .ok (false, param)

/-- The sibling loop of `findHandler`, from the node at hand onwards.
`rest` is `pathParts[1:]`, `recur` the recursive call on it; the result is
the returned slice and the new contents of `params`. -/
def findLoop {H V : Type} [Inhabited V] (paramFuncs : ParamFuncMap V) (part : Str)
    (rest : List Str)
    (recur : List (Param V) → List (node H) → Outcome (Option (List H) × List (Param V))) :
    List (node H) → List (Param V) → Outcome (Option (List H) × List (Param V))
  | [], params => .ok (none, params)
  | n :: ns, params =>
    match params with
    | [] => .panicked
    | _ :: ptail =>
      match matchPartNode part n paramFuncs Param.zero with
      | .panicked => .panicked
      | .ok (false, p0) => findLoop paramFuncs part rest recur ns (p0 :: ptail)
      | .ok (true, p0) =>
        if rest.length = 0 then .ok (n.Handlers, p0 :: ptail)
        else
          match recur ptail n.SubNodes with
          | .panicked => .panicked
          | .ok (some result, ptail') => .ok (some result, p0 :: ptail')
          | .ok (none, ptail') => findLoop paramFuncs part rest recur ns (p0 :: ptail')

/-- `findHandler(pathParts, params, nodes, paramFuncs)`: the returned slice
(`none` for `nil`) and the new contents of the `params` buffer. -/
def findHandler {H V : Type} [Inhabited V] (paramFuncs : ParamFuncMap V) :
    List Str → List (Param V) → List (node H) → Outcome (Option (List H) × List (Param V))
  | [], _, _ => .panicked
  | part :: rest, params, nodes =>
    findLoop paramFuncs part rest (findHandler paramFuncs rest) nodes params

/-- The type `ParamMap`. -/
abbrev ParamMap (V : Type) := Str → Option (Param V)

/-- The loop of `matchPath` that fills the map from the `params` buffer. -/
def fillParamMap {V : Type} : List (Param V) → ParamMap V → ParamMap V
  | [], pm => pm
  | param :: more, pm =>
    if param.Name ≠ [] then fillParamMap more (Function.update pm param.Name (some param))
    else fillParamMap more pm

/-- `matchPath(path, nodes, paramFuncs)`: the handler slice and the map,
each `none` when `nil`. -/
def matchPath {H V : Type} [Inhabited V] (path : Str) (nodes : List (node H))
    (paramFuncs : ParamFuncMap V) : Outcome (Option (List H) × Option (ParamMap V)) :=
  match parts path with
  | .panicked => .panicked
  | .ok none => .ok (none, none)
  | .ok (some pathParts) =>
    match findHandler paramFuncs pathParts (List.replicate pathParts.length Param.zero) nodes with
    | .panicked => .panicked
    | .ok (some handlers, params) => .ok (some handlers, some (fillParamMap params (fun _ => none)))
    | .ok (none, _) => .ok (none, none)

/-- A call a handler makes on the `http.ResponseWriter` it is given that
produces output: `WriteHeader(status)` or `Write(b)`. -/
inductive WriteOp where
  | WriteHeader (status : Nat) : WriteOp
  | Write (b : Str) : WriteOp
  deriving DecidableEq, Repr

/-- What the code reads of a `*http.Request`: `r.Method`, `r.URL.Path` and
the context value under the key `pathParams{}` (`none` when the context has
no such value, `some m` after `context.WithValue(.., pathParams{}, m)`). -/
structure Request (V : Type) where
  Method : Str
  Path : Str
  PathParams : Option (Option (ParamMap V))

/-- An `http.Handler`: a function of the request, giving the output calls it
makes on its response writer, in order. -/
abbrev Handler (V : Type) := Request V → List WriteOp

/-- The type `HttpMethod`. -/
abbrev HttpMethod := Str

/-- The method `(hm HttpMethod) MethodHandler(handler)`. -/
def HttpMethod.MethodHandler {V : Type} (hm : HttpMethod) (handler : Handler V) : Handler V :=
  fun r => if r.Method = hm then handler r else []

/-- The conversion `Any(h)`, `Any` being an alias of `http.HandlerFunc`. -/
def Any {V : Type} (handler : Handler V) : Handler V := handler

/-- The variable `Get`. -/
def Get {V : Type} : Handler V → Handler V := HttpMethod.MethodHandler "GET".toList

/-- The variable `Post`. -/
def Post {V : Type} : Handler V → Handler V := HttpMethod.MethodHandler "POST".toList

/-- The struct `router`; `none` is a `nil` handler or a `nil` regexp. -/
structure router (V : Type) where
  routes : List (node (Handler V))
  paramFuncs : ParamFuncMap V
  ParamRegex : Option Regexp
  NotFoundHandler : Option (Handler V)
  MethodNotAllowedHandler : Option (Handler V)

/-- The variable `defaultNotFoundHandler`, the library's
`http.NotFoundHandler()`: it replies with status 404 and a fixed body. -/
def defaultNotFoundHandler {V : Type} : Handler V :=
  fun _ => [.WriteHeader 404, .Write "404 page not found\n".toList]

/-- The variable `defaultMethodNotAllowedHandler`. -/
def defaultMethodNotAllowedHandler {V : Type} : Handler V :=
  fun _ => [.WriteHeader 405, .Write "Method not allowed".toList]

/-- `NewRouter()`. -/
def NewRouter {V : Type} : router V :=
  { routes := [], paramFuncs := fun _ => none, ParamRegex := some defaultParamNodeRegex,
    NotFoundHandler := some defaultNotFoundHandler,
    MethodNotAllowedHandler := some defaultMethodNotAllowedHandler }

/-- `rtr.AddRoute(pathSpec, handlers...)`: the returned boolean and the
router afterwards. -/
def AddRoute {V : Type} (rtr : router V) (pathSpec : Str) (handlers : List (Handler V)) :
    Outcome (Bool × router V) :=
  if handlers.length > 0 then
    match parts pathSpec with
    | .panicked => .panicked
    | .ok none => .ok (false, rtr)
    | .ok (some pathParts) =>
      match addPartsToTree rtr.ParamRegex handlers pathParts rtr.routes with
      | .panicked => .panicked
      | .ok routes => .ok (true, { rtr with routes := routes })
  else .ok (false, rtr)

/-- `rtr.SetParamFunc(name, fn)`; `none` is a `nil` function. -/
def SetParamFunc {V : Type} (rtr : router V) (name : Str) (fn : Option (ParamFunc V)) : router V :=
  match fn with
  | some f => { rtr with paramFuncs := Function.update rtr.paramFuncs name (some f) }
  | none => { rtr with paramFuncs := Function.update rtr.paramFuncs name none }

/-- Who `ServeHTTP` called: the route handler `handlers[i]`, the not-found
handler or the method-not-allowed handler. -/
inductive Callee where
  | route (i : Nat) : Callee
  | notFound : Callee
  | methodNotAllowed : Callee
  deriving DecidableEq, Repr

/-- A record of one run of `ServeHTTP`: the handlers called, in order, and
the output calls that reached the response writer `w`, in order. -/
structure Served where
  calls : List Callee
  out : List WriteOp
  deriving DecidableEq, Repr

/-- The loop `for i := 0; i < len(handlers) && !ww.written; i++` of
`ServeHTTP`, from index `i` on: every output call of a handler goes through
the wrapper `ww`, which sets `written` and passes it on to `w`. -/
def serveLoop {V : Type} (rp : Request V) :
    List (Handler V) → Nat → Bool → Served → Bool × Served
  | [], _, written, s => (written, s)
  | h :: hs, i, written, s =>
    if written then (written, s)
    else
      serveLoop rp hs (i + 1) (written || !(h rp).isEmpty)
        { calls := s.calls ++ [.route i], out := s.out ++ h rp }

/-- `rtr.ServeHTTP(w, r)`, as the record of whom it called and what reached
`w`. -/
def ServeHTTP {V : Type} [Inhabited V] (rtr : router V) (r : Request V) : Outcome Served :=
  match matchPath r.Path rtr.routes rtr.paramFuncs with
  | .panicked => .panicked
  | .ok (handlers, params) =>
    if (handlers.getD []).length = 0 then
      match rtr.NotFoundHandler with
      | some nf => .ok { calls := [.notFound], out := nf r }
      | none => .ok { calls := [], out := [] }
    else
      let rp : Request V := { r with PathParams := some params }
      match serveLoop rp (handlers.getD []) 0 false { calls := [], out := [] } with
      | (true, s) => .ok s
      | (false, s) =>
        match rtr.MethodNotAllowedHandler with
        | some mna => .ok { calls := s.calls ++ [.methodNotAllowed], out := s.out ++ mna rp }
        | none => .ok s

/-! ## Vocabulary of the statements -/

/-- Every sibling list of the tree, at every depth, satisfies `Q`. -/
inductive EveryLevel {H : Type} (Q : List (node H) → Prop) : List (node H) → Prop where
  | mk (nodes : List (node H)) : Q nodes → (∀ n ∈ nodes, EveryLevel Q n.SubNodes) →
      EveryLevel Q nodes

/-- No two nodes of a sibling list have the same `Part`. -/
def DistinctParts {H : Type} (nodes : List (node H)) : Prop :=
  (nodes.map (fun n => n.Part)).Nodup

/-- The routers `NewRouter()` gives after any sequence of `AddRoute` and
`SetParamFunc` calls, the field `ParamRegex` left as it is. -/
inductive Reachable {V : Type} : router V → Prop where
  | new : Reachable NewRouter
  | addRoute (rtr rtr2 : router V) (pathSpec : Str) (handlers : List (Handler V)) (b : Bool) :
      Reachable rtr → AddRoute rtr pathSpec handlers = .ok (b, rtr2) → Reachable rtr2
  | setParamFunc (rtr : router V) (name : Str) (fn : Option (ParamFunc V)) :
      Reachable rtr → Reachable (SetParamFunc rtr name fn)

/-- A chain of nodes for the segments `segs` below the sibling list `nodes`:
one node per segment, the first among `nodes` and each next one among the
`SubNodes` of the one before, every node matching its segment.  `ps` holds
what `matchPartNode` leaves in each node's parameter slot (starting from
`Param{}`) and `hs` is the `Handlers` field of the last node. -/
inductive MatchChain {H V : Type} [Inhabited V] (paramFuncs : ParamFuncMap V) :
    List Str → List (node H) → List (node H) → List (Param V) → Option (List H) → Prop where
  | last (seg : Str) (nodes : List (node H)) (n : node H) (p : Param V) :
      n ∈ nodes → matchPartNode seg n paramFuncs Param.zero = .ok (true, p) →
      MatchChain paramFuncs [seg] nodes [n] [p] n.Handlers
  | step (seg : Str) (rest : List Str) (nodes : List (node H)) (n : node H)
      (chain : List (node H)) (p : Param V) (ps : List (Param V)) (hs : Option (List H)) :
      n ∈ nodes → matchPartNode seg n paramFuncs Param.zero = .ok (true, p) →
      MatchChain paramFuncs rest n.SubNodes chain ps hs →
      MatchChain paramFuncs (seg :: rest) nodes (n :: chain) (p :: ps) hs

/-- The handler slice of the node reached from `nodes` by following, for
each segment in turn, the first sibling whose `Part` is that segment;
`none` when there is no such node (or its slice is `nil`). -/
def handlersAt {H : Type} : List Str → List (node H) → Option (List H)
  | [], _ => none
  | seg :: rest, nodes =>
    match nodes.find? (fun n => decide (n.Part = seg)) with
    | none => none
    | some n => if rest.length = 0 then n.Handlers else handlersAt rest n.SubNodes

/-- The pattern, when there is one, has at least two capture groups: a
match gives the whole match and two or more groups. -/
def TwoGroups (paramRegex : Option Regexp) : Prop :=
  ∀ re, paramRegex = some re → ∀ s, (re s).length = 0 ∨ 3 ≤ (re s).length

/-- Siblings have distinct `Part`s and each satisfies `P` (a property of
its `NodeType` and `ParamName`). -/
def LevelOk {H : Type} (P : Nat → Str → Prop) (nodes : List (node H)) : Prop :=
  DistinctParts nodes ∧ ∀ n ∈ nodes, P n.NodeType n.ParamName

/-! ## Example values -/

/-- A registry with one evaluator, `any`, which accepts every text and
gives its length. -/
def exampleFuncs : ParamFuncMap Nat :=
  fun name => if name = "any".toList then some (fun s => (true, s.length)) else none

/-- The tree after registering `/a/b` with the handler `1`. -/
def exampleTreeAB : List (node Nat) :=
  [{ NodeType := nodetype_literal, Part := "/a".toList, ParamName := [], ParamEval := [],
     SubNodes := [{ NodeType := nodetype_literal, Part := "/b".toList, ParamName := [],
                    ParamEval := [], SubNodes := [], Handlers := some [1] }],
     Handlers := none }]

/-- The parameter node that registering `/{x:any}` with the handler `2`
makes. -/
def exampleParamNode : node Nat :=
  { NodeType := nodetype_param, Part := "/{x:any}".toList, ParamName := "x".toList,
    ParamEval := "any".toList, SubNodes := [], Handlers := some [2] }

/-- The tree after registering `/a/b` with the handler `1` and then
`/{x:any}` with the handler `2`. -/
def exampleTree : List (node Nat) := exampleTreeAB ++ [exampleParamNode]

/-- A handler that writes a body. -/
def exampleHandler : Handler Nat := fun _ => [.Write "ok".toList]

/-- The router `r` or, had the call panicked, a new router. -/
def routerOf {V : Type} (r : Outcome (Bool × router V)) : router V :=
  match r with
  | .ok (_, rtr) => rtr
  | .panicked => NewRouter

/-- The router after `AddRoute("/u/{x:any}", exampleHandler)` on a new
router. -/
def exampleRouter : router Nat :=
  routerOf (AddRoute NewRouter "/u/{x:any}".toList [exampleHandler])

/-- A sequence of `AddRoute` calls, each of which returns `true`; `none`
when a call returns `false` or panics. -/
def addRoutes {V : Type} (rtr : router V) : List (Str × List (Handler V)) → Option (router V)
  | [] => some rtr
  | (pathSpec, handlers) :: more =>
    match AddRoute rtr pathSpec handlers with
    | .ok (true, rtr2) => addRoutes rtr2 more
    | _ => none

/-- The handler lists of the calls that registered the path `q`, one after
the other in the order of the calls. -/
def registeredFor {V : Type} (q : Str) : List (Str × List (Handler V)) → List (Handler V)
  | [] => []
  | (pathSpec, handlers) :: more =>
    if pathSpec = q then handlers ++ registeredFor q more else registeredFor q more

/-- No segment of the path spec has the form `/{name:evaluator}`. -/
def LiteralSpec (pathSpec : Str) : Prop :=
  ∀ segs, parts pathSpec = .ok (some segs) → ∀ s ∈ segs, defaultParamNodeRegex s = []

/-- The router after `AddRoute("/a/b/c", exampleHandler)` on a new router. -/
def exampleRouterABC : router Nat :=
  routerOf (AddRoute NewRouter "/a/b/c".toList [exampleHandler])

/-- A second handler that writes a body. -/
def exampleHandler2 : Handler Nat := fun _ => [.Write "second".toList]

/-- The router after `AddRoute("/getandpost", Get(exampleHandler),
Post(exampleHandler2))` on a new router. -/
def exampleRouterGetPost : router Nat :=
  routerOf (AddRoute NewRouter "/getandpost".toList [Get exampleHandler, Post exampleHandler2])

/-- The request `POST /getandpost`. -/
def examplePost : Request Nat :=
  { Method := "POST".toList, Path := "/getandpost".toList, PathParams := none }

/-- The request `GET /onlyget`. -/
def exampleGet : Request Nat :=
  { Method := "GET".toList, Path := "/onlyget".toList, PathParams := none }

/-- The router after `AddRoute("/onlyget", Get(exampleHandler))` on a new
router. -/
def exampleRouterOnlyGet : router Nat :=
  routerOf (AddRoute NewRouter "/onlyget".toList [Get exampleHandler])

/-- Two trees have the same nodes: the same number of siblings at every
place, with the same `NodeType`, `Part`, `ParamName` and `ParamEval`; only
the handler slices may differ. -/
inductive SameShape {H : Type} : List (node H) → List (node H) → Prop where
  | nil : SameShape [] []
  | cons (a b : node H) (as bs : List (node H)) :
      a.NodeType = b.NodeType → a.Part = b.Part → a.ParamName = b.ParamName →
      a.ParamEval = b.ParamEval → SameShape a.SubNodes b.SubNodes → SameShape as bs →
      SameShape (a :: as) (b :: bs)

/-- The text `s` is `/{name:evaluator}` with `name` and `evaluator` not
empty and free of `':'` and `'}'`. -/
def ParamForm (s name ev : Str) : Prop :=
  s = '/' :: '{' :: (name ++ ':' :: (ev ++ ['}'])) ∧ name ≠ [] ∧ ev ≠ [] ∧
    (∀ c ∈ name, c ≠ ':' ∧ c ≠ '}') ∧ (∀ c ∈ ev, c ≠ ':' ∧ c ≠ '}')

/-- The requests on which the handler `HttpMethod(hm).MethodHandler(handler)`
invokes `handler` when it is called on `r`, each time with the response
writer it was given itself: `r` once when the methods agree, none
otherwise. -/
def HttpMethod.MethodHandlerCalls {V : Type} (hm : HttpMethod) (r : Request V) :
    List (Request V) :=
  if r.Method = hm then [r] else []

/-- The request `GET no-slash`, whose path does not start with `'/'`. -/
def exampleBadPath : Request Nat :=
  { Method := "GET".toList, Path := "no-slash".toList, PathParams := none }

/-- The node `/a` of `exampleTree`: a literal node without handlers whose
only child is the node `/b` with the handler `1`. -/
def exampleNodeA : node Nat :=
  { NodeType := nodetype_literal, Part := "/a".toList, ParamName := [], ParamEval := [],
    SubNodes := [{ NodeType := nodetype_literal, Part := "/b".toList, ParamName := [],
                   ParamEval := [], SubNodes := [], Handlers := some [1] }],
    Handlers := none }

/-- The router after `AddRoute("/{x:any}/{x:any}", exampleHandler)` on a
new router: two parameter nodes with the same name on one chain. -/
def exampleRouterTwice : router Nat :=
  routerOf (AddRoute NewRouter "/{x:any}/{x:any}".toList [exampleHandler])

/-- The node at a position of the tree: `[i]` is the `i`-th root node,
`i :: is` the node at position `is` below the `i`-th root node. -/
def nodeAt {H : Type} : List Nat → List (node H) → Option (node H)
  | [], _ => none
  | i :: is, nodes =>
    match nodes.get? i with
    | none => none
    | some n => if is.length = 0 then some n else nodeAt is n.SubNodes

/-- The segment texts of the nodes passed on the way to a position. -/
def partsAlong {H : Type} : List Nat → List (node H) → Option (List Str)
  | [], _ => some []
  | i :: is, nodes =>
    match nodes.get? i with
    | none => none
    | some n =>
      match partsAlong is n.SubNodes with
      | none => none
      | some texts => some (n.Part :: texts)

/-- All the nodes at a depth of the tree, the root nodes being at depth 0. -/
def nodesAtDepth {H : Type} : Nat → List (node H) → List (node H)
  | 0, nodes => nodes
  | d + 1, nodes => nodes.flatMap (fun n => nodesAtDepth d n.SubNodes)

/-- The handler slice of the node at a position; `nil` when there is no
node there. -/
def handlersAtPos {H : Type} (pos : List Nat) (nodes : List (node H)) : Option (List H) :=
  match nodeAt pos nodes with
  | none => none
  | some n => n.Handlers

/-- Two nodes agree in `NodeType`, `Part`, `ParamName` and `ParamEval`. -/
def SameHeader {H : Type} (a b : node H) : Prop :=
  a.NodeType = b.NodeType ∧ a.Part = b.Part ∧ a.ParamName = b.ParamName ∧
    a.ParamEval = b.ParamEval

/-- What registering the segments `segs` with the handlers `hs` does to a
sibling list: the first sibling with the text of the first segment is
changed where it stands, or a new node is put after all the siblings; the
change is to the handlers at the last segment and to the children before
it. -/
inductive Added {H : Type} (hs : List H) : List Str → List (node H) → List (node H) → Prop where
  | found_last (part : Str) (pre : List (node H)) (n m : node H) (post : List (node H)) :
      (∀ x ∈ pre, x.Part ≠ part) → n.Part = part → SameHeader m n →
      m.SubNodes = n.SubNodes → m.Handlers = goAppend n.Handlers hs →
      Added hs [part] (pre ++ n :: post) (pre ++ m :: post)
  | found_step (part : Str) (rest : List Str) (pre : List (node H)) (n m : node H)
      (post : List (node H)) :
      rest ≠ [] → (∀ x ∈ pre, x.Part ≠ part) → n.Part = part → SameHeader m n →
      m.Handlers = n.Handlers → Added hs rest n.SubNodes m.SubNodes →
      Added hs (part :: rest) (pre ++ n :: post) (pre ++ m :: post)
  | new_last (part : Str) (nodes : List (node H)) (m : node H) :
      (∀ x ∈ nodes, x.Part ≠ part) → m.Part = part → m.SubNodes = [] →
      m.Handlers = goAppend none hs → Added hs [part] nodes (nodes ++ [m])
  | new_step (part : Str) (rest : List Str) (nodes : List (node H)) (m : node H) :
      rest ≠ [] → (∀ x ∈ nodes, x.Part ≠ part) → m.Part = part → m.Handlers = none →
      Added hs rest [] m.SubNodes → Added hs (part :: rest) nodes (nodes ++ [m])

/-- The sibling list at a position: `[]` is the list of root nodes,
`i :: is` the sibling list at position `is` below the `i`-th root node. -/
def siblingsAt {H : Type} : List Nat → List (node H) → Option (List (node H))
  | [], nodes => some nodes
  | i :: is, nodes =>
    match nodes.get? i with
    | none => none
    | some n => siblingsAt is n.SubNodes

/-- The router after `AddRoute("/u/abc", exampleHandler2)` on
`exampleRouter`, which holds the route `/u/{x:any}`. -/
def exampleRouterGrown : router Nat :=
  routerOf (AddRoute exampleRouter "/u/abc".toList [exampleHandler2])

/-- Whether `matchPartNode` returns `true` for the segment and the node,
the parameter slot left out. -/
def nodeMatches {H V : Type} [Inhabited V] (pf : ParamFuncMap V) (part : Str) (n : node H) : Bool :=
  match matchPartNode part n pf (Param.zero : Param V) with
  | .ok (b, _) => b
  | .panicked => false

/-- The handler slice the sibling loop of `findHandler` returns, the
`params` buffer left out; `recur` is the recursive call on a child list. -/
def findPureLoop {H V : Type} [Inhabited V] (pf : ParamFuncMap V) (part : Str) (rest : List Str)
    (recur : List (node H) → Option (List H)) : List (node H) → Option (List H)
  | [] => none
  | n :: ns =>
    if nodeMatches pf part n then
      if rest.length = 0 then n.Handlers
      else
        match recur n.SubNodes with
        | some result => some result
        | none => findPureLoop pf part rest recur ns
    else findPureLoop pf part rest recur ns

/-- The handler slice `findHandler` returns, the `params` buffer left out. -/
def findPure {H V : Type} [Inhabited V] (pf : ParamFuncMap V) : List Str → List (node H) → Option (List H)
  | [], _ => none
  | part :: rest, nodes => findPureLoop pf part rest (findPure pf rest) nodes

/-- A handler slice that is not `nil` and not empty. -/
def NonEmptySlice {H : Type} (r : Option (List H)) : Prop := ∃ l, r = some l ∧ l ≠ []

/-- A tree and the tree it has grown into by registrations of the handlers
`hs`: the old siblings stand where they stood, with the same `NodeType`,
`Part`, `ParamName` and `ParamEval`, their handler slice as it was or
followed by `hs`, and their children grown in the same way; a sibling list
that was empty may hold one new node, whose handler slice is `nil` or not
empty. -/
inductive Grown {H : Type} (hs : List H) : List (node H) → List (node H) → Prop where
  | done : Grown hs [] []
  | fresh (m : node H) : (m.Handlers = none ∨ NonEmptySlice m.Handlers) →
      Grown hs [] m.SubNodes → Grown hs [] [m]
  | cons (a b : node H) (as bs : List (node H)) : SameHeader b a →
      (b.Handlers = a.Handlers ∨ b.Handlers = goAppend a.Handlers hs) →
      Grown hs a.SubNodes b.SubNodes → Grown hs as bs → Grown hs (a :: as) (b :: bs)

/-- The router after `AddRoute("/{x:any}/c", exampleHandler)` and then
`AddRoute("/a/b", exampleHandler2)` on a new router. -/
def exampleRouterTwoRoutes : router Nat :=
  routerOf (AddRoute (routerOf (AddRoute NewRouter "/{x:any}/c".toList [exampleHandler]))
    "/a/b".toList [exampleHandler2])

/-- The router after `AddRoute("/{x:any}/b", exampleHandler)` on
`exampleRouterTwoRoutes`. -/
def exampleRouterThreeRoutes : router Nat :=
  routerOf (AddRoute exampleRouterTwoRoutes "/{x:any}/b".toList [exampleHandler])

/-- The pattern `^/:([^/]+)$`, which has one capture group: it matches `/:`
followed by one or more characters other than `'/'`. -/
def oneGroupRegex : Regexp := fun part =>
  match part with
  | '/' :: ':' :: c :: rest =>
    if (c :: rest).all (fun x => x != '/') then [part, c :: rest] else []
  | _ => []

/-- A new router whose exported field `ParamRegex` has been set to the
one-group pattern `^/:([^/]+)$`. -/
def exampleRouterOneGroup : router Nat :=
  { (NewRouter : router Nat) with ParamRegex := some oneGroupRegex }

/-! ## The path segmenter -/

theorem goSlice_ok {α : Type} (s : List α) (lo hi : Nat) (h1 : lo ≤ hi) (h2 : hi ≤ s.length) :
    goSlice s lo hi = .ok ((s.drop lo).take (hi - lo)) := by
  simp [goSlice, h1, h2]

theorem goSlice_to_end {α : Type} (s : List α) (lo : Nat) (h : lo ≤ s.length) :
    goSlice s lo s.length = .ok (s.drop lo) := by
  rw [goSlice_ok s lo s.length h (Nat.le_refl _)]
  congr 1
  apply List.take_of_length_le
  simp

/-- The segment cut off at a separator, followed by what is left of the
path, is the path from the start of the segment on. -/
theorem take_append_drop_from {α : Type} (s : List α) (lo hi : Nat) (h : lo ≤ hi) :
    (s.drop lo).take (hi - lo) ++ s.drop hi = s.drop lo := by
  have e : s.drop hi = (s.drop lo).drop (hi - lo) := by
    rw [List.drop_drop]; congr 1; omega
  rw [e, List.take_append_drop]

/-- Loop invariant of `parts`: the loop ends without a panic, the segments
collected so far followed by the rest of the path from `curStart` on stay
the same string, and every new segment starts at a separator. -/
theorem partsLoop_spec (path : Str) :
    ∀ (todo : Str) (idx curStart : Nat) (acc : List Str),
      curStart ≤ idx → path.drop idx = todo → (path.drop curStart).head? = some '/' →
      ∃ acc2 cs, partsLoop path todo idx curStart acc = .ok (acc2, cs) ∧
        cs ≤ path.length ∧ (path.drop cs).head? = some '/' ∧
        acc2.flatten ++ path.drop cs = acc.flatten ++ path.drop curStart ∧
        (∀ s ∈ acc2, s ∈ acc ∨ s.head? = some '/') := by
  intro todo
  induction todo with
  | nil =>
    intro idx curStart acc hle hdrop hhead
    refine ⟨acc, curStart, rfl, ?_, hhead, rfl, fun s hs => Or.inl hs⟩
    by_contra hc
    rw [List.drop_of_length_le (by omega)] at hhead
    simp at hhead
  | cons ch todo ih =>
    intro idx curStart acc hle hdrop hhead
    have hlt : idx < path.length := by
      by_contra hc
      rw [List.drop_of_length_le (by omega)] at hdrop
      simp at hdrop
    have hnext : path.drop (idx + 1) = todo := by
      rw [← List.drop_drop, List.drop_one, hdrop]; rfl
    unfold partsLoop
    split
    · rename_i hcond
      obtain ⟨hne, hch⟩ := hcond
      rw [goSlice_ok path curStart idx hle (Nat.le_of_lt hlt)]
      have hhead2 : (path.drop idx).head? = some '/' := by rw [hdrop, hch]; rfl
      obtain ⟨acc2, cs, hrun, hcs, hh, hjoin, hmem⟩ :=
        ih (idx + 1) idx (acc ++ [(path.drop curStart).take (idx - curStart)])
          (Nat.le_succ _) hnext hhead2
      refine ⟨acc2, cs, hrun, hcs, hh, ?_, ?_⟩
      · rw [hjoin, List.flatten_append, List.append_assoc]
        simp only [List.flatten_cons, List.flatten_nil, List.append_nil]
        rw [take_append_drop_from path curStart idx hle]
      · intro s hs
        rcases hmem s hs with h | h
        · rcases List.mem_append.mp h with h | h
          · exact Or.inl h
          · right
            rw [List.mem_singleton] at h
            subst h
            have hpos : 0 < idx - curStart := by omega
            cases hd : path.drop curStart with
            | nil => rw [hd] at hhead; simp at hhead
            | cons c t =>
              rw [hd] at hhead
              obtain ⟨k, hk⟩ : ∃ k, idx - curStart = k + 1 := ⟨idx - curStart - 1, by omega⟩
              rw [hk]
              simpa using hhead
        · exact Or.inr h
    · exact ih (idx + 1) curStart acc (Nat.le_succ_of_le hle) hnext hhead

/-- What `parts` returns on a path that starts with a separator. -/
theorem parts_of_slash (t : Str) :
    ∃ segs : List Str, parts ('/' :: t) = .ok (some segs) ∧ segs.flatten = '/' :: t ∧
      segs ≠ [] ∧ ∀ s ∈ segs, s.head? = some '/' := by
  obtain ⟨acc2, cs, hrun, hcs, hh, hjoin, hmem⟩ :=
    partsLoop_spec ('/' :: t) ('/' :: t) 0 0 [] (Nat.le_refl _) rfl rfl
  refine ⟨acc2 ++ [('/' :: t).drop cs], ?_, ?_, by simp, ?_⟩
  · simp only [parts, ne_eq, not_true_eq_false, ↓reduceIte, hrun]
    rw [goSlice_to_end _ cs hcs]
  · rw [List.flatten_append]
    simpa using hjoin
  · intro s hs
    rcases List.mem_append.mp hs with h | h
    · rcases hmem s h with h2 | h2
      · simp at h2
      · exact h2
    · rw [List.mem_singleton] at h
      rw [h]; exact hh

/-- `parts` never panics. -/
theorem parts_total (path : Str) : ∃ r, parts path = .ok r := by
  cases path with
  | nil => exact ⟨none, rfl⟩
  | cons c t =>
    by_cases hc : c = '/'
    · subst hc
      obtain ⟨segs, h, _⟩ := parts_of_slash t
      exact ⟨some segs, h⟩
    · exact ⟨none, by simp [parts, hc]⟩

/-- `parts` returns `nil` exactly on the empty path and on a path that does
not start with a separator. -/
theorem parts_eq_none_iff (path : Str) : parts path = .ok none ↔ path.head? ≠ some '/' := by
  cases path with
  | nil => simp [parts]
  | cons c t =>
    by_cases hc : c = '/'
    · subst hc
      obtain ⟨segs, h, _⟩ := parts_of_slash t
      simp [h]
    · simp [parts, hc]

/-! ## Matching one node -/

/-- On a literal node `matchPartNode` compares the texts and leaves the
parameter slot alone. -/
theorem matchPartNode_literal {H V : Type} (part : Str) (n : node H) (pf : ParamFuncMap V)
    (param : Param V) (h : n.NodeType = nodetype_literal) :
    matchPartNode part n pf param = .ok (decide (part = n.Part), param) := by
  simp [matchPartNode, h]

/-- On a parameter node and a non-empty segment `matchPartNode` asks the
evaluator registered under `ParamEval`, if there is one. -/
theorem matchPartNode_param {H V : Type} (c : Char) (t : Str) (n : node H) (pf : ParamFuncMap V)
    (param : Param V) (h : n.NodeType = nodetype_param) :
    matchPartNode (c :: t) n pf param =
      match pf n.ParamEval with
      | none => .ok (false, param)
      | some fn =>
        if (fn t).1 then .ok (true, { Name := n.ParamName, ValueRaw := t, Value := (fn t).2 })
        else .ok (false, param) := by
  have hs : goSlice (c :: t) 1 (c :: t).length = .ok t := by
    have := goSlice_to_end (c :: t) 1 (by simp)
    simpa using this
  have hne : ¬ (n.NodeType = nodetype_literal) := by rw [h]; decide
  have hne2 : ¬ (nodetype_param = nodetype_literal) := by decide
  simp only [matchPartNode, h, hne2, ↓reduceIte, hs]

/-- On a non-empty segment `matchPartNode` never panics. -/
theorem matchPartNode_total {H V : Type} (part : Str) (n : node H) (pf : ParamFuncMap V)
    (param : Param V) (h : part ≠ []) : ∃ r, matchPartNode part n pf param = .ok r := by
  cases part with
  | nil => exact absurd rfl h
  | cons c t =>
    by_cases h0 : n.NodeType = nodetype_literal
    · exact ⟨_, matchPartNode_literal _ n pf param h0⟩
    · by_cases h1 : n.NodeType = nodetype_param
      · rw [matchPartNode_param c t n pf param h1]
        cases pf n.ParamEval with
        | none => exact ⟨_, rfl⟩
        | some fn =>
          by_cases hb : (fn t).1 = true
          · simp only [hb, ↓reduceIte]; exact ⟨_, rfl⟩
          · simp only [hb, ↓reduceIte]; exact ⟨_, rfl⟩
      · simp only [matchPartNode, h0, h1, ↓reduceIte]; exact ⟨_, rfl⟩

/-- A successful match starting from `Param{}` leaves either `Param{}`
(literal node) or the resolved parameter of a parameter node. -/
theorem matchPartNode_true_cases {H V : Type} [Inhabited V] (part : Str) (n : node H)
    (pf : ParamFuncMap V) (p : Param V)
    (h : matchPartNode part n pf Param.zero = .ok (true, p)) :
    (n.NodeType = nodetype_literal ∧ part = n.Part ∧ p = Param.zero) ∨
    (n.NodeType = nodetype_param ∧ ∃ fn, pf n.ParamEval = some fn ∧ (fn (part.drop 1)).1 = true ∧
      part ≠ [] ∧
      p = { Name := n.ParamName, ValueRaw := part.drop 1, Value := (fn (part.drop 1)).2 }) := by
  by_cases h0 : n.NodeType = nodetype_literal
  · left
    rw [matchPartNode_literal _ n pf _ h0] at h
    simp only [Outcome.ok.injEq, Prod.mk.injEq, decide_eq_true_eq] at h
    exact ⟨h0, h.1, h.2.symm⟩
  · by_cases h1 : n.NodeType = nodetype_param
    · right
      refine ⟨h1, ?_⟩
      cases part with
      | nil =>
        have hne2 : ¬ (nodetype_param = nodetype_literal) := by decide
        simp only [matchPartNode, h1, hne2, ↓reduceIte] at h
        cases hpf : pf n.ParamEval with
        | none => simp [hpf] at h
        | some fn => simp [hpf, goSlice] at h
      | cons c t =>
        rw [matchPartNode_param c t n pf _ h1] at h
        cases hpf : pf n.ParamEval with
        | none => simp [hpf] at h
        | some fn =>
          rw [hpf] at h
          by_cases hb : (fn t).1 = true
          · simp only [hb, ↓reduceIte, Outcome.ok.injEq, Prod.mk.injEq, true_and] at h
            exact ⟨fn, rfl, by simpa using hb, by simp, by simpa using h.symm⟩
          · simp [hb] at h
    · simp [matchPartNode, h0, h1] at h

/-! ## The matcher: totality and the chain behind a result -/

theorem findHandler_cons {H V : Type} [Inhabited V] (pf : ParamFuncMap V) (part : Str)
    (rest : List Str) (params : List (Param V)) (nodes : List (node H)) :
    findHandler pf (part :: rest) params nodes =
      findLoop pf part rest (findHandler pf rest) nodes params := rfl

/-- The sibling loop ends without a panic and keeps the length of the
buffer, when the recursive call does. -/
theorem findLoop_total {H V : Type} [Inhabited V] (pf : ParamFuncMap V) (part : Str)
    (rest : List Str)
    (recur : List (Param V) → List (node H) → Outcome (Option (List H) × List (Param V)))
    (hpart : part ≠ [])
    (hrec : rest.length ≠ 0 → ∀ ps ns, rest.length ≤ ps.length →
      ∃ r, recur ps ns = .ok r ∧ r.2.length = ps.length) :
    ∀ (nodes : List (node H)) (params : List (Param V)), rest.length + 1 ≤ params.length →
      ∃ r, findLoop pf part rest recur nodes params = .ok r ∧ r.2.length = params.length := by
  intro nodes
  induction nodes with
  | nil => intro params _; exact ⟨_, rfl, rfl⟩
  | cons n ns ih =>
    intro params hlen
    cases params with
    | nil => simp at hlen
    | cons q ptail =>
      obtain ⟨⟨b, p0⟩, hm⟩ := matchPartNode_total part n pf (Param.zero : Param V) hpart
      cases b with
      | false =>
        simp only [findLoop, hm]
        obtain ⟨r, hr, hl⟩ := ih (p0 :: ptail) (by simpa using hlen)
        exact ⟨r, hr, by simpa using hl⟩
      | true =>
        simp only [findLoop, hm]
        by_cases h0 : rest.length = 0
        · simp only [h0, ↓reduceIte]
          exact ⟨_, rfl, by simp⟩
        · simp only [h0, ↓reduceIte]
          obtain ⟨⟨r, pt2⟩, hr, hl⟩ := hrec h0 ptail n.SubNodes (by simpa using hlen)
          rw [hr]
          cases r with
          | some hs => exact ⟨_, rfl, by simpa using hl⟩
          | none =>
            simp only
            simp only at hl
            obtain ⟨r2, hr2, hl2⟩ := ih (p0 :: pt2) (by simp [hl]; simpa using hlen)
            exact ⟨r2, hr2, by simpa [hl] using hl2⟩

/-- `findHandler` ends without a panic when there is at least one segment,
no segment is empty and the buffer has a slot for every segment. -/
theorem findHandler_total {H V : Type} [Inhabited V] (pf : ParamFuncMap V) :
    ∀ (segs : List Str) (params : List (Param V)) (nodes : List (node H)),
      segs ≠ [] → (∀ s ∈ segs, s ≠ []) → segs.length ≤ params.length →
      ∃ r, findHandler pf segs params nodes = .ok r ∧ r.2.length = params.length := by
  intro segs
  induction segs with
  | nil => intro _ _ h; exact absurd rfl h
  | cons part rest ih =>
    intro params nodes _ hne hlen
    rw [findHandler_cons]
    apply findLoop_total pf part rest _ (hne part (by simp))
    · intro h0 ps ns hl
      exact ih ps ns (by intro h; simp [h] at h0) (fun s hs => hne s (by simp [hs])) hl
    · simpa using hlen

/-- A chain below a sibling list is a chain below any list that holds those
siblings. -/
theorem MatchChain.mono {H V : Type} [Inhabited V] {pf : ParamFuncMap V} {segs : List Str}
    {nodes nodes2 chain : List (node H)} {ps : List (Param V)} {hs : Option (List H)}
    (h : MatchChain pf segs nodes chain ps hs) (hsub : ∀ n ∈ nodes, n ∈ nodes2) :
    MatchChain pf segs nodes2 chain ps hs := by
  cases h with
  | last seg _ n p hmem hm => exact MatchChain.last seg nodes2 n p (hsub n hmem) hm
  | step seg rest _ n chain p ps hs hmem hm hrest =>
    exact MatchChain.step seg rest nodes2 n chain p ps hs (hsub n hmem) hm hrest

/-- A chain has one node and one parameter slot per segment. -/
theorem MatchChain.lengths {H V : Type} [Inhabited V] {pf : ParamFuncMap V} {segs : List Str}
    {nodes chain : List (node H)} {ps : List (Param V)} {hs : Option (List H)}
    (h : MatchChain pf segs nodes chain ps hs) :
    chain.length = segs.length ∧ ps.length = segs.length := by
  induction h with
  | last => exact ⟨rfl, rfl⟩
  | step _ _ _ _ _ _ _ _ _ _ _ ih => simp [ih.1, ih.2]

/-- A non-`nil` result of the sibling loop comes from a chain, and the
buffer then holds the chain's parameter slots. -/
theorem findLoop_sound {H V : Type} [Inhabited V] (pf : ParamFuncMap V) (part : Str)
    (rest : List Str)
    (recur : List (Param V) → List (node H) → Outcome (Option (List H) × List (Param V)))
    (hrec : ∀ ps ns hs ps2, recur ps ns = .ok (some hs, ps2) →
      ∃ chain qs tl, MatchChain pf rest ns chain qs (some hs) ∧ ps2 = qs ++ tl) :
    ∀ (nodes : List (node H)) (params : List (Param V)) (hs : List H) (params2 : List (Param V)),
      findLoop pf part rest recur nodes params = .ok (some hs, params2) →
      ∃ chain qs tl, MatchChain pf (part :: rest) nodes chain qs (some hs) ∧
        params2 = qs ++ tl := by
  intro nodes
  induction nodes with
  | nil => intro params hs params2 h; simp [findLoop] at h
  | cons n ns ih =>
    intro params hs params2 h
    cases params with
    | nil => simp [findLoop] at h
    | cons q ptail =>
      simp only [findLoop] at h
      cases hm : matchPartNode part n pf (Param.zero : Param V) with
      | panicked => simp [hm] at h
      | ok bp =>
        obtain ⟨b, p0⟩ := bp
        rw [hm] at h
        cases b with
        | false =>
          simp only at h
          obtain ⟨chain, qs, tl, hc, hp⟩ := ih (p0 :: ptail) hs params2 h
          exact ⟨chain, qs, tl, hc.mono (fun x hx => List.mem_cons_of_mem _ hx), hp⟩
        | true =>
          simp only at h
          by_cases h0 : rest.length = 0
          · simp only [h0, ↓reduceIte, Outcome.ok.injEq, Prod.mk.injEq] at h
            have hr : rest = [] := List.length_eq_zero.mp h0
            subst hr
            refine ⟨[n], [p0], ptail, ?_, ?_⟩
            · rw [← h.1]
              exact MatchChain.last part (n :: ns) n p0 (by simp) hm
            · simp [← h.2]
          · simp only [h0, ↓reduceIte] at h
            cases hr : recur ptail n.SubNodes with
            | panicked => simp [hr] at h
            | ok r =>
              obtain ⟨res, pt2⟩ := r
              rw [hr] at h
              cases res with
              | some hs2 =>
                simp only [Outcome.ok.injEq, Prod.mk.injEq, Option.some.injEq] at h
                obtain ⟨chain, qs, tl, hc, hp⟩ := hrec ptail n.SubNodes hs2 pt2 hr
                refine ⟨n :: chain, p0 :: qs, tl, ?_, ?_⟩
                · rw [← h.1]
                  exact MatchChain.step part rest (n :: ns) n chain p0 qs (some hs2) (by simp) hm hc
                · rw [← h.2, hp]; simp
              | none =>
                simp only at h
                obtain ⟨chain, qs, tl, hc, hp⟩ := ih (p0 :: pt2) hs params2 h
                exact ⟨chain, qs, tl, hc.mono (fun x hx => List.mem_cons_of_mem _ hx), hp⟩

/-- A non-`nil` result of `findHandler` is the handler slice at the end of
a chain, and the buffer then starts with the chain's parameter slots. -/
theorem findHandler_sound {H V : Type} [Inhabited V] (pf : ParamFuncMap V) :
    ∀ (segs : List Str) (params : List (Param V)) (nodes : List (node H)) (hs : List H)
      (params2 : List (Param V)),
      findHandler pf segs params nodes = .ok (some hs, params2) →
      ∃ chain qs tl, MatchChain pf segs nodes chain qs (some hs) ∧ params2 = qs ++ tl := by
  intro segs
  induction segs with
  | nil => intro params nodes hs params2 h; simp [findHandler] at h
  | cons part rest ih =>
    intro params nodes hs params2 h
    rw [findHandler_cons] at h
    exact findLoop_sound pf part rest _ (fun ps ns hs ps2 hr => ih ps ns hs ps2 hr)
      nodes params hs params2 h

/-! ## `matchPath` -/

/-- `matchPath` on a path that starts with a separator, in terms of
`findHandler` on its segments. -/
theorem matchPath_of_parts {H V : Type} [Inhabited V] (path : Str) (segs : List Str)
    (nodes : List (node H)) (pf : ParamFuncMap V) (h : parts path = .ok (some segs)) :
    matchPath path nodes pf =
      match findHandler pf segs (List.replicate segs.length Param.zero) nodes with
      | .panicked => .panicked
      | .ok (some handlers, params) =>
        .ok (some handlers, some (fillParamMap params (fun _ => none)))
      | .ok (none, _) => .ok (none, none) := by
  simp only [matchPath, h]

/-- `matchPath` on a path that is empty or does not start with a separator. -/
theorem matchPath_invalid {H V : Type} [Inhabited V] (path : Str) (nodes : List (node H))
    (pf : ParamFuncMap V) (h : path.head? ≠ some '/') : matchPath path nodes pf = .ok (none, none) := by
  have hp := (parts_eq_none_iff path).mpr h
  simp only [matchPath, hp]

/-- The segments of a valid path are never empty. -/
theorem parts_segments_ne_nil (path : Str) (segs : List Str) (h : parts path = .ok (some segs)) :
    segs ≠ [] ∧ ∀ s ∈ segs, s ≠ [] := by
  cases path with
  | nil => simp [parts] at h
  | cons c t =>
    by_cases hc : c = '/'
    · subst hc
      obtain ⟨segs2, h2, _, hne, hhead⟩ := parts_of_slash t
      rw [h2] at h
      simp only [Outcome.ok.injEq, Option.some.injEq] at h
      subst h
      refine ⟨hne, fun s hs hnil => ?_⟩
      have := hhead s hs
      rw [hnil] at this
      simp at this
    · simp [parts, hc] at h

/-- `matchPath` never panics: it returns either no handlers and no map, or a
handler slice together with a map. -/
theorem matchPath_total {H V : Type} [Inhabited V] (path : Str) (nodes : List (node H))
    (pf : ParamFuncMap V) :
    matchPath path nodes pf = .ok (none, none) ∨
      ∃ hs pm, matchPath path nodes pf = .ok (some hs, some pm) := by
  obtain ⟨r, hr⟩ := parts_total path
  cases r with
  | none => left; simp only [matchPath, hr]
  | some segs =>
    rw [matchPath_of_parts path segs nodes pf hr]
    obtain ⟨hne, hseg⟩ := parts_segments_ne_nil path segs hr
    obtain ⟨⟨res, ps⟩, hf, _⟩ :=
      findHandler_total pf segs (List.replicate segs.length (Param.zero : Param V)) nodes hne hseg
        (by simp)
    rw [hf]
    cases res with
    | none => left; rfl
    | some hs => right; exact ⟨hs, _, rfl⟩

/-- A handler slice returned by `matchPath` is the one at the end of a chain
for the segments of the path, and the map is filled from the parameter slots
of that chain and from nothing else. -/
theorem matchPath_some {H V : Type} [Inhabited V] (path : Str) (nodes : List (node H))
    (pf : ParamFuncMap V) (hs : List H) (pm : Option (ParamMap V))
    (h : matchPath path nodes pf = .ok (some hs, pm)) :
    ∃ segs chain ps, parts path = .ok (some segs) ∧ MatchChain pf segs nodes chain ps (some hs) ∧
      pm = some (fillParamMap ps (fun _ => none)) := by
  obtain ⟨r, hr⟩ := parts_total path
  cases r with
  | none => simp [matchPath, hr] at h
  | some segs =>
    rw [matchPath_of_parts path segs nodes pf hr] at h
    obtain ⟨hne, hseg⟩ := parts_segments_ne_nil path segs hr
    obtain ⟨⟨res, ps⟩, hf, hl⟩ :=
      findHandler_total pf segs (List.replicate segs.length (Param.zero : Param V)) nodes hne hseg
        (by simp)
    rw [hf] at h
    cases res with
    | none => simp at h
    | some hs2 =>
      simp only [Outcome.ok.injEq, Prod.mk.injEq, Option.some.injEq] at h
      obtain ⟨chain, qs, tl, hc, hp⟩ := findHandler_sound pf segs _ nodes hs2 ps hf
      have hlen := hc.lengths.2
      simp only [List.length_replicate] at hl
      have htl : tl = [] := by
        have : (qs ++ tl).length = segs.length := by rw [← hp]; exact hl
        rw [List.length_append, hlen] at this
        exact List.length_eq_zero.mp (by omega)
      subst htl
      rw [List.append_nil] at hp
      subst hp
      refine ⟨segs, chain, ps, hr, ?_, h.2.symm⟩
      rw [← h.1]; exact hc

/-! ## Building the tree -/

theorem EveryLevel.top {H : Type} {Q : List (node H) → Prop} {nodes : List (node H)}
    (h : EveryLevel Q nodes) : Q nodes := by
  cases h with
  | mk _ hq _ => exact hq

theorem EveryLevel.sub {H : Type} {Q : List (node H) → Prop} {nodes : List (node H)}
    (h : EveryLevel Q nodes) : ∀ n ∈ nodes, EveryLevel Q n.SubNodes := by
  cases h with
  | mk _ _ hb => exact hb

/-- The default pattern has two capture groups. -/
theorem twoGroups_default : TwoGroups (some defaultParamNodeRegex) := by
  intro re hre s
  simp only [Option.some.injEq] at hre
  subst hre
  unfold defaultParamNodeRegex
  split
  · split
    · split
      · split
        · right; exact Nat.le_refl 3
        · left; rfl
      · left; rfl
    · left; rfl
  · left; rfl

/-- A match of the default pattern has non-empty groups. -/
theorem defaultParamNodeRegex_groups (s : Str) (h : (defaultParamNodeRegex s).length ≠ 0) :
    ∃ name ev, defaultParamNodeRegex s = [s, name, ev] ∧ name ≠ [] ∧ ev ≠ [] := by
  unfold defaultParamNodeRegex at h ⊢
  split at h
  · rename_i rest
    split at h
    · rename_i rest2 hd1
      split at h
      · rename_i hd2
        split at h
        · rename_i hne
          rw [if_pos hne]
          exact ⟨_, _, rfl, hne.1, hne.2⟩
        · simp at h
      · simp at h
    · simp at h
  · simp at h

/-- With a pattern of two groups `specPartNode` returns a fresh node that
carries the segment text. -/
theorem specPartNode_ok {H : Type} (part : Str) (re : Option Regexp) (hre : TwoGroups re) :
    ∃ n : node H, specPartNode part re = .ok n ∧ n.Part = part ∧ n.SubNodes = [] ∧
      n.Handlers = none := by
  cases re with
  | none =>
    exact ⟨{ NodeType := nodetype_literal, Part := part, ParamName := [], ParamEval := [],
             SubNodes := [], Handlers := none }, by simp [specPartNode], rfl, rfl, rfl⟩
  | some f =>
    rcases hre f rfl part with h | h
    · exact ⟨{ NodeType := nodetype_literal, Part := part, ParamName := [], ParamEval := [],
               SubNodes := [], Handlers := none }, by simp [specPartNode, h], rfl, rfl, rfl⟩
    · obtain ⟨a, b, c, tl, hf⟩ : ∃ a b c tl, f part = a :: b :: c :: tl := by
        match hfp : f part, h with
        | a :: b :: c :: tl, _ => exact ⟨a, b, c, tl, rfl⟩
        | [], h => simp at h
        | [_], h => simp at h
        | [_, _], h => simp at h
      exact ⟨{ NodeType := nodetype_param, Part := part, ParamName := b, ParamEval := c,
               SubNodes := [], Handlers := none }, by simp [specPartNode, hf, goIndex],
        rfl, rfl, rfl⟩

/-- Whatever the pattern, a node `specPartNode` returns carries the segment
text and has neither children nor handlers. -/
theorem specPartNode_fields {H : Type} (part : Str) (re : Option Regexp) (n : node H)
    (h : specPartNode part re = .ok n) : n.Part = part ∧ n.SubNodes = [] ∧ n.Handlers = none := by
  unfold specPartNode at h
  simp only at h
  split at h
  · split at h
    · simp only [Outcome.ok.injEq] at h
      subst h; exact ⟨rfl, rfl, rfl⟩
    · simp at h
  · simp only [Outcome.ok.injEq] at h
    subst h; exact ⟨rfl, rfl, rfl⟩

/-- With the default pattern a parameter node has a non-empty name and a
literal node none. -/
theorem specPartNode_default {H : Type} (part : Str) (n : node H)
    (h : specPartNode part (some defaultParamNodeRegex) = .ok n) :
    (n.NodeType = nodetype_literal ∧ n.ParamName = [] ∧ n.ParamEval = [] ∧
        defaultParamNodeRegex part = []) ∨
      (n.NodeType = nodetype_param ∧ n.ParamName ≠ [] ∧ n.ParamEval ≠ [] ∧
        defaultParamNodeRegex part = [part, n.ParamName, n.ParamEval]) := by
  by_cases h0 : (defaultParamNodeRegex part).length = 0
  · left
    have h1 := List.length_eq_zero.mp h0
    simp only [specPartNode, h1, List.length_nil, gt_iff_lt, lt_self_iff_false, ↓reduceIte,
      Outcome.ok.injEq] at h
    subst h; exact ⟨rfl, rfl, rfl, h1⟩
  · right
    obtain ⟨name, ev, he, hn, hev⟩ := defaultParamNodeRegex_groups part h0
    simp [specPartNode, he, goIndex] at h
    subst h
    exact ⟨rfl, hn, hev, he⟩

/-- What `updateMatchNode` changes: at the last segment the handlers are
appended to, before it the children are replaced by the recursive result;
the other fields stay. -/
theorem updateMatchNode_ok {H : Type} (handlers : List H) (rest : List Str)
    (recur : List (node H) → Outcome (List (node H))) (m m2 : node H)
    (h : updateMatchNode handlers rest recur m = .ok m2) :
    m2.NodeType = m.NodeType ∧ m2.Part = m.Part ∧ m2.ParamName = m.ParamName ∧
      m2.ParamEval = m.ParamEval ∧
      ((rest = [] ∧ m2.SubNodes = m.SubNodes ∧ m2.Handlers = goAppend m.Handlers handlers) ∨
        (rest ≠ [] ∧ recur m.SubNodes = .ok m2.SubNodes ∧ m2.Handlers = m.Handlers)) := by
  unfold updateMatchNode at h
  split at h
  · rename_i h0
    simp only [Outcome.ok.injEq] at h
    subst h
    exact ⟨rfl, rfl, rfl, rfl, Or.inl ⟨List.length_eq_zero.mp h0, rfl, rfl⟩⟩
  · rename_i h0
    split at h
    · rename_i subs hsub
      simp only [Outcome.ok.injEq] at h
      subst h
      exact ⟨rfl, rfl, rfl, rfl, Or.inr ⟨fun hr => h0 (by simp [hr]), hsub, rfl⟩⟩
    · simp at h

/-- The sibling loop of `addPartsToTree`: either the first sibling with the
segment's text is updated where it stands, or there is none and the updated
new node is put after all the siblings. -/
theorem addAtLevel_ok {H : Type} (upd : node H → Outcome (node H)) (partNode : node H) :
    ∀ (nodes nodes2 : List (node H)), addAtLevel upd partNode nodes = .ok nodes2 →
      (∃ pre n post m, nodes = pre ++ n :: post ∧ (∀ x ∈ pre, x.Part ≠ partNode.Part) ∧
          n.Part = partNode.Part ∧ upd n = .ok m ∧ nodes2 = pre ++ m :: post) ∨
        ((∀ x ∈ nodes, x.Part ≠ partNode.Part) ∧
          ∃ m, upd partNode = .ok m ∧ nodes2 = nodes ++ [m]) := by
  intro nodes
  induction nodes with
  | nil =>
    intro nodes2 h
    right
    simp only [addAtLevel] at h
    cases hu : upd partNode with
    | panicked => simp [hu] at h
    | ok m =>
      simp only [hu, Outcome.ok.injEq] at h
      exact ⟨by simp, m, rfl, by simp [← h]⟩
  | cons n ns ih =>
    intro nodes2 h
    simp only [addAtLevel] at h
    by_cases hp : n.Part = partNode.Part
    · left
      simp only [hp, ↓reduceIte] at h
      cases hu : upd n with
      | panicked => simp [hu] at h
      | ok m =>
        simp only [hu, Outcome.ok.injEq] at h
        exact ⟨[], n, ns, m, rfl, by simp, hp, hu, by simp [← h]⟩
    · simp only [hp, ↓reduceIte] at h
      cases hr : addAtLevel upd partNode ns with
      | panicked => simp [hr] at h
      | ok ms =>
        simp only [hr, Outcome.ok.injEq] at h
        rcases ih ms hr with ⟨pre, x, post, m, hn, hpre, hx, hu, hms⟩ | ⟨hall, m, hu, hms⟩
        · left
          refine ⟨n :: pre, x, post, m, by simp [hn], ?_, hx, hu, by simp [← h, hms]⟩
          intro y hy
          rcases List.mem_cons.mp hy with hy | hy
          · rw [hy]; exact hp
          · exact hpre y hy
        · right
          refine ⟨?_, m, hu, by simp [← h, hms]⟩
          intro y hy
          rcases List.mem_cons.mp hy with hy | hy
          · rw [hy]; exact hp
          · exact hall y hy

theorem addPartsToTree_cons {H : Type} (re : Option Regexp) (handlers : List H) (part : Str)
    (rest : List Str) (nodes : List (node H)) :
    addPartsToTree re handlers (part :: rest) nodes =
      match specPartNode part re with
      | .panicked => .panicked
      | .ok partNode =>
        addAtLevel (updateMatchNode handlers rest (addPartsToTree re handlers rest))
          partNode nodes := rfl

/-- The sibling loop ends without a panic when the update does. -/
theorem addAtLevel_total {H : Type} (upd : node H → Outcome (node H)) (partNode : node H)
    (hupd : ∀ m, ∃ m2, upd m = .ok m2) :
    ∀ nodes : List (node H), ∃ nodes2, addAtLevel upd partNode nodes = .ok nodes2 := by
  intro nodes
  induction nodes with
  | nil =>
    obtain ⟨m2, h⟩ := hupd partNode
    exact ⟨[m2], by simp [addAtLevel, h]⟩
  | cons n ns ih =>
    by_cases hp : n.Part = partNode.Part
    · obtain ⟨m2, h⟩ := hupd n
      exact ⟨m2 :: ns, by simp [addAtLevel, hp, h]⟩
    · obtain ⟨ms, h⟩ := ih
      exact ⟨n :: ms, by simp [addAtLevel, hp, h]⟩

/-- `addPartsToTree` ends without a panic when there is at least one
segment and the pattern has two capture groups. -/
theorem addPartsToTree_total {H : Type} (re : Option Regexp) (hre : TwoGroups re)
    (handlers : List H) :
    ∀ (segs : List Str) (nodes : List (node H)), segs ≠ [] →
      ∃ nodes2, addPartsToTree re handlers segs nodes = .ok nodes2 := by
  intro segs
  induction segs with
  | nil => intro _ h; exact absurd rfl h
  | cons part rest ih =>
    intro nodes _
    obtain ⟨pn, hpn, _⟩ := specPartNode_ok (H := H) part re hre
    rw [addPartsToTree_cons, hpn]
    apply addAtLevel_total
    intro m
    by_cases h0 : rest.length = 0
    · exact ⟨{ m with Handlers := goAppend m.Handlers handlers }, by simp [updateMatchNode, h0]⟩
    · obtain ⟨subs, hs⟩ := ih m.SubNodes (by intro h; simp [h] at h0)
      exact ⟨{ m with SubNodes := subs }, by simp [updateMatchNode, h0, hs]⟩

theorem everyLevel_nil {H : Type} (P : Nat → Str → Prop) :
    EveryLevel (LevelOk P) ([] : List (node H)) :=
  EveryLevel.mk [] ⟨by simp [DistinctParts], by simp⟩ (by simp)

/-- `addPartsToTree` keeps the siblings' `Part`s distinct at every level,
and keeps any property of `NodeType` and `ParamName` that the nodes made by
`specPartNode` for the segments have. -/
theorem addPartsToTree_levelOk {H : Type} (P : Nat → Str → Prop) (re : Option Regexp)
    (handlers : List H) :
    ∀ (segs : List Str) (nodes nodes2 : List (node H)),
      (∀ s ∈ segs, ∀ n : node H, specPartNode s re = .ok n → P n.NodeType n.ParamName) →
      EveryLevel (LevelOk P) nodes → addPartsToTree re handlers segs nodes = .ok nodes2 →
      EveryLevel (LevelOk P) nodes2 := by
  intro segs
  induction segs with
  | nil => intro nodes nodes2 _ _ h; simp [addPartsToTree] at h
  | cons part rest ih =>
    intro nodes nodes2 hP hinv h
    rw [addPartsToTree_cons] at h
    cases hpn : specPartNode (H := H) part re with
    | panicked => simp [hpn] at h
    | ok partNode =>
      rw [hpn] at h
      simp only at h
      have hPrest : ∀ s ∈ rest, ∀ n : node H, specPartNode s re = .ok n →
          P n.NodeType n.ParamName := fun s hs => hP s (List.mem_cons_of_mem _ hs)
      obtain ⟨hpart, hsub0, _⟩ := specPartNode_fields part re partNode hpn
      rcases addAtLevel_ok _ partNode nodes nodes2 h with
        ⟨pre, n, post, m, hn, _, _, hu, h2⟩ | ⟨hall, m, hu, h2⟩
      · obtain ⟨ht, hp, hnm, _, hcase⟩ := updateMatchNode_ok _ _ _ n m hu
        subst hn h2
        have hq := hinv.top
        have hb := hinv.sub
        refine EveryLevel.mk _ ⟨?_, ?_⟩ ?_
        · have := hq.1
          simp only [DistinctParts, List.map_append, List.map_cons] at this ⊢
          rw [hp]; exact this
        · intro x hx
          rcases List.mem_append.mp hx with hx | hx
          · exact hq.2 x (by simp [hx])
          · rcases List.mem_cons.mp hx with hx | hx
            · rw [hx, ht, hnm]; exact hq.2 n (by simp)
            · exact hq.2 x (by simp [hx])
        · intro x hx
          rcases List.mem_append.mp hx with hx | hx
          · exact hb x (by simp [hx])
          · rcases List.mem_cons.mp hx with hx | hx
            · subst hx
              rcases hcase with ⟨_, hs, _⟩ | ⟨_, hs, _⟩
              · rw [hs]; exact hb n (by simp)
              · exact ih n.SubNodes _ hPrest (hb n (by simp)) hs
            · exact hb x (by simp [hx])
      · obtain ⟨ht, hp, hnm, _, hcase⟩ := updateMatchNode_ok _ _ _ partNode m hu
        subst h2
        have hq := hinv.top
        have hb := hinv.sub
        refine EveryLevel.mk _ ⟨?_, ?_⟩ ?_
        · have := hq.1
          simp only [DistinctParts, List.map_append, List.map_cons, List.map_nil] at this ⊢
          rw [List.nodup_append]
          refine ⟨this, by simp, ?_⟩
          intro a ha hb2
          simp only [List.mem_singleton] at hb2
          obtain ⟨x, hx, hxa⟩ := List.mem_map.mp ha
          exact hall x hx (by rw [hxa, hb2, hp])
        · intro x hx
          rcases List.mem_append.mp hx with hx | hx
          · exact hq.2 x hx
          · simp only [List.mem_singleton] at hx
            rw [hx, ht, hnm]
            exact hP part (by simp) partNode hpn
        · intro x hx
          rcases List.mem_append.mp hx with hx | hx
          · exact hb x hx
          · simp only [List.mem_singleton] at hx
            subst hx
            rcases hcase with ⟨_, hs, _⟩ | ⟨_, hs, _⟩
            · rw [hs, hsub0]; exact everyLevel_nil P
            · rw [hsub0] at hs
              exact ih [] _ hPrest (everyLevel_nil P) hs

/-! ## Routers -/

theorem EveryLevel.imp {H : Type} {Q Q2 : List (node H) → Prop} (hq : ∀ l, Q l → Q2 l)
    {nodes : List (node H)} (h : EveryLevel Q nodes) : EveryLevel Q2 nodes := by
  induction h with
  | mk nodes hn _ ih => exact EveryLevel.mk nodes (hq nodes hn) ih

/-- What a call of `AddRoute` that returns does: `false` leaves the router
as it is, `true` means the handlers were not empty, the path was valid and
the routes are those `addPartsToTree` gives. -/
theorem AddRoute_ok {V : Type} (rtr rtr2 : router V) (pathSpec : Str)
    (handlers : List (Handler V)) (b : Bool) (h : AddRoute rtr pathSpec handlers = .ok (b, rtr2)) :
    (b = false ∧ rtr2 = rtr ∧ (handlers = [] ∨ parts pathSpec = .ok none)) ∨
      (b = true ∧ handlers ≠ [] ∧ ∃ segs, parts pathSpec = .ok (some segs) ∧
        addPartsToTree rtr.ParamRegex handlers segs rtr.routes = .ok rtr2.routes ∧
        rtr2 = { rtr with routes := rtr2.routes }) := by
  unfold AddRoute at h
  split at h
  · rename_i hlen
    have hne : handlers ≠ [] := by intro h0; simp [h0] at hlen
    split at h
    · simp at h
    · rename_i hp
      simp only [Outcome.ok.injEq, Prod.mk.injEq] at h
      exact Or.inl ⟨h.1.symm, h.2.symm, Or.inr hp⟩
    · rename_i segs hp
      split at h
      · simp at h
      · rename_i routes hadd
        simp only [Outcome.ok.injEq, Prod.mk.injEq] at h
        obtain ⟨hb, hr⟩ := h
        subst hr
        exact Or.inr ⟨hb.symm, hne, segs, hp, hadd, rfl⟩
  · rename_i hlen
    simp only [Outcome.ok.injEq, Prod.mk.injEq] at h
    refine Or.inl ⟨h.1.symm, h.2.symm, Or.inl ?_⟩
    cases handlers with
    | nil => rfl
    | cons a t => simp at hlen

/-- A reachable router still has the default pattern. -/
theorem Reachable.paramRegex {V : Type} {rtr : router V} (h : Reachable rtr) :
    rtr.ParamRegex = some defaultParamNodeRegex := by
  induction h with
  | new => rfl
  | addRoute rtr rtr2 p hs b _ hadd ih =>
    rcases AddRoute_ok rtr rtr2 p hs b hadd with ⟨_, h2, _⟩ | ⟨_, _, segs, _, _, h2⟩
    · rw [h2]; exact ih
    · rw [h2]; exact ih
  | setParamFunc rtr name fn _ ih =>
    cases fn with
    | none => exact ih
    | some f => exact ih

/-- In the tree of a reachable router, siblings have distinct `Part`s, every
node is a literal or a parameter node, and parameter nodes have a name. -/
theorem Reachable.levelOk {V : Type} {rtr : router V} (h : Reachable rtr) :
    EveryLevel (LevelOk (fun t nm => (t = nodetype_literal ∨ t = nodetype_param) ∧
      (t = nodetype_param → nm ≠ []))) rtr.routes := by
  induction h with
  | new => exact everyLevel_nil _
  | addRoute rtr rtr2 p hs b hreach hadd ih =>
    rcases AddRoute_ok rtr rtr2 p hs b hadd with ⟨_, h2, _⟩ | ⟨_, _, segs, _, hadd2, _⟩
    · rw [h2]; exact ih
    · refine addPartsToTree_levelOk _ rtr.ParamRegex hs segs rtr.routes _ ?_ ih hadd2
      intro s _ n hn
      rw [hreach.paramRegex] at hn
      rcases specPartNode_default s n hn with ⟨ht, _⟩ | ⟨ht, hnm, _⟩
      · exact ⟨Or.inl ht, fun h2 => by rw [ht] at h2; exact absurd h2 (by decide)⟩
      · exact ⟨Or.inr ht, fun _ => hnm⟩
  | setParamFunc rtr name fn _ ih =>
    cases fn with
    | none => exact ih
    | some f => exact ih

/-! ## Chains and the parameter map -/

/-- Position by position, a chain pairs each node with its segment and with
the parameter slot the match left. -/
theorem MatchChain.at_slot {H V : Type} [Inhabited V] {pf : ParamFuncMap V} {segs : List Str}
    {nodes chain : List (node H)} {ps : List (Param V)} {hs : Option (List H)}
    (h : MatchChain pf segs nodes chain ps hs) :
    ∀ (i : Nat) (p : Param V), ps.get? i = some p →
      ∃ n seg, chain.get? i = some n ∧ segs.get? i = some seg ∧
        matchPartNode seg n pf Param.zero = .ok (true, p) := by
  induction h with
  | last seg nodes n p _ hm =>
    intro i q hq
    cases i with
    | zero =>
      simp only [List.get?_cons_zero, Option.some.injEq] at hq
      subst hq
      exact ⟨n, seg, rfl, rfl, hm⟩
    | succ j => simp at hq
  | step seg rest nodes n chain p ps hs _ hm _ ih =>
    intro i q hq
    cases i with
    | zero =>
      simp only [List.get?_cons_zero, Option.some.injEq] at hq
      subst hq
      exact ⟨n, seg, rfl, rfl, hm⟩
    | succ j =>
      simp only [List.get?_cons_succ] at hq
      obtain ⟨n2, seg2, h1, h2, h3⟩ := ih j q hq
      exact ⟨n2, seg2, by simpa using h1, by simpa using h2, h3⟩

/-- Every node of a chain stands at some position of it, with its segment
and its parameter slot. -/
theorem MatchChain.at_node {H V : Type} [Inhabited V] {pf : ParamFuncMap V} {segs : List Str}
    {nodes chain : List (node H)} {ps : List (Param V)} {hs : Option (List H)}
    (h : MatchChain pf segs nodes chain ps hs) :
    ∀ n ∈ chain, ∃ i seg p, chain.get? i = some n ∧ segs.get? i = some seg ∧
      ps.get? i = some p ∧ matchPartNode seg n pf Param.zero = .ok (true, p) := by
  induction h with
  | last seg nodes n p _ hm =>
    intro m hmem
    simp only [List.mem_singleton] at hmem
    subst hmem
    exact ⟨0, seg, p, rfl, rfl, rfl, hm⟩
  | step seg rest nodes n chain p ps hs _ hm _ ih =>
    intro m hmem
    rcases List.mem_cons.mp hmem with h0 | h0
    · subst h0
      exact ⟨0, seg, p, rfl, rfl, rfl, hm⟩
    · obtain ⟨i, seg2, p2, h1, h2, h3, h4⟩ := ih m h0
      exact ⟨i + 1, seg2, p2, by simpa using h1, by simpa using h2, by simpa using h3, h4⟩

/-- The nodes of a chain inherit what holds of every node of the tree. -/
theorem MatchChain.node_ok {H V : Type} [Inhabited V] {pf : ParamFuncMap V} {segs : List Str}
    {nodes chain : List (node H)} {ps : List (Param V)} {hs : Option (List H)}
    (P : Nat → Str → Prop) (h : MatchChain pf segs nodes chain ps hs)
    (hinv : EveryLevel (LevelOk P) nodes) : ∀ n ∈ chain, P n.NodeType n.ParamName := by
  induction h with
  | last seg nodes n p hmem _ =>
    intro m hm
    simp only [List.mem_singleton] at hm
    subst hm
    exact hinv.top.2 m hmem
  | step seg rest nodes n chain p ps hs hmem _ _ ih =>
    intro m hm
    rcases List.mem_cons.mp hm with h0 | h0
    · subst h0; exact hinv.top.2 m hmem
    · exact ih (hinv.sub n hmem) m h0

/-- An entry of the filled map was there before or is a slot of the buffer
with that name. -/
theorem fillParamMap_some {V : Type} :
    ∀ (ps : List (Param V)) (m0 : ParamMap V) (name : Str) (p : Param V),
      fillParamMap ps m0 name = some p →
      m0 name = some p ∨ ∃ i, ps.get? i = some p ∧ p.Name = name ∧ name ≠ [] := by
  intro ps
  induction ps with
  | nil => intro m0 name p h; exact Or.inl h
  | cons q more ih =>
    intro m0 name p h
    simp only [fillParamMap] at h
    by_cases hq : q.Name = []
    · simp only [hq, ne_eq, not_true_eq_false, ↓reduceIte] at h
      rcases ih m0 name p h with h1 | ⟨i, h1, h2, h3⟩
      · exact Or.inl h1
      · exact Or.inr ⟨i + 1, by simpa using h1, h2, h3⟩
    · simp only [ne_eq, hq, not_false_eq_true, ↓reduceIte] at h
      rcases ih _ name p h with h1 | ⟨i, h1, h2, h3⟩
      · by_cases hn : name = q.Name
        · subst hn
          simp only [Function.update_same, Option.some.injEq] at h1
          subst h1
          exact Or.inr ⟨0, rfl, rfl, hq⟩
        · rw [Function.update_noteq hn] at h1
          exact Or.inl h1
      · exact Or.inr ⟨i + 1, by simpa using h1, h2, h3⟩

/-- A slot of the buffer with a non-empty name gives the filled map an entry
under that name. -/
theorem fillParamMap_isSome {V : Type} :
    ∀ (ps : List (Param V)) (m0 : ParamMap V) (name : Str),
      name ≠ [] → ((∃ q ∈ ps, q.Name = name) ∨ ∃ p, m0 name = some p) →
      ∃ p, fillParamMap ps m0 name = some p := by
  intro ps
  induction ps with
  | nil =>
    intro m0 name _ h
    rcases h with ⟨q, hq, _⟩ | h
    · simp at hq
    · exact h
  | cons q more ih =>
    intro m0 name hne h
    simp only [fillParamMap]
    by_cases hq : q.Name = []
    · simp only [hq, ne_eq, not_true_eq_false, ↓reduceIte]
      apply ih m0 name hne
      rcases h with ⟨x, hx, hxn⟩ | h
      · rcases List.mem_cons.mp hx with h0 | h0
        · subst h0; rw [hq] at hxn; exact absurd hxn.symm hne
        · exact Or.inl ⟨x, h0, hxn⟩
      · exact Or.inr h
    · simp only [ne_eq, hq, not_false_eq_true, ↓reduceIte]
      apply ih _ name hne
      by_cases hn : name = q.Name
      · right; subst hn; exact ⟨q, by simp⟩
      · rcases h with ⟨x, hx, hxn⟩ | ⟨p, hp⟩
        · rcases List.mem_cons.mp hx with h0 | h0
          · subst h0; exact absurd hxn.symm hn
          · exact Or.inl ⟨x, h0, hxn⟩
        · right; exact ⟨p, by rw [Function.update_noteq hn]; exact hp⟩

/-! ## Claims C1 and C2: what `matchPath` returns -/

/-- C1 (the code departs from it): after registering `/a/b` and then
`/{x:any}`, the request path `/a` has a chain of matching nodes that ends in
a node with handlers (the parameter node, which holds handler `2`), yet
`matchPath` reports no match: at the final depth `findHandler` returns the
`nil` handler slice of the first matching sibling `/a` and never tries the
parameter node after it. -/
theorem findHandler_final_depth_stops_at_first_match :
    addPartsToTree (some defaultParamNodeRegex) [1] ["/a".toList, "/b".toList] [] =
        .ok exampleTreeAB ∧
      addPartsToTree (some defaultParamNodeRegex) [2] ["/{x:any}".toList] exampleTreeAB =
        .ok exampleTree ∧
      parts "/a".toList = .ok (some ["/a".toList]) ∧
      MatchChain exampleFuncs ["/a".toList] exampleTree [exampleParamNode]
        [{ Name := "x".toList, ValueRaw := "a".toList, Value := 1 }] (some [2]) ∧
      matchPath "/a".toList exampleTree exampleFuncs = .ok (none, none) := by
  refine ⟨rfl, rfl, rfl, ?_, rfl⟩
  exact MatchChain.last _ _ exampleParamNode _ (by simp [exampleTree]) rfl

/-- C2: on the tree of a router reached from `NewRouter()` (default
pattern), with any registry and any path, a handler slice returned by
`matchPath` is the `Handlers` of the last node of a chain that has one
matching node per segment of the path, and the returned map has an entry
under a name exactly when a parameter node of that chain has that name; the
entry then is the parameter resolved at a parameter node of the chain from
its own segment (the segment without its first character, and the value the
registered evaluator gives for it).  Slots of abandoned siblings and literal
nodes give no entry. -/
theorem matchPath_handlers_and_params_from_chain {V : Type} [Inhabited V] (rtr : router V)
    (hreach : Reachable rtr) (pf : ParamFuncMap V) (path : Str) (hs : List (Handler V))
    (pm : Option (ParamMap V)) (h : matchPath path rtr.routes pf = .ok (some hs, pm)) :
    ∃ segs chain ps m, parts path = .ok (some segs) ∧ pm = some m ∧
      MatchChain pf segs rtr.routes chain ps (some hs) ∧ chain.length = segs.length ∧
      (∀ name, (∃ p, m name = some p) ↔
        ∃ n ∈ chain, n.NodeType = nodetype_param ∧ n.ParamName = name) ∧
      (∀ name p, m name = some p →
        ∃ i n seg fn, chain.get? i = some n ∧ segs.get? i = some seg ∧
          n.NodeType = nodetype_param ∧ n.ParamName = name ∧ pf n.ParamEval = some fn ∧
          (fn (seg.drop 1)).1 = true ∧
          p = { Name := name, ValueRaw := seg.drop 1, Value := (fn (seg.drop 1)).2 }) := by
  obtain ⟨segs, chain, ps, hparts, hchain, hpm⟩ := matchPath_some path rtr.routes pf hs pm h
  have hentry : ∀ name p, fillParamMap ps (fun _ => none) name = some p →
      ∃ i n seg fn, chain.get? i = some n ∧ segs.get? i = some seg ∧
        n.NodeType = nodetype_param ∧ n.ParamName = name ∧ pf n.ParamEval = some fn ∧
        (fn (seg.drop 1)).1 = true ∧
        p = { Name := name, ValueRaw := seg.drop 1, Value := (fn (seg.drop 1)).2 } := by
    intro name p hp
    rcases fillParamMap_some ps _ name p hp with h0 | ⟨i, hi, hname, hne⟩
    · simp at h0
    · obtain ⟨n, seg, hn, hseg, hm⟩ := hchain.at_slot i p hi
      rcases matchPartNode_true_cases seg n pf p hm with ⟨_, _, hz⟩ | ⟨ht, fn, hfn, hacc, _, hpv⟩
      · rw [hz] at hname
        exact absurd hname.symm hne
      · have hnn : n.ParamName = name := by rw [← hname, hpv]
        exact ⟨i, n, seg, fn, hn, hseg, ht, hnn, hfn, hacc, by rw [hpv, hnn]⟩
  refine ⟨segs, chain, ps, _, hparts, hpm, hchain, hchain.lengths.1, ?_, hentry⟩
  intro name
  constructor
  · rintro ⟨p, hp⟩
    obtain ⟨i, n, seg, fn, hn, _, ht, hnn, _⟩ := hentry name p hp
    exact ⟨n, List.get?_mem hn, ht, hnn⟩
  · rintro ⟨n, hn, ht, hnn⟩
    obtain ⟨i, seg, p, _, _, hp, hm⟩ := hchain.at_node n hn
    have hne : name ≠ [] := by
      rw [← hnn]
      exact (hchain.node_ok _ hreach.levelOk n hn).2 ht
    apply fillParamMap_isSome ps _ name hne
    left
    refine ⟨p, List.get?_mem hp, ?_⟩
    rcases matchPartNode_true_cases seg n pf p hm with ⟨ht0, _, _⟩ | ⟨_, fn, _, _, _, hpv⟩
    · rw [ht] at ht0; exact absurd ht0 (by decide)
    · rw [hpv]; exact hnn

/-- C2 at a concrete input: the router with the route `/u/{x:any}` and the
path `/u/abc`. -/
theorem matchPath_handlers_and_params_from_chain_witness :
    Reachable exampleRouter ∧
    matchPath "/u/abc".toList exampleRouter.routes exampleFuncs =
      .ok (some [exampleHandler], some (fillParamMap
        [Param.zero, { Name := "x".toList, ValueRaw := "abc".toList, Value := 3 }]
        (fun _ => none))) ∧
    ∃ segs chain ps m, parts "/u/abc".toList = .ok (some segs) ∧
      (some (fillParamMap [Param.zero, { Name := "x".toList, ValueRaw := "abc".toList, Value := 3 }]
        (fun _ => none)) : Option (ParamMap Nat)) = some m ∧
      MatchChain exampleFuncs segs exampleRouter.routes chain ps (some [exampleHandler]) ∧
      chain.length = segs.length ∧
      (∀ name, (∃ p, m name = some p) ↔
        ∃ n ∈ chain, n.NodeType = nodetype_param ∧ n.ParamName = name) ∧
      (∀ name p, m name = some p →
        ∃ i n seg fn, chain.get? i = some n ∧ segs.get? i = some seg ∧
          n.NodeType = nodetype_param ∧ n.ParamName = name ∧ exampleFuncs n.ParamEval = some fn ∧
          (fn (seg.drop 1)).1 = true ∧
          p = { Name := name, ValueRaw := seg.drop 1, Value := (fn (seg.drop 1)).2 }) :=
  ⟨Reachable.addRoute NewRouter exampleRouter "/u/{x:any}".toList [exampleHandler] true
      Reachable.new rfl,
    rfl,
    matchPath_handlers_and_params_from_chain exampleRouter
      (Reachable.addRoute NewRouter exampleRouter "/u/{x:any}".toList [exampleHandler] true
        Reachable.new rfl)
      exampleFuncs "/u/abc".toList [exampleHandler] _ rfl⟩

/-! ## Looking a path up by its text -/

theorem handlersAt_nil_nodes {H : Type} (q : List Str) : handlersAt q ([] : List (node H)) = none := by
  cases q with
  | nil => rfl
  | cons s t => rfl

theorem goAppend_nil {H : Type} (s : Option (List H)) : goAppend s [] = s := by
  cases s with
  | none => rfl
  | some l => simp [goAppend]

theorem goAppend_goAppend {H : Type} (s : Option (List H)) (a b : List H) :
    goAppend (goAppend s a) b = goAppend s (a ++ b) := by
  cases s with
  | none =>
    cases a with
    | nil => rfl
    | cons x t => simp [goAppend]
  | some l => simp [goAppend]

/-- The first sibling with a given text, after the sibling loop of
`addPartsToTree` has run for `partNode`: for another text it is the same
node as before, for the text of `partNode` it is the update of the node that
was there, or of `partNode` when there was none. -/
theorem addAtLevel_find {H : Type} (upd : node H → Outcome (node H)) (partNode : node H)
    (hupd : ∀ x y, upd x = .ok y → y.Part = x.Part) :
    ∀ (nodes nodes2 : List (node H)), addAtLevel upd partNode nodes = .ok nodes2 →
      (∀ s, s ≠ partNode.Part →
        nodes2.find? (fun n => decide (n.Part = s)) = nodes.find? (fun n => decide (n.Part = s))) ∧
      ∃ m, nodes2.find? (fun n => decide (n.Part = partNode.Part)) = some m ∧
        upd ((nodes.find? (fun n => decide (n.Part = partNode.Part))).getD partNode) = .ok m := by
  intro nodes
  induction nodes with
  | nil =>
    intro nodes2 h
    simp only [addAtLevel] at h
    cases hu : upd partNode with
    | panicked => simp [hu] at h
    | ok m =>
      simp only [hu, Outcome.ok.injEq] at h
      subst h
      have hp := hupd _ _ hu
      refine ⟨fun s hs => ?_, m, ?_, by simpa using hu⟩
      · have : ¬ (m.Part = s) := by rw [hp]; exact fun h2 => hs h2.symm
        simp [List.find?, this]
      · simp [List.find?, hp]
  | cons n ns ih =>
    intro nodes2 h
    simp only [addAtLevel] at h
    by_cases hp : n.Part = partNode.Part
    · simp only [hp, ↓reduceIte] at h
      cases hu : upd n with
      | panicked => simp [hu] at h
      | ok m =>
        simp only [hu, Outcome.ok.injEq] at h
        subst h
        have hmp := hupd _ _ hu
        refine ⟨fun s hs => ?_, m, ?_, ?_⟩
        · have h1 : ¬ (m.Part = s) := by rw [hmp, hp]; exact fun h2 => hs h2.symm
          have h2 : ¬ (n.Part = s) := by rw [hp]; exact fun h2 => hs h2.symm
          simp [List.find?, h1, h2]
        · simp [List.find?, hmp, hp]
        · simp [List.find?, hp, hu]
    · simp only [hp, ↓reduceIte] at h
      cases hr : addAtLevel upd partNode ns with
      | panicked => simp [hr] at h
      | ok ms =>
        simp only [hr, Outcome.ok.injEq] at h
        subst h
        obtain ⟨h1, m, h2, h3⟩ := ih ms hr
        refine ⟨fun s hs => ?_, m, ?_, ?_⟩
        · by_cases hns : n.Part = s
          · simp [List.find?, hns]
          · simp only [List.find?, hns, decide_False]
            exact h1 s hs
        · simp only [List.find?, hp, decide_False]
          exact h2
        · simp only [List.find?, hp, decide_False]
          exact h3

/-- Registering the segments `segs` with `handlers` appends `handlers` to
the slice found under `segs` and changes the slice found under no other
sequence of segments. -/
theorem handlersAt_addPartsToTree {H : Type} (re : Option Regexp) (handlers : List H) :
    ∀ (segs : List Str) (nodes nodes2 : List (node H)),
      addPartsToTree re handlers segs nodes = .ok nodes2 →
      ∀ q, handlersAt q nodes2 =
        if q = segs then goAppend (handlersAt q nodes) handlers else handlersAt q nodes := by
  intro segs
  induction segs with
  | nil => intro nodes nodes2 h; simp [addPartsToTree] at h
  | cons part rest ih =>
    intro nodes nodes2 h q
    rw [addPartsToTree_cons] at h
    cases hpn : specPartNode (H := H) part re with
    | panicked => simp [hpn] at h
    | ok partNode =>
      rw [hpn] at h
      simp only at h
      obtain ⟨hpart, hsub0, hh0⟩ := specPartNode_fields part re partNode hpn
      obtain ⟨hother, m, hfind, hupd⟩ := addAtLevel_find _ partNode
        (fun x y hxy => (updateMatchNode_ok _ _ _ x y hxy).2.1) nodes nodes2 h
      rw [hpart] at hother hfind hupd
      cases q with
      | nil => simp [handlersAt]
      | cons s qrest =>
        by_cases hs : s = part
        · subst hs
          obtain ⟨_, _, _, _, hcase⟩ := updateMatchNode_ok _ _ _ _ m hupd
          have hold : handlersAt (s :: qrest) nodes =
              if qrest.length = 0 then
                ((nodes.find? (fun n => decide (n.Part = s))).getD partNode).Handlers
              else handlersAt qrest
                ((nodes.find? (fun n => decide (n.Part = s))).getD partNode).SubNodes := by
            simp only [handlersAt]
            cases nodes.find? (fun n => decide (n.Part = s)) with
            | none => simp [hh0, hsub0, handlersAt_nil_nodes]
            | some n => simp
          rw [hold]
          simp only [handlersAt, hfind, List.cons.injEq, true_and]
          rcases hcase with ⟨hr, hsubs, hhs⟩ | ⟨hr, hrec, hhs⟩
          · subst hr
            by_cases hq : qrest.length = 0
            · have : qrest = [] := List.length_eq_zero.mp hq
              simp [this, hhs]
            · have : qrest ≠ [] := fun h2 => hq (by simp [h2])
              simp [hq, this, hsubs]
          · by_cases hq : qrest.length = 0
            · have hq2 : qrest = [] := List.length_eq_zero.mp hq
              have : ¬ (qrest = rest) := by rw [hq2]; exact fun h2 => hr h2.symm
              simp [hq, this, hhs]
            · simp only [hq, ↓reduceIte]
              exact ih _ _ hrec qrest
        · have hne : ¬ (s :: qrest = part :: rest) := by
            intro h2; simp only [List.cons.injEq] at h2; exact hs h2.1
          simp only [handlersAt, hother s hs, hne, ↓reduceIte]

/-! ## Matching in a tree of literal nodes -/

/-- In a sibling list of literal nodes none of which has the text `part`,
the loop of `findHandler` finds nothing. -/
theorem findLoop_literal_none {H V : Type} [Inhabited V] (pf : ParamFuncMap V) (part : Str)
    (rest : List Str)
    (recur : List (Param V) → List (node H) → Outcome (Option (List H) × List (Param V))) :
    ∀ (nodes : List (node H)) (params : List (Param V)),
      (∀ n ∈ nodes, n.NodeType = nodetype_literal ∧ n.Part ≠ part) →
      1 ≤ params.length →
      ∃ ps, findLoop pf part rest recur nodes params = .ok (none, ps) ∧
        ps.length = params.length := by
  intro nodes
  induction nodes with
  | nil => intro params _ _; exact ⟨params, rfl, rfl⟩
  | cons n ns ih =>
    intro params hall hlen
    cases params with
    | nil => simp at hlen
    | cons q ptail =>
      obtain ⟨ht, hp⟩ := hall n (by simp)
      have hm := matchPartNode_literal part n pf (Param.zero : Param V) ht
      have hd : decide (part = n.Part) = false := by
        simp only [decide_eq_false_iff_not]; exact fun h => hp h.symm
      rw [hd] at hm
      simp only [findLoop, hm]
      obtain ⟨ps, h1, h2⟩ := ih (Param.zero :: ptail)
        (fun x hx => hall x (List.mem_cons_of_mem _ hx)) (by simp)
      exact ⟨ps, h1, by simpa using h2⟩

/-- In a sibling list of literal nodes with distinct texts, the loop of
`findHandler` returns what is found below the first node with the text
`part`. -/
theorem findLoop_literal {H V : Type} [Inhabited V] (pf : ParamFuncMap V) (part : Str)
    (rest : List Str)
    (recur : List (Param V) → List (node H) → Outcome (Option (List H) × List (Param V))) :
    ∀ (nodes : List (node H)) (params : List (Param V)),
      (∀ n ∈ nodes, n.NodeType = nodetype_literal) → DistinctParts nodes →
      (rest.length ≠ 0 → ∀ n ∈ nodes, ∀ ps : List (Param V), rest.length ≤ ps.length →
        ∃ ps2, recur ps n.SubNodes = .ok (handlersAt rest n.SubNodes, ps2) ∧
          ps2.length = ps.length) →
      rest.length + 1 ≤ params.length →
      ∃ ps, findLoop pf part rest recur nodes params = .ok (handlersAt (part :: rest) nodes, ps) ∧
        ps.length = params.length := by
  intro nodes
  induction nodes with
  | nil => intro params _ _ _ _; exact ⟨params, rfl, rfl⟩
  | cons n ns ih =>
    intro params hlit hdist hrec hlen
    cases params with
    | nil => simp at hlen
    | cons q ptail =>
      have hm := matchPartNode_literal part n pf (Param.zero : Param V) (hlit n (by simp))
      have hdist2 : DistinctParts ns := by
        simp only [DistinctParts, List.map_cons, List.nodup_cons] at hdist
        exact hdist.2
      by_cases hp : part = n.Part
      · have hd : decide (part = n.Part) = true := by simp [hp]
        rw [hd] at hm
        have hfind : (n :: ns).find? (fun x => decide (x.Part = part)) = some n := by
          simp [List.find?, hp]
        have hnone : ∀ x ∈ ns, x.NodeType = nodetype_literal ∧ x.Part ≠ part := by
          intro x hx
          refine ⟨hlit x (List.mem_cons_of_mem _ hx), fun hxp => ?_⟩
          simp only [DistinctParts, List.map_cons, List.nodup_cons] at hdist
          exact hdist.1 (List.mem_map.mpr ⟨x, hx, by rw [hxp, hp]⟩)
        simp only [findLoop, hm, handlersAt, hfind]
        by_cases h0 : rest.length = 0
        · simp only [h0, ↓reduceIte]
          exact ⟨_, rfl, by simp⟩
        · simp only [h0, ↓reduceIte]
          obtain ⟨ps2, hr, hl⟩ := hrec h0 n (by simp) ptail (by simpa using hlen)
          rw [hr]
          cases hres : handlersAt rest n.SubNodes with
          | some hs => exact ⟨_, rfl, by simpa using hl⟩
          | none =>
            simp only
            obtain ⟨ps3, h1, h2⟩ := findLoop_literal_none pf part rest recur ns (Param.zero :: ps2)
              hnone (by simp)
            exact ⟨ps3, h1, by simpa [hl] using h2⟩
      · have hd : decide (part = n.Part) = false := by simp [hp]
        rw [hd] at hm
        have hfind : (n :: ns).find? (fun x => decide (x.Part = part)) =
            ns.find? (fun x => decide (x.Part = part)) := by
          have : ¬ (n.Part = part) := fun h => hp h.symm
          simp [List.find?, this]
        obtain ⟨ps, h1, h2⟩ := ih (Param.zero :: ptail)
          (fun x hx => hlit x (List.mem_cons_of_mem _ hx)) hdist2
          (fun h0 x hx => hrec h0 x (List.mem_cons_of_mem _ hx)) (by simpa using hlen)
        refine ⟨ps, ?_, by simpa using h2⟩
        simp only [findLoop, hm]
        rw [h1]
        simp only [handlersAt, hfind]

/-- In a tree of literal nodes with distinct texts among siblings,
`findHandler` returns the handler slice found by following the segments'
texts. -/
theorem findHandler_literal {H V : Type} [Inhabited V] (pf : ParamFuncMap V) :
    ∀ (segs : List Str) (params : List (Param V)) (nodes : List (node H)),
      segs ≠ [] → segs.length ≤ params.length →
      EveryLevel (LevelOk (fun t _ => t = nodetype_literal)) nodes →
      ∃ ps, findHandler pf segs params nodes = .ok (handlersAt segs nodes, ps) ∧
        ps.length = params.length := by
  intro segs
  induction segs with
  | nil => intro _ _ h; exact absurd rfl h
  | cons part rest ih =>
    intro params nodes _ hlen hinv
    rw [findHandler_cons]
    apply findLoop_literal pf part rest _ nodes params hinv.top.2 hinv.top.1
    · intro h0 n hn ps hl
      exact ih ps n.SubNodes (fun h => h0 (by simp [h])) hl (hinv.sub n hn)
    · simpa using hlen

/-- The segments of a valid path, put together again, are the path. -/
theorem parts_some_flatten (path : Str) (segs : List Str) (h : parts path = .ok (some segs)) :
    segs.flatten = path := by
  cases path with
  | nil => simp [parts] at h
  | cons c t =>
    by_cases hc : c = '/'
    · subst hc
      obtain ⟨segs2, h2, hj, _⟩ := parts_of_slash t
      rw [h2] at h
      simp only [Outcome.ok.injEq, Option.some.injEq] at h
      rw [← h]; exact hj
    · simp [parts, hc] at h

/-- Slots without a name add nothing to the map. -/
theorem fillParamMap_unnamed {V : Type} :
    ∀ (ps : List (Param V)) (m0 : ParamMap V), (∀ p ∈ ps, p.Name = []) → fillParamMap ps m0 = m0 := by
  intro ps
  induction ps with
  | nil => intro m0 _; rfl
  | cons q more ih =>
    intro m0 h
    have hq : q.Name = [] := h q (by simp)
    simp only [fillParamMap, hq, ne_eq, not_true_eq_false, ↓reduceIte]
    exact ih m0 (fun p hp => h p (List.mem_cons_of_mem _ hp))

/-- In a tree of literal nodes with distinct texts among siblings,
`matchPath` returns the handler slice found by following the segments' texts
and an empty map, or no match when that slice is `nil`. -/
theorem matchPath_literal {H V : Type} [Inhabited V] (pf : ParamFuncMap V) (q : Str)
    (segs : List Str) (nodes : List (node H)) (hq : parts q = .ok (some segs))
    (hinv : EveryLevel (LevelOk (fun t _ => t = nodetype_literal)) nodes) :
    matchPath q nodes pf =
      match handlersAt segs nodes with
      | none => .ok (none, none)
      | some hs => .ok (some hs, some (fun _ => none)) := by
  obtain ⟨hne, _⟩ := parts_segments_ne_nil q segs hq
  obtain ⟨ps, hf, _⟩ := findHandler_literal pf segs
    (List.replicate segs.length (Param.zero : Param V)) nodes hne (by simp) hinv
  have hm := matchPath_of_parts q segs nodes pf hq
  rw [hf] at hm
  cases hres : handlersAt segs nodes with
  | none => rw [hres] at hm; simpa using hm
  | some hs =>
    rw [hres] at hm
    simp only at hm
    obtain ⟨segs2, chain, ps2, _, hchain, hpm⟩ := matchPath_some q nodes pf hs _ hm
    have hzero : ∀ p ∈ ps2, p.Name = [] := by
      intro p hp
      obtain ⟨i, hi⟩ := List.get?_of_mem hp
      obtain ⟨n, seg, hn, _, hmatch⟩ := hchain.at_slot i p hi
      have hlit := hchain.node_ok _ hinv n (List.get?_mem hn)
      rcases matchPartNode_true_cases seg n pf p hmatch with ⟨_, _, hz⟩ | ⟨ht, _⟩
      · rw [hz]; rfl
      · rw [hlit] at ht; exact absurd ht (by decide)
    rw [hm, hpm, fillParamMap_unnamed ps2 _ hzero]

/-- A literal-only spec makes literal nodes. -/
theorem specPartNode_literalSpec {H : Type} (s : Str) (n : node H)
    (hs : defaultParamNodeRegex s = [])
    (h : specPartNode s (some defaultParamNodeRegex) = .ok n) : n.NodeType = nodetype_literal := by
  simp only [specPartNode, hs, List.length_nil, gt_iff_lt, lt_self_iff_false, ↓reduceIte,
    Outcome.ok.injEq] at h
  rw [← h]

/-- A run of successful `AddRoute` calls with literal-only specs, on a
router with the default pattern and a tree of literal nodes: the tree stays
one of literal nodes, every spec was a valid path, and under the segments
of a path the tree holds what it held before followed by the handlers
registered for that path, call after call. -/
theorem addRoutes_literal {V : Type} :
    ∀ (calls : List (Str × List (Handler V))) (rtr rtr2 : router V),
      addRoutes rtr calls = some rtr2 → (∀ c ∈ calls, LiteralSpec c.1) →
      rtr.ParamRegex = some defaultParamNodeRegex →
      EveryLevel (LevelOk (fun t _ => t = nodetype_literal)) rtr.routes →
      EveryLevel (LevelOk (fun t _ => t = nodetype_literal)) rtr2.routes ∧
        (∀ c ∈ calls, c.1.head? = some '/') ∧
        ∀ q segs, parts q = .ok (some segs) →
          handlersAt segs rtr2.routes =
            goAppend (handlersAt segs rtr.routes) (registeredFor q calls) := by
  intro calls
  induction calls with
  | nil =>
    intro rtr rtr2 h _ _ hinv
    simp only [addRoutes, Option.some.injEq] at h
    subst h
    exact ⟨hinv, by simp, fun q segs _ => by simp [registeredFor, goAppend_nil]⟩
  | cons c more ih =>
    intro rtr rtr2 h hlit hre hinv
    obtain ⟨p, hs⟩ := c
    simp only [addRoutes] at h
    cases hadd : AddRoute rtr p hs with
    | panicked => simp [hadd] at h
    | ok r =>
      obtain ⟨b, r1⟩ := r
      cases b with
      | false => simp [hadd] at h
      | true =>
        simp only [hadd] at h
        rcases AddRoute_ok rtr r1 p hs true hadd with ⟨hb, _⟩ | ⟨_, _, psegs, hp, hadd2, hr1⟩
        · simp at hb
        · have hre1 : r1.ParamRegex = some defaultParamNodeRegex := by rw [hr1]; exact hre
          have hlitp := hlit (p, hs) (by simp) psegs hp
          have hinv1 : EveryLevel (LevelOk (fun t _ => t = nodetype_literal)) r1.routes := by
            refine addPartsToTree_levelOk _ rtr.ParamRegex hs psegs rtr.routes _ ?_ hinv hadd2
            intro s hsmem n hn
            rw [hre] at hn
            exact specPartNode_literalSpec s n (hlitp s hsmem) hn
          obtain ⟨hinv2, hvalid, hlook⟩ :=
            ih r1 rtr2 h (fun c hc => hlit c (List.mem_cons_of_mem _ hc)) hre1 hinv1
          have hpvalid : p.head? = some '/' := by
            by_contra hc
            rw [(parts_eq_none_iff p).mpr hc] at hp
            simp at hp
          refine ⟨hinv2, ?_, ?_⟩
          · intro c hc
            rcases List.mem_cons.mp hc with h0 | h0
            · rw [h0]; exact hpvalid
            · exact hvalid c h0
          · intro q segs hq
            rw [hlook q segs hq, handlersAt_addPartsToTree _ _ _ _ _ hadd2 segs]
            simp only [registeredFor]
            by_cases hpq : p = q
            · subst hpq
              have : segs = psegs := by
                rw [hp] at hq
                simpa using hq.symm
              simp [this, goAppend_goAppend]
            · have : ¬ (segs = psegs) := by
                intro h2
                apply hpq
                rw [← parts_some_flatten p psegs hp, ← parts_some_flatten q segs hq, h2]
              simp [this, hpq]

/-! ## Claim C3: routes of literal segments -/

/-- C3: after any sequence of successful `AddRoute` calls on a new router
whose path specs have literal segments only, and with any registry,
`matchPath(q)` returns the handler lists of the calls that registered
exactly `q`, one after the other in registration order, with an empty map;
when no call registered `q` it returns no match. -/
theorem matchPath_literal_routes {V : Type} [Inhabited V]
    (calls : List (Str × List (Handler V))) (rtr : router V)
    (hrun : addRoutes NewRouter calls = some rtr) (hlit : ∀ c ∈ calls, LiteralSpec c.1)
    (pf : ParamFuncMap V) (q : Str) :
    matchPath q rtr.routes pf =
      match registeredFor q calls with
      | [] => .ok (none, none)
      | h :: t => .ok (some (h :: t), some (fun _ => none)) := by
  obtain ⟨hinv, hvalid, hlook⟩ :=
    addRoutes_literal calls NewRouter rtr hrun hlit rfl (everyLevel_nil _)
  by_cases hq : q.head? = some '/'
  · obtain ⟨r, hr⟩ := parts_total q
    cases r with
    | none => exact absurd hq ((parts_eq_none_iff q).mp hr)
    | some segs =>
      rw [matchPath_literal pf q segs rtr.routes hr hinv, hlook q segs hr]
      have h0 : handlersAt segs (NewRouter : router V).routes = none := handlersAt_nil_nodes segs
      rw [h0]
      cases registeredFor q calls with
      | nil => rfl
      | cons h t => rfl
  · rw [matchPath_invalid q rtr.routes pf hq]
    have hnone : ∀ cs : List (Str × List (Handler V)), (∀ c ∈ cs, c.1.head? = some '/') →
        registeredFor q cs = [] := by
      intro cs
      induction cs with
      | nil => intro _; rfl
      | cons c more ih =>
        intro hv
        obtain ⟨p, hs⟩ := c
        have hp : p ≠ q := by
          intro h2
          have := hv (p, hs) (by simp)
          rw [h2] at this
          exact hq this
        simp only [registeredFor, hp, ↓reduceIte]
        exact ih (fun c hc => hv c (List.mem_cons_of_mem _ hc))
    rw [hnone calls hvalid]

/-- C3 at a concrete input: `/a/b/c` registered with one handler, and the
requests `/a/b/c`, `/a/b/x` and `/a/b`. -/
theorem matchPath_literal_routes_witness :
    addRoutes NewRouter [("/a/b/c".toList, [exampleHandler])] = some exampleRouterABC ∧
      (∀ c ∈ [("/a/b/c".toList, [exampleHandler])], LiteralSpec c.1) ∧
      matchPath "/a/b/c".toList exampleRouterABC.routes exampleFuncs =
        .ok (some [exampleHandler], some (fun _ => none)) ∧
      matchPath "/a/b/x".toList exampleRouterABC.routes exampleFuncs = .ok (none, none) ∧
      matchPath "/a/b".toList exampleRouterABC.routes exampleFuncs = .ok (none, none) := by
  have hlit : ∀ c ∈ [("/a/b/c".toList, [exampleHandler])], LiteralSpec c.1 := by
    intro c hc
    simp only [List.mem_singleton] at hc
    subst hc
    intro segs hsegs s hs
    have hp : parts "/a/b/c".toList = .ok (some ["/a".toList, "/b".toList, "/c".toList]) := rfl
    rw [hp] at hsegs
    simp only [Outcome.ok.injEq, Option.some.injEq] at hsegs
    subst hsegs
    simp only [List.mem_cons, List.mem_singleton, List.not_mem_nil, or_false] at hs
    rcases hs with h | h | h <;> (subst h; rfl)
  exact ⟨rfl, hlit,
    matchPath_literal_routes [("/a/b/c".toList, [exampleHandler])] exampleRouterABC rfl hlit
      exampleFuncs "/a/b/c".toList,
    matchPath_literal_routes [("/a/b/c".toList, [exampleHandler])] exampleRouterABC rfl hlit
      exampleFuncs "/a/b/x".toList,
    matchPath_literal_routes [("/a/b/c".toList, [exampleHandler])] exampleRouterABC rfl hlit
      exampleFuncs "/a/b".toList⟩

/-! ## Claim C4: matching a parameter node -/

/-- C4: for a parameter node `n`, any registry and any segment `'/' :: t`,
`matchPartNode` returns without a panic; it returns `true` exactly when an
evaluator is registered under `n.ParamEval` and accepts `t`; on `true` the
parameter slot holds `Param{n.ParamName, t, value}` with the evaluator's
value, on `false` the slot is as it was.  When no evaluator is registered
under `n.ParamEval` the node matches no text at all. -/
theorem matchPartNode_parameter_node {H V : Type} (n : node H) (pf : ParamFuncMap V) (t : Str)
    (param : Param V) (hn : n.NodeType = nodetype_param) :
    (∃ b p, matchPartNode ('/' :: t) n pf param = .ok (b, p) ∧
      (b = true ↔ ∃ fn, pf n.ParamEval = some fn ∧ (fn t).1 = true) ∧
      (b = true → ∃ fn, pf n.ParamEval = some fn ∧
        p = { Name := n.ParamName, ValueRaw := t, Value := (fn t).2 }) ∧
      (b = false → p = param)) ∧
    (pf n.ParamEval = none → ∀ s, matchPartNode s n pf param = .ok (false, param)) := by
  constructor
  · rw [matchPartNode_param '/' t n pf param hn]
    cases hpf : pf n.ParamEval with
    | none =>
      refine ⟨false, param, rfl, ?_, fun h => absurd h (by decide), fun _ => rfl⟩
      constructor
      · intro h; exact absurd h (by decide)
      · rintro ⟨fn, h, _⟩; exact absurd h (by simp)
    | some fn =>
      by_cases hb : (fn t).1 = true
      · refine ⟨true, { Name := n.ParamName, ValueRaw := t, Value := (fn t).2 }, ?_, ?_,
          fun _ => ⟨fn, rfl, rfl⟩, fun h => absurd h (by decide)⟩
        · show (if (fn t).1 = true then _ else _) = _
          rw [if_pos hb]
        · exact ⟨fun _ => ⟨fn, rfl, hb⟩, fun _ => rfl⟩
      · refine ⟨false, param, ?_, ?_, fun h => absurd h (by decide), fun _ => rfl⟩
        · show (if (fn t).1 = true then _ else _) = _
          rw [if_neg hb]
        · constructor
          · intro h; exact absurd h (by decide)
          · rintro ⟨fn2, h, h2⟩
            simp only [Option.some.injEq] at h
            subst h
            exact absurd h2 hb
  · intro hnone s
    have hne : ¬ (nodetype_param = nodetype_literal) := by decide
    simp only [matchPartNode, hn, hne, ↓reduceIte, hnone]

/-- C4 at a concrete input: the node of `/{x:any}` and the segment `/abc`. -/
theorem matchPartNode_parameter_node_witness :
    exampleParamNode.NodeType = nodetype_param ∧
    (∃ b p, matchPartNode ('/' :: "abc".toList) exampleParamNode exampleFuncs Param.zero = .ok (b, p) ∧
      (b = true ↔ ∃ fn, exampleFuncs exampleParamNode.ParamEval = some fn ∧
        (fn "abc".toList).1 = true) ∧
      (b = true → ∃ fn, exampleFuncs exampleParamNode.ParamEval = some fn ∧
        p = { Name := exampleParamNode.ParamName, ValueRaw := "abc".toList,
              Value := (fn "abc".toList).2 }) ∧
      (b = false → p = Param.zero)) ∧
    (exampleFuncs exampleParamNode.ParamEval = none →
      ∀ s, matchPartNode s exampleParamNode exampleFuncs Param.zero = .ok (false, Param.zero)) :=
  ⟨rfl, matchPartNode_parameter_node exampleParamNode exampleFuncs "abc".toList Param.zero rfl⟩

/-! ## The dispatcher -/

/-- The handler loop when no handler writes: every handler is called, in
order, and nothing reaches the response writer. -/
theorem serveLoop_no_writer {V : Type} (rp : Request V) :
    ∀ (hs : List (Handler V)) (i : Nat) (s : Served), (∀ h ∈ hs, h rp = []) →
      serveLoop rp hs i false s =
        (false, { calls := s.calls ++ (List.range' i hs.length).map Callee.route, out := s.out }) := by
  intro hs
  induction hs with
  | nil => intro i s _; simp [serveLoop]
  | cons h t ih =>
    intro i s hall
    have hh : h rp = [] := hall h (by simp)
    simp only [serveLoop, Bool.false_eq_true, ↓reduceIte, hh, List.isEmpty_nil, Bool.not_true,
      Bool.or_self, List.append_nil]
    rw [ih (i + 1) _ (fun x hx => hall x (List.mem_cons_of_mem _ hx))]
    simp [List.range']

/-- The handler loop when some handler writes: the handlers up to and
including the first writer are called, in order, the later ones are not, and
the first writer's output is all that reaches the response writer. -/
theorem serveLoop_first_writer {V : Type} (rp : Request V) :
    ∀ (pre : List (Handler V)) (h : Handler V) (post : List (Handler V)) (i : Nat) (s : Served),
      (∀ x ∈ pre, x rp = []) → h rp ≠ [] →
      serveLoop rp (pre ++ h :: post) i false s =
        (true, { calls := s.calls ++ (List.range' i (pre.length + 1)).map Callee.route,
                 out := s.out ++ h rp }) := by
  intro pre
  induction pre with
  | nil =>
    intro h post i s _ hw
    have he : (h rp).isEmpty = false := by
      cases hh : h rp with
      | nil => exact absurd hh hw
      | cons a b => rfl
    simp only [List.nil_append, serveLoop, Bool.false_eq_true, ↓reduceIte, he, Bool.not_false,
      Bool.or_true, List.length_nil, Nat.zero_add]
    cases post with
    | nil => simp [serveLoop, List.range']
    | cons a b => simp [serveLoop, List.range']
  | cons x t ih =>
    intro h post i s hall hw
    have hx : x rp = [] := hall x (by simp)
    simp only [List.cons_append, serveLoop, Bool.false_eq_true, ↓reduceIte, hx, List.isEmpty_nil,
      Bool.not_true, Bool.or_self, List.append_nil]
    have e := ih h post (i + 1) { calls := s.calls ++ [Callee.route i], out := s.out }
      (fun y hy => hall y (List.mem_cons_of_mem _ hy)) hw
    refine Eq.trans e ?_
    simp [List.range']

/-- Either no handler of the list writes, or there is a first one that
does. -/
theorem first_writer_or_none {V : Type} (rp : Request V) :
    ∀ hs : List (Handler V), (∀ h ∈ hs, h rp = []) ∨
      ∃ pre h post, hs = pre ++ h :: post ∧ (∀ x ∈ pre, x rp = []) ∧ h rp ≠ [] := by
  intro hs
  induction hs with
  | nil => left; simp
  | cons a t ih =>
    by_cases ha : a rp = []
    · rcases ih with h1 | ⟨pre, h, post, h1, h2, h3⟩
      · left
        intro x hx
        rcases List.mem_cons.mp hx with h0 | h0
        · rw [h0]; exact ha
        · exact h1 x h0
      · right
        refine ⟨a :: pre, h, post, by simp [h1], ?_, h3⟩
        intro x hx
        rcases List.mem_cons.mp hx with h0 | h0
        · rw [h0]; exact ha
        · exact h2 x h0
    · right
      exact ⟨[], a, t, rfl, by simp, ha⟩

/-- `ServeHTTP` when no route matched: the not-found handler, if any, is the
only one called, with the request as it came. -/
theorem ServeHTTP_not_found {V : Type} [Inhabited V] (rtr : router V) (r : Request V)
    (hs : Option (List (Handler V))) (pm : Option (ParamMap V))
    (hm : matchPath r.Path rtr.routes rtr.paramFuncs = .ok (hs, pm)) (h0 : hs.getD [] = []) :
    ServeHTTP rtr r =
      match rtr.NotFoundHandler with
      | some nf => .ok { calls := [.notFound], out := nf r }
      | none => .ok { calls := [], out := [] } := by
  simp only [ServeHTTP, hm, h0, List.length_nil, ↓reduceIte]

/-- `ServeHTTP` when a route matched, in terms of the handler loop. -/
theorem ServeHTTP_matched {V : Type} [Inhabited V] (rtr : router V) (r : Request V)
    (hs : Option (List (Handler V))) (pm : Option (ParamMap V))
    (hm : matchPath r.Path rtr.routes rtr.paramFuncs = .ok (hs, pm)) (h0 : hs.getD [] ≠ []) :
    ServeHTTP rtr r =
      match serveLoop { r with PathParams := some pm } (hs.getD []) 0 false
          { calls := [], out := [] } with
      | (true, s) => .ok s
      | (false, s) =>
        match rtr.MethodNotAllowedHandler with
        | some mna =>
          .ok { calls := s.calls ++ [.methodNotAllowed],
                out := s.out ++ mna { r with PathParams := some pm } }
        | none => .ok s := by
  have : ¬ ((hs.getD []).length = 0) := fun h => h0 (List.length_eq_zero.mp h)
  simp only [ServeHTTP, hm, this, ↓reduceIte]

/-! ## Claim C5: the first writer ends the dispatch -/

/-- C5: when the matched handler list is `pre ++ h :: post`, no handler of
`pre` writes and `h` does (all of them called with the request that carries
the path parameters), `ServeHTTP` calls the handlers `0 .. pre.length` in
this order, each once, calls none of `post` and not the method-not-allowed
handler, and what reaches the response writer is the output of `h` alone. -/
theorem ServeHTTP_stops_at_first_writer {V : Type} [Inhabited V] (rtr : router V)
    (r : Request V) (pre : List (Handler V)) (h : Handler V) (post : List (Handler V))
    (pm : Option (ParamMap V))
    (hm : matchPath r.Path rtr.routes rtr.paramFuncs = .ok (some (pre ++ h :: post), pm))
    (hpre : ∀ x ∈ pre, x { r with PathParams := some pm } = [])
    (hw : h { r with PathParams := some pm } ≠ []) :
    ∃ served, ServeHTTP rtr r = .ok served ∧
      served.calls = (List.range (pre.length + 1)).map Callee.route ∧
      served.out = h { r with PathParams := some pm } ∧
      (∀ j, Callee.route j ∈ served.calls ↔ j ≤ pre.length) ∧
      served.calls.Nodup ∧
      Callee.methodNotAllowed ∉ served.calls ∧ Callee.notFound ∉ served.calls := by
  have h0 : (some (pre ++ h :: post)).getD [] ≠ [] := by simp
  have hserve := ServeHTTP_matched rtr r _ pm hm h0
  simp only [Option.getD_some] at hserve
  rw [serveLoop_first_writer _ pre h post 0 _ hpre hw] at hserve
  simp only [List.nil_append] at hserve
  refine ⟨_, hserve, ?_, rfl, ?_, ?_, ?_, ?_⟩
  · simp [List.range_eq_range']
  · intro j
    simp only [List.mem_map, List.mem_range'_1, Callee.route.injEq, exists_eq_right]
    omega
  · exact (List.nodup_range' 0 (pre.length + 1)).map (fun a b hab => by simpa using hab)
  · simp
  · simp

/-- C5 at a concrete input: the route `/getandpost` with a GET-filtered and
a POST-filtered handler that both write, and the request `POST /getandpost`:
both handlers are called and only the second one's output is sent. -/
theorem ServeHTTP_stops_at_first_writer_witness :
    matchPath examplePost.Path exampleRouterGetPost.routes exampleRouterGetPost.paramFuncs =
        .ok (some ([Get exampleHandler] ++ Post exampleHandler2 :: []), some (fun _ => none)) ∧
      (∀ x ∈ [Get exampleHandler],
        x { examplePost with PathParams := some (some (fun _ => none)) } = []) ∧
      Post exampleHandler2 { examplePost with PathParams := some (some (fun _ => none)) } ≠ [] ∧
      ∃ served, ServeHTTP exampleRouterGetPost examplePost = .ok served ∧
        served.calls = (List.range ([Get exampleHandler].length + 1)).map Callee.route ∧
        served.out =
          Post exampleHandler2 { examplePost with PathParams := some (some (fun _ => none)) } ∧
        (∀ j, Callee.route j ∈ served.calls ↔ j ≤ [Get exampleHandler].length) ∧
        served.calls.Nodup ∧
        Callee.methodNotAllowed ∉ served.calls ∧ Callee.notFound ∉ served.calls := by
  have hpre : ∀ x ∈ [Get exampleHandler],
      x { examplePost with PathParams := some (some (fun _ => none)) } = [] := by
    intro x hx
    simp only [List.mem_singleton] at hx
    subst hx
    rfl
  have hw : Post exampleHandler2
      { examplePost with PathParams := some (some (fun _ => none)) } ≠ [] := by
    intro h
    exact absurd h (by decide)
  exact ⟨rfl, hpre, hw,
    ServeHTTP_stops_at_first_writer exampleRouterGetPost examplePost [Get exampleHandler]
      (Post exampleHandler2) [] (some (fun _ => none)) rfl hpre hw⟩

/-! ## Claim C6: the fallback handlers -/

/-- The tree after `AddRoute("/onlyget", h)` on a new router. -/
theorem AddRoute_onlyget {V : Type} (h : Handler V) (rtr2 : router V)
    (hadd : AddRoute NewRouter "/onlyget".toList [h] = .ok (true, rtr2)) :
    rtr2 = { (NewRouter : router V) with
      routes := [{ NodeType := nodetype_literal, Part := "/onlyget".toList, ParamName := [],
                   ParamEval := [], SubNodes := [], Handlers := some [h] }] } := by
  have e : AddRoute (NewRouter : router V) "/onlyget".toList [h] =
      .ok (true, { (NewRouter : router V) with
        routes := [{ NodeType := nodetype_literal, Part := "/onlyget".toList, ParamName := [],
                     ParamEval := [], SubNodes := [], Handlers := some [h] }] }) := rfl
  rw [e] at hadd
  simp only [Outcome.ok.injEq, Prod.mk.injEq, true_and] at hadd
  exact hadd.symm

/-- A tree that holds the one route `/onlyget` matches no other path. -/
theorem matchPath_onlyget_other {V : Type} [Inhabited V] (h : Handler V) (pf : ParamFuncMap V)
    (q : Str) (hq : q ≠ "/onlyget".toList) :
    matchPath q [{ NodeType := nodetype_literal, Part := "/onlyget".toList, ParamName := [],
                   ParamEval := [], SubNodes := [], Handlers := some [h] }] pf =
      .ok (none, none) := by
  by_cases hv : q.head? = some '/'
  · obtain ⟨r, hr⟩ := parts_total q
    cases r with
    | none => exact absurd hv ((parts_eq_none_iff q).mp hr)
    | some segs =>
      have hinv : EveryLevel (LevelOk (fun t _ => t = nodetype_literal))
          [({ NodeType := nodetype_literal, Part := "/onlyget".toList, ParamName := [],
              ParamEval := [], SubNodes := [], Handlers := some [h] } : node (Handler V))] := by
        refine EveryLevel.mk _ ⟨by simp [DistinctParts], by simp⟩ ?_
        intro n hn
        simp only [List.mem_singleton] at hn
        subst hn
        exact everyLevel_nil _
      rw [matchPath_literal pf q segs _ hr hinv]
      have hnone : handlersAt segs
          [({ NodeType := nodetype_literal, Part := "/onlyget".toList, ParamName := [],
              ParamEval := [], SubNodes := [], Handlers := some [h] } : node (Handler V))] =
          none := by
        cases segs with
        | nil => rfl
        | cons s rest =>
          by_cases hs : "/onlyget".toList = s
          · cases rest with
            | nil =>
              exfalso
              apply hq
              rw [← parts_some_flatten q _ hr, ← hs]
              rfl
            | cons s2 rest2 =>
              simp only [handlersAt, List.find?, hs, decide_True, List.length_cons]
              simp [handlersAt_nil_nodes]
          · have hd : decide ("/onlyget".toList = s) = false := decide_eq_false hs
            simp only [handlersAt, List.find?, hd]
      rw [hnone]
  · exact matchPath_invalid q _ pf hv

/-- C6: with both fallback handlers set, `ServeHTTP` returns, and it calls
the not-found handler exactly when `matchPath` gives no handlers (it then
calls nothing else and hands it the request as it came), the
method-not-allowed handler exactly when `matchPath` gives handlers and none
of them writes (after all of them, on the request that carries the path
parameters), and never both.  With the defaults of `NewRouter()` and the one
route `/onlyget` holding `Get(w)` for a handler `w` that writes: `GET
/onlyget` sends the output of `w`, any other method on `/onlyget` sends 405
and any other path sends 404. -/
theorem ServeHTTP_selects_one_outcome {V : Type} [Inhabited V] (rtr : router V) (r : Request V)
    (nf mna : Handler V) (hnf : rtr.NotFoundHandler = some nf)
    (hmna : rtr.MethodNotAllowedHandler = some mna) :
    (∃ hs pm served, matchPath r.Path rtr.routes rtr.paramFuncs = .ok (hs, pm) ∧
      ServeHTTP rtr r = .ok served ∧
      (Callee.notFound ∈ served.calls ↔ hs.getD [] = []) ∧
      (Callee.notFound ∈ served.calls → served = { calls := [.notFound], out := nf r }) ∧
      (Callee.methodNotAllowed ∈ served.calls ↔
        hs.getD [] ≠ [] ∧ ∀ h ∈ hs.getD [], h { r with PathParams := some pm } = []) ∧
      (Callee.methodNotAllowed ∈ served.calls →
        served = { calls := (List.range (hs.getD []).length).map Callee.route ++
                     [.methodNotAllowed],
                   out := mna { r with PathParams := some pm } }) ∧
      ¬ (Callee.notFound ∈ served.calls ∧ Callee.methodNotAllowed ∈ served.calls)) ∧
    (∀ (w : Handler V), (∀ x, w x ≠ []) → ∀ rtr2 : router V,
      AddRoute NewRouter "/onlyget".toList [Get w] = .ok (true, rtr2) →
      ∀ (m q : Str) (ctx : Option (Option (ParamMap V))),
        ServeHTTP rtr2 { Method := "GET".toList, Path := "/onlyget".toList, PathParams := ctx } =
          .ok { calls := [.route 0],
                out := w { Method := "GET".toList, Path := "/onlyget".toList,
                           PathParams := some (some (fun _ => none)) } } ∧
        (m ≠ "GET".toList →
          ServeHTTP rtr2 { Method := m, Path := "/onlyget".toList, PathParams := ctx } =
            .ok { calls := [.route 0, .methodNotAllowed],
                  out := [.WriteHeader 405, .Write "Method not allowed".toList] }) ∧
        (q ≠ "/onlyget".toList →
          ServeHTTP rtr2 { Method := m, Path := q, PathParams := ctx } =
            .ok { calls := [.notFound],
                  out := [.WriteHeader 404, .Write "404 page not found\n".toList] })) := by
  constructor
  · have hshape := matchPath_total r.Path rtr.routes rtr.paramFuncs
    obtain ⟨hs, pm, hm⟩ : ∃ hs pm, matchPath r.Path rtr.routes rtr.paramFuncs = .ok (hs, pm) := by
      rcases hshape with h | ⟨hs, pm, h⟩
      · exact ⟨_, _, h⟩
      · exact ⟨_, _, h⟩
    by_cases h0 : hs.getD [] = []
    · have hserve := ServeHTTP_not_found rtr r hs pm hm h0
      rw [hnf] at hserve
      refine ⟨hs, pm, _, hm, hserve, ?_, fun _ => rfl, ?_, ?_, ?_⟩
      · simp [h0]
      · simp [h0]
      · simp
      · simp
    · have hserve := ServeHTTP_matched rtr r hs pm hm h0
      rcases first_writer_or_none { r with PathParams := some pm } (hs.getD []) with
        hall | ⟨pre, h, post, hsplit, hpre, hw⟩
      · rw [serveLoop_no_writer _ _ 0 _ hall, hmna] at hserve
        simp only [List.nil_append] at hserve
        refine ⟨hs, pm, _, hm, hserve, ?_, ?_, ?_, ?_, ?_⟩
        · simp [h0]
        · simp
        · exact ⟨fun _ => ⟨h0, hall⟩, fun _ => by simp⟩
        · intro _; simp [List.range_eq_range']
        · simp
      · rw [hsplit, serveLoop_first_writer _ pre h post 0 _ hpre hw] at hserve
        simp only [List.nil_append] at hserve
        refine ⟨hs, pm, _, hm, hserve, ?_, ?_, ?_, ?_, ?_⟩
        · simp [h0]
        · simp
        · simp only [List.mem_map, reduceCtorEq, and_false, exists_false, ne_eq, h0,
            not_false_eq_true, true_and, false_iff, not_forall]
          exact ⟨h, by rw [hsplit]; simp, hw⟩
        · simp
        · simp
  · intro w hw rtr2 hadd m q ctx
    have hr := AddRoute_onlyget (Get w) rtr2 hadd
    subst hr
    refine ⟨?_, ?_, ?_⟩
    · have hm : matchPath "/onlyget".toList
          ({ (NewRouter : router V) with
            routes := [{ NodeType := nodetype_literal, Part := "/onlyget".toList, ParamName := [],
                         ParamEval := [], SubNodes := [], Handlers := some [Get w] }] }).routes
          (fun _ => none : ParamFuncMap V) = .ok (some [Get w], some (fun _ => none)) := rfl
      have hserve := ServeHTTP_matched _
        { Method := "GET".toList, Path := "/onlyget".toList, PathParams := ctx } _ _ hm (by simp)
      rw [hserve]
      have hwr : Get w
          ({ Method := "GET".toList, Path := "/onlyget".toList,
             PathParams := some (some (fun _ => none)) } : Request V) ≠ [] := hw _
      have hl := serveLoop_first_writer
        ({ Method := "GET".toList, Path := "/onlyget".toList,
           PathParams := some (some (fun _ => none)) } : Request V)
        [] (Get w) [] 0 { calls := [], out := [] } (by simp) hwr
      simp only [List.nil_append] at hl
      simp only [Option.getD_some]
      rw [hl]
      rfl
    · intro hmeth
      have hm : matchPath "/onlyget".toList
          ({ (NewRouter : router V) with
            routes := [{ NodeType := nodetype_literal, Part := "/onlyget".toList, ParamName := [],
                         ParamEval := [], SubNodes := [], Handlers := some [Get w] }] }).routes
          (fun _ => none : ParamFuncMap V) = .ok (some [Get w], some (fun _ => none)) := rfl
      have hserve := ServeHTTP_matched _
        { Method := m, Path := "/onlyget".toList, PathParams := ctx } _ _ hm (by simp)
      rw [hserve]
      have hnw : ∀ h ∈ [Get w], h
          ({ Method := m, Path := "/onlyget".toList,
             PathParams := some (some (fun _ => none)) } : Request V) = [] := by
        intro h hh
        simp only [List.mem_singleton] at hh
        subst hh
        show (if m = "GET".toList then _ else _) = _
        rw [if_neg hmeth]
      simp only [Option.getD_some]
      rw [serveLoop_no_writer _ _ 0 _ hnw]
      rfl
    · intro hq
      have hm := matchPath_onlyget_other (Get w) (fun _ => none) q hq
      have hserve := ServeHTTP_not_found
        ({ (NewRouter : router V) with
            routes := [{ NodeType := nodetype_literal, Part := "/onlyget".toList, ParamName := [],
                         ParamEval := [], SubNodes := [], Handlers := some [Get w] }] })
        { Method := m, Path := q, PathParams := ctx } none none hm rfl
      rw [hserve]
      rfl

/-- C6 at a concrete input: the router with the one route `/onlyget` holding
`Get(exampleHandler)`, the default fallback handlers, and the request `GET
/onlyget`. -/
theorem ServeHTTP_selects_one_outcome_witness :
    exampleRouterOnlyGet.NotFoundHandler = some defaultNotFoundHandler ∧
    exampleRouterOnlyGet.MethodNotAllowedHandler = some defaultMethodNotAllowedHandler ∧
    (∃ hs pm served,
      matchPath exampleGet.Path exampleRouterOnlyGet.routes exampleRouterOnlyGet.paramFuncs =
        .ok (hs, pm) ∧
      ServeHTTP exampleRouterOnlyGet exampleGet = .ok served ∧
      (Callee.notFound ∈ served.calls ↔ hs.getD [] = []) ∧
      (Callee.notFound ∈ served.calls →
        served = { calls := [.notFound], out := defaultNotFoundHandler exampleGet }) ∧
      (Callee.methodNotAllowed ∈ served.calls ↔
        hs.getD [] ≠ [] ∧ ∀ h ∈ hs.getD [], h { exampleGet with PathParams := some pm } = []) ∧
      (Callee.methodNotAllowed ∈ served.calls →
        served = { calls := (List.range (hs.getD []).length).map Callee.route ++
                     [.methodNotAllowed],
                   out := defaultMethodNotAllowedHandler
                     { exampleGet with PathParams := some pm } }) ∧
      ¬ (Callee.notFound ∈ served.calls ∧ Callee.methodNotAllowed ∈ served.calls)) ∧
    (∀ (w : Handler Nat), (∀ x, w x ≠ []) → ∀ rtr2 : router Nat,
      AddRoute NewRouter "/onlyget".toList [Get w] = .ok (true, rtr2) →
      ∀ (m q : Str) (ctx : Option (Option (ParamMap Nat))),
        ServeHTTP rtr2 { Method := "GET".toList, Path := "/onlyget".toList, PathParams := ctx } =
          .ok { calls := [.route 0],
                out := w { Method := "GET".toList, Path := "/onlyget".toList,
                           PathParams := some (some (fun _ => none)) } } ∧
        (m ≠ "GET".toList →
          ServeHTTP rtr2 { Method := m, Path := "/onlyget".toList, PathParams := ctx } =
            .ok { calls := [.route 0, .methodNotAllowed],
                  out := [.WriteHeader 405, .Write "Method not allowed".toList] }) ∧
        (q ≠ "/onlyget".toList →
          ServeHTTP rtr2 { Method := m, Path := q, PathParams := ctx } =
            .ok { calls := [.notFound],
                  out := [.WriteHeader 404, .Write "404 page not found\n".toList] })) :=
  ⟨rfl, rfl,
    ServeHTTP_selects_one_outcome exampleRouterOnlyGet exampleGet defaultNotFoundHandler
      defaultMethodNotAllowedHandler rfl rfl⟩

/-! ## Registering the same path twice -/

theorem SameShape.refl {H : Type} : ∀ nodes : List (node H), SameShape nodes nodes
  | [] => SameShape.nil
  | ⟨t, p, nm, ev, subs, hs⟩ :: ns =>
    SameShape.cons _ _ ns ns rfl rfl rfl rfl (SameShape.refl subs) (SameShape.refl ns)

theorem SameShape.append {H : Type} {as bs cs ds : List (node H)} (h1 : SameShape as bs)
    (h2 : SameShape cs ds) : SameShape (as ++ cs) (bs ++ ds) := by
  induction h1 with
  | nil => exact h2
  | cons a b as bs ht hp hn he hsub _ _ ih =>
    exact SameShape.cons a b _ _ ht hp hn he hsub ih

/-- The sibling loop of `addPartsToTree` when the first sibling with the
segment's text is `m`: it updates `m` where it stands. -/
theorem addAtLevel_found {H : Type} (upd : node H → Outcome (node H)) (partNode : node H) :
    ∀ (pre : List (node H)) (m : node H) (post : List (node H)),
      (∀ x ∈ pre, x.Part ≠ partNode.Part) → m.Part = partNode.Part →
      addAtLevel upd partNode (pre ++ m :: post) =
        match upd m with
        | .ok z => .ok (pre ++ z :: post)
        | .panicked => .panicked := by
  intro pre
  induction pre with
  | nil =>
    intro m post _ hm
    simp only [List.nil_append, addAtLevel, hm, ↓reduceIte]
  | cons a t ih =>
    intro m post hpre hm
    have ha : ¬ (a.Part = partNode.Part) := hpre a (by simp)
    show addAtLevel upd partNode (a :: (t ++ m :: post)) = _
    simp only [addAtLevel, ha, ↓reduceIte]
    rw [ih m post (fun x hx => hpre x (List.mem_cons_of_mem _ hx)) hm]
    cases upd m with
    | ok z => rfl
    | panicked => rfl

/-- The sibling loop of `addPartsToTree` when no sibling has the segment's
text: the updated new node goes after all the siblings. -/
theorem addAtLevel_absent {H : Type} (upd : node H → Outcome (node H)) (partNode : node H) :
    ∀ (nodes : List (node H)), (∀ x ∈ nodes, x.Part ≠ partNode.Part) →
      addAtLevel upd partNode nodes =
        match upd partNode with
        | .ok z => .ok (nodes ++ [z])
        | .panicked => .panicked := by
  intro nodes
  induction nodes with
  | nil =>
    intro _
    simp only [addAtLevel, List.nil_append]
  | cons a t ih =>
    intro hall
    have ha : ¬ (a.Part = partNode.Part) := hall a (by simp)
    simp only [addAtLevel, ha, ↓reduceIte]
    rw [ih (fun x hx => hall x (List.mem_cons_of_mem _ hx))]
    cases upd partNode with
    | ok z => rfl
    | panicked => rfl

/-- Updating a node for `h1` and the result for `h2` is updating the node
once for `h1 ++ h2`, when the same holds of the recursive calls; the second
update leaves the shape below the node as it is, when the second recursive
call does. -/
theorem updateMatchNode_twice {H : Type} (h1 h2 : List H) (rest : List Str)
    (rec1 rec2 rec12 : List (node H) → Outcome (List (node H)))
    (hrec : ∀ t t1 t2, rec1 t = .ok t1 → rec2 t1 = .ok t2 → rec12 t = .ok t2 ∧ SameShape t1 t2)
    (x y z : node H) (hy : updateMatchNode h1 rest rec1 x = .ok y)
    (hz : updateMatchNode h2 rest rec2 y = .ok z) :
    updateMatchNode (h1 ++ h2) rest rec12 x = .ok z ∧ SameShape y.SubNodes z.SubNodes := by
  by_cases h0 : rest.length = 0
  · simp only [updateMatchNode, h0, ↓reduceIte, Outcome.ok.injEq] at hy hz ⊢
    subst hy
    subst hz
    simp only [goAppend_goAppend, true_and]
    exact SameShape.refl _
  · simp only [updateMatchNode, h0, ↓reduceIte] at hy hz ⊢
    cases hr1 : rec1 x.SubNodes with
    | panicked => simp [hr1] at hy
    | ok s1 =>
      simp only [hr1, Outcome.ok.injEq] at hy
      subst hy
      simp only at hz
      cases hr2 : rec2 s1 with
      | panicked => simp [hr2] at hz
      | ok s2 =>
        simp only [hr2, Outcome.ok.injEq] at hz
        subst hz
        obtain ⟨h12, hshape⟩ := hrec _ _ _ hr1 hr2
        simp only [h12, true_and]
        exact hshape

/-- Registering the same segments with `h1` and then with `h2` gives the
tree that registering them once with `h1 ++ h2` gives, and the second
registration adds no node. -/
theorem addPartsToTree_twice {H : Type} (re : Option Regexp) (h1 h2 : List H) :
    ∀ (segs : List Str) (t t1 t2 : List (node H)),
      addPartsToTree re h1 segs t = .ok t1 → addPartsToTree re h2 segs t1 = .ok t2 →
      addPartsToTree re (h1 ++ h2) segs t = .ok t2 ∧ SameShape t1 t2 := by
  intro segs
  induction segs with
  | nil => intro t t1 t2 h; simp [addPartsToTree] at h
  | cons part rest ih =>
    intro t t1 t2 ha1 ha2
    rw [addPartsToTree_cons] at ha1 ha2 ⊢
    cases hpn : specPartNode (H := H) part re with
    | panicked => simp [hpn] at ha1
    | ok partNode =>
      rw [hpn] at ha1 ha2
      simp only at ha1 ha2 ⊢
      have hcomp := updateMatchNode_twice h1 h2 rest (addPartsToTree re h1 rest)
        (addPartsToTree re h2 rest) (addPartsToTree re (h1 ++ h2) rest) ih
      rcases addAtLevel_ok _ partNode t t1 ha1 with
        ⟨pre, n, post, m, hn, hpre, hnp, hu, h1eq⟩ | ⟨hall, m, hu, h1eq⟩
      · have hmp : m.Part = partNode.Part := by
          rw [(updateMatchNode_ok _ _ _ n m hu).2.1]; exact hnp
        subst hn h1eq
        rw [addAtLevel_found _ partNode pre m post hpre hmp] at ha2
        cases hu2 : updateMatchNode h2 rest (addPartsToTree re h2 rest) m with
        | panicked => simp [hu2] at ha2
        | ok z =>
          simp only [hu2, Outcome.ok.injEq] at ha2
          subst ha2
          obtain ⟨h12, hshape⟩ := hcomp n m z hu hu2
          obtain ⟨ht, hp, hnm, hev, _⟩ := updateMatchNode_ok _ _ _ m z hu2
          refine ⟨?_, ?_⟩
          · rw [addAtLevel_found _ partNode pre n post hpre hnp, h12]
          · exact (SameShape.refl pre).append
              (SameShape.cons m z post post ht.symm hp.symm hnm.symm hev.symm hshape
                (SameShape.refl post))
      · have hmp : m.Part = partNode.Part := (updateMatchNode_ok _ _ _ partNode m hu).2.1
        subst h1eq
        rw [addAtLevel_found _ partNode t m [] hall hmp] at ha2
        cases hu2 : updateMatchNode h2 rest (addPartsToTree re h2 rest) m with
        | panicked => simp [hu2] at ha2
        | ok z =>
          simp only [hu2, Outcome.ok.injEq] at ha2
          subst ha2
          obtain ⟨h12, hshape⟩ := hcomp partNode m z hu hu2
          obtain ⟨ht, hp, hnm, hev, _⟩ := updateMatchNode_ok _ _ _ m z hu2
          refine ⟨?_, ?_⟩
          · rw [addAtLevel_absent _ partNode t hall, h12]
          · exact (SameShape.refl t).append
              (SameShape.cons m z [] [] ht.symm hp.symm hnm.symm hev.symm hshape SameShape.nil)

/-! ## Claim C7: handlers accumulate -/

theorem goAppend_ne_nil {H : Type} (s : Option (List H)) (l : List H) (hl : l ≠ []) :
    goAppend s l = some (s.getD [] ++ l) := by
  cases s with
  | none =>
    cases l with
    | nil => exact absurd rfl hl
    | cons a t => rfl
  | some x => rfl

/-- `AddRoute` with handlers and a valid path, in terms of
`addPartsToTree`. -/
theorem AddRoute_of_parts {V : Type} (rtr : router V) (p : Str) (hs : List (Handler V))
    (segs : List Str) (t : List (node (Handler V))) (hne : hs ≠ [])
    (hp : parts p = .ok (some segs))
    (ht : addPartsToTree rtr.ParamRegex hs segs rtr.routes = .ok t) :
    AddRoute rtr p hs = .ok (true, { rtr with routes := t }) := by
  have hlen : hs.length > 0 := List.length_pos.mpr hne
  simp only [AddRoute, hlen, ↓reduceIte, hp, ht]

/-- C7, as amended: on any router whose pattern is `nil` or has at least two
capture groups (the default has two), for a valid path spec `p` and
non-empty handler lists `h1` and `h2`, registering `p` with `h1` and then with `h2` succeeds both times and
leaves exactly the router that registering `p` once with `h1 ++ h2` leaves;
the second registration adds no node at any level, and the handler slice of
the terminal node of `p` ends with `h1` followed by `h2`. -/
theorem AddRoute_twice_accumulates {V : Type} (rtr : router V) (p : Str)
    (h1 h2 : List (Handler V)) (hre : TwoGroups rtr.ParamRegex) (hp : p.head? = some '/')
    (hne1 : h1 ≠ []) (hne2 : h2 ≠ []) :
    ∃ r1 r2 segs, AddRoute rtr p h1 = .ok (true, r1) ∧ AddRoute r1 p h2 = .ok (true, r2) ∧
      AddRoute rtr p (h1 ++ h2) = .ok (true, r2) ∧ SameShape r1.routes r2.routes ∧
      parts p = .ok (some segs) ∧
      handlersAt segs r2.routes = some ((handlersAt segs rtr.routes).getD [] ++ h1 ++ h2) := by
  obtain ⟨r, hr⟩ := parts_total p
  cases r with
  | none => exact absurd hp ((parts_eq_none_iff p).mp hr)
  | some segs =>
    obtain ⟨hsegs, _⟩ := parts_segments_ne_nil p segs hr
    obtain ⟨t1, ht1⟩ := addPartsToTree_total rtr.ParamRegex hre h1 segs rtr.routes hsegs
    obtain ⟨t2, ht2⟩ := addPartsToTree_total rtr.ParamRegex hre h2 segs t1 hsegs
    obtain ⟨h12, hshape⟩ := addPartsToTree_twice rtr.ParamRegex h1 h2 segs rtr.routes t1 t2 ht1 ht2
    have h12ne : h1 ++ h2 ≠ [] := by simp [hne1]
    refine ⟨{ rtr with routes := t1 }, { rtr with routes := t2 }, segs,
      AddRoute_of_parts rtr p h1 segs t1 hne1 hr ht1,
      AddRoute_of_parts { rtr with routes := t1 } p h2 segs t2 hne2 hr ht2,
      AddRoute_of_parts rtr p (h1 ++ h2) segs t2 h12ne hr h12, hshape, hr, ?_⟩
    have hl := handlersAt_addPartsToTree _ _ _ _ _ h12 segs
    simp only [↓reduceIte] at hl
    rw [hl, goAppend_ne_nil _ _ h12ne, List.append_assoc]

/-- C7 at a concrete input: a new router, the path `/getandpost1by1`, a
GET-filtered handler and then a POST-filtered one. -/
theorem AddRoute_twice_accumulates_witness :
    TwoGroups (NewRouter : router Nat).ParamRegex ∧
    "/getandpost1by1".toList.head? = some '/' ∧
    [Get exampleHandler] ≠ [] ∧ [Post exampleHandler2] ≠ [] ∧
    ∃ r1 r2 segs, AddRoute NewRouter "/getandpost1by1".toList [Get exampleHandler] = .ok (true, r1) ∧
      AddRoute r1 "/getandpost1by1".toList [Post exampleHandler2] = .ok (true, r2) ∧
      AddRoute NewRouter "/getandpost1by1".toList ([Get exampleHandler] ++ [Post exampleHandler2]) =
        .ok (true, r2) ∧
      SameShape r1.routes r2.routes ∧
      parts "/getandpost1by1".toList = .ok (some segs) ∧
      handlersAt segs r2.routes =
        some ((handlersAt segs (NewRouter : router Nat).routes).getD [] ++ [Get exampleHandler] ++
          [Post exampleHandler2]) :=
  ⟨twoGroups_default, rfl, by simp, by simp,
    AddRoute_twice_accumulates NewRouter "/getandpost1by1".toList [Get exampleHandler]
      [Post exampleHandler2] twoGroups_default rfl (by simp) (by simp)⟩

/-! ## Claim C8: siblings have distinct texts -/

/-- C8: in the tree of every router reached from `NewRouter()` by `AddRoute`
calls (and `SetParamFunc` calls), the pattern left as it is, no two siblings
have the same `Part`, among the root nodes and among the `SubNodes` of every
node at every depth. -/
theorem reachable_parts_unique {V : Type} (rtr : router V) (h : Reachable rtr) :
    EveryLevel DistinctParts rtr.routes :=
  h.levelOk.imp (fun _ hl => hl.1)

/-- The router with the routes `/{x:any}/c`, `/a/b` and `/{x:any}/b` is
reached from a new router by three `AddRoute` calls. -/
theorem reachable_three_routes : Reachable exampleRouterThreeRoutes :=
  Reachable.addRoute exampleRouterTwoRoutes exampleRouterThreeRoutes "/{x:any}/b".toList
    [exampleHandler] true
    (Reachable.addRoute (routerOf (AddRoute NewRouter "/{x:any}/c".toList [exampleHandler]))
      exampleRouterTwoRoutes "/a/b".toList [exampleHandler2] true
      (Reachable.addRoute NewRouter
        (routerOf (AddRoute NewRouter "/{x:any}/c".toList [exampleHandler]))
        "/{x:any}/c".toList [exampleHandler] true Reachable.new rfl)
      rfl)
    rfl

/-- C8 at a concrete input: the router after registering `/{x:any}/c`,
`/a/b` and `/{x:any}/b`, whose tree has the root siblings `/{x:any}` and
`/a` and, below `/{x:any}`, the siblings `/c` and `/b`. -/
theorem reachable_parts_unique_witness :
    Reachable exampleRouterThreeRoutes ∧
    exampleRouterThreeRoutes.routes.map (fun n => n.Part) = ["/{x:any}".toList, "/a".toList] ∧
    (exampleRouterThreeRoutes.routes.flatMap (fun n => n.SubNodes)).map (fun n => n.Part) =
      ["/c".toList, "/b".toList, "/b".toList] ∧
    EveryLevel DistinctParts exampleRouterThreeRoutes.routes :=
  ⟨reachable_three_routes, rfl, rfl,
    reachable_parts_unique exampleRouterThreeRoutes reachable_three_routes⟩

/-! ## Claim C9: when `AddRoute` accepts -/

/-- C9, as amended: on any router whose pattern is `nil` or has at least two
capture groups (the default has two), `AddRoute` returns, and it returns
`true` exactly when the
handler list is not empty and the path spec is not empty and starts with
`'/'`; when it returns `false` the router, and so the tree, is as it was. -/
theorem AddRoute_true_iff {V : Type} (rtr : router V) (pathSpec : Str)
    (handlers : List (Handler V)) (hre : TwoGroups rtr.ParamRegex) :
    ∃ b rtr2, AddRoute rtr pathSpec handlers = .ok (b, rtr2) ∧
      (b = true ↔ handlers ≠ [] ∧ pathSpec.head? = some '/') ∧
      (b = false → rtr2 = rtr) := by
  by_cases hne : handlers = []
  · subst hne
    refine ⟨false, rtr, by simp [AddRoute], ?_, fun _ => rfl⟩
    simp
  · obtain ⟨r, hr⟩ := parts_total pathSpec
    have hlen : handlers.length > 0 := List.length_pos.mpr hne
    cases r with
    | none =>
      have hv := (parts_eq_none_iff pathSpec).mp hr
      refine ⟨false, rtr, by simp only [AddRoute, hlen, ↓reduceIte, hr], ?_, fun _ => rfl⟩
      simp [hv]
    | some segs =>
      have hv : pathSpec.head? = some '/' := by
        by_contra hc
        rw [(parts_eq_none_iff pathSpec).mpr hc] at hr
        simp at hr
      obtain ⟨hsegs, _⟩ := parts_segments_ne_nil pathSpec segs hr
      obtain ⟨t, ht⟩ := addPartsToTree_total rtr.ParamRegex hre handlers segs rtr.routes hsegs
      refine ⟨true, { rtr with routes := t }, AddRoute_of_parts rtr pathSpec handlers segs t hne hr ht,
        ?_, by simp⟩
      simp [hne, hv]

/-- C9 at a concrete input: a new router, the spec `no-slash` and one
handler. -/
theorem AddRoute_true_iff_witness :
    TwoGroups (NewRouter : router Nat).ParamRegex ∧
    ∃ b rtr2, AddRoute (NewRouter : router Nat) "no-slash".toList [exampleHandler] = .ok (b, rtr2) ∧
      (b = true ↔ [exampleHandler] ≠ [] ∧ "no-slash".toList.head? = some '/') ∧
      (b = false → rtr2 = NewRouter) :=
  ⟨twoGroups_default,
    AddRoute_true_iff NewRouter "no-slash".toList [exampleHandler] twoGroups_default⟩

/-! ## Claim C10: the segments make up the path -/

/-- C10: for every path that starts with `'/'`, `parts` returns segments
and these, put together in order, are the path. -/
theorem parts_concat_is_path (path : Str) (h : path.head? = some '/') :
    ∃ segs, parts path = .ok (some segs) ∧ segs.flatten = path := by
  cases path with
  | nil => simp at h
  | cons c t =>
    simp only [List.head?_cons, Option.some.injEq] at h
    subst h
    obtain ⟨segs, h1, h2, _⟩ := parts_of_slash t
    exact ⟨segs, h1, h2⟩

/-- C10 at a concrete input: the path `/a//b//`. -/
theorem parts_concat_is_path_witness :
    "/a//b//".toList.head? = some '/' ∧
    ∃ segs, parts "/a//b//".toList = .ok (some segs) ∧ segs.flatten = "/a//b//".toList :=
  ⟨rfl, parts_concat_is_path "/a//b//".toList rfl⟩

/-! ## Claim C11: the shape of the segments -/

/-- Taking one more element than `k` adds the element at position `k`. -/
theorem take_succ_of_drop {α : Type} (l : List α) (k : Nat) (a : α) (r : List α)
    (h : l.drop k = a :: r) : l.take (k + 1) = l.take k ++ [a] := by
  induction l generalizing k with
  | nil => simp at h
  | cons x t ih =>
    cases k with
    | zero =>
      simp only [List.drop_zero, List.cons.injEq] at h
      simp [h.1]
    | succ j =>
      simp only [List.drop_succ_cons] at h
      simp [ih j h]

/-- Loop invariant of `parts` for the inside of a segment: the text from
`curStart` up to `idx` is empty or a separator followed by characters that
are not separators, and so is every segment the loop cuts off and what is
left from the final `curStart` on. -/
theorem partsLoop_segments (path : Str) :
    ∀ (todo : Str) (idx curStart : Nat) (acc acc2 : List Str) (cs : Nat),
      curStart ≤ idx → path.drop idx = todo →
      ((idx = curStart ∧ todo.head? = some '/') ∨
        ∃ t, (path.drop curStart).take (idx - curStart) = '/' :: t ∧ '/' ∉ t) →
      partsLoop path todo idx curStart acc = .ok (acc2, cs) →
      (∀ s ∈ acc2, s ∈ acc ∨ ∃ t, s = '/' :: t ∧ '/' ∉ t) ∧
        ∃ t, path.drop cs = '/' :: t ∧ '/' ∉ t := by
  intro todo
  induction todo with
  | nil =>
    intro idx curStart acc acc2 cs hle hdrop hinv hrun
    simp only [partsLoop, Outcome.ok.injEq, Prod.mk.injEq] at hrun
    obtain ⟨h1, h2⟩ := hrun
    subst h1 h2
    refine ⟨fun s hs => Or.inl hs, ?_⟩
    rcases hinv with ⟨_, hh⟩ | ⟨t, ht, hnot⟩
    · simp at hh
    · refine ⟨t, ?_, hnot⟩
      rw [← ht]
      symm
      apply List.take_of_length_le
      have hlen : path.length ≤ idx := by
        by_contra hc
        have : (path.drop idx).length = path.length - idx := List.length_drop _ _
        rw [hdrop] at this
        simp at this
        omega
      simp only [List.length_drop]
      omega
  | cons ch todo ih =>
    intro idx curStart acc acc2 cs hle hdrop hinv hrun
    have hnext : path.drop (idx + 1) = todo := by
      rw [← List.drop_drop, List.drop_one, hdrop]; rfl
    have hlt : idx < path.length := by
      by_contra hc
      rw [List.drop_of_length_le (by omega)] at hdrop
      simp at hdrop
    have hcur : (path.drop curStart).drop (idx - curStart) = ch :: todo := by
      rw [List.drop_drop, ← hdrop]; congr 1; omega
    have hstep : (path.drop curStart).take (idx + 1 - curStart) =
        (path.drop curStart).take (idx - curStart) ++ [ch] := by
      have : idx + 1 - curStart = (idx - curStart) + 1 := by omega
      rw [this]
      exact take_succ_of_drop _ _ ch todo hcur
    unfold partsLoop at hrun
    split at hrun
    · rename_i hcond
      obtain ⟨hne, hch⟩ := hcond
      rw [goSlice_ok path curStart idx hle (Nat.le_of_lt hlt)] at hrun
      simp only at hrun
      have hseg : ∃ t, (path.drop curStart).take (idx - curStart) = '/' :: t ∧ '/' ∉ t := by
        rcases hinv with ⟨he, _⟩ | h
        · exact absurd he hne
        · exact h
      have hinv2 : (idx + 1 = idx ∧ todo.head? = some '/') ∨
          ∃ t, (path.drop idx).take (idx + 1 - idx) = '/' :: t ∧ '/' ∉ t := by
        right
        refine ⟨[], ?_, by simp⟩
        rw [hdrop, hch]
        have : idx + 1 - idx = 1 := by omega
        rw [this]; rfl
      obtain ⟨hall, hlast⟩ := ih (idx + 1) idx _ acc2 cs (Nat.le_succ _) hnext hinv2 hrun
      refine ⟨fun s hs => ?_, hlast⟩
      rcases hall s hs with h | h
      · rcases List.mem_append.mp h with h | h
        · exact Or.inl h
        · right
          rw [List.mem_singleton] at h
          rw [h]; exact hseg
      · exact Or.inr h
    · rename_i hcond
      have hinv2 : (idx + 1 = curStart ∧ todo.head? = some '/') ∨
          ∃ t, (path.drop curStart).take (idx + 1 - curStart) = '/' :: t ∧ '/' ∉ t := by
        right
        rw [hstep]
        rcases hinv with ⟨he, hh⟩ | ⟨t, ht, hnot⟩
        · simp only [List.head?_cons, Option.some.injEq] at hh
          refine ⟨[], ?_, by simp⟩
          rw [he, hh]; simp
        · refine ⟨t ++ [ch], by rw [ht]; rfl, ?_⟩
          have hidx : idx ≠ curStart := by
            intro he
            rw [he] at ht
            simp at ht
          have hch : ch ≠ '/' := fun h => hcond ⟨hidx, h⟩
          intro hmem
          rcases List.mem_append.mp hmem with h | h
          · exact hnot h
          · simp only [List.mem_singleton] at h
            exact hch h.symm
      exact ih (idx + 1) curStart acc acc2 cs (Nat.le_succ_of_le hle) hnext hinv2 hrun

/-- A list of texts with one separator each has as many texts as its
concatenation has separators. -/
theorem count_flatten_one (segs : List Str) (h : ∀ s ∈ segs, s.count '/' = 1) :
    segs.flatten.count '/' = segs.length := by
  induction segs with
  | nil => rfl
  | cons s t ih =>
    simp only [List.flatten_cons, List.count_append, List.length_cons]
    rw [h s (by simp), ih (fun x hx => h x (List.mem_cons_of_mem _ hx))]
    omega

/-- C11: for every path that starts with `'/'`, every segment `parts`
returns is `'/'` followed by characters other than `'/'`, and there are as
many segments as the path has `'/'` characters; so a segment that starts
right at a separator that follows another one, or at the last character, is
exactly `"/"`. -/
theorem parts_segments_shape (path : Str) (h : path.head? = some '/') :
    ∃ segs, parts path = .ok (some segs) ∧
      (∀ s ∈ segs, ∃ t, s = '/' :: t ∧ '/' ∉ t) ∧ segs.length = path.count '/' := by
  cases path with
  | nil => simp at h
  | cons c t =>
    simp only [List.head?_cons, Option.some.injEq] at h
    subst h
    obtain ⟨acc2, cs, hrun, hcs, _, _, _⟩ :=
      partsLoop_spec ('/' :: t) ('/' :: t) 0 0 [] (Nat.le_refl _) rfl rfl
    obtain ⟨hall, hlast⟩ := partsLoop_segments ('/' :: t) ('/' :: t) 0 0 [] acc2 cs
      (Nat.le_refl _) rfl (Or.inl ⟨rfl, rfl⟩) hrun
    have hparts : parts ('/' :: t) = .ok (some (acc2 ++ [('/' :: t).drop cs])) := by
      simp only [parts, ne_eq, not_true_eq_false, ↓reduceIte, hrun]
      rw [goSlice_to_end _ cs hcs]
    have hshape : ∀ s ∈ acc2 ++ [('/' :: t).drop cs], ∃ u, s = '/' :: u ∧ '/' ∉ u := by
      intro s hs
      rcases List.mem_append.mp hs with h1 | h1
      · rcases hall s h1 with h2 | h2
        · simp at h2
        · exact h2
      · rw [List.mem_singleton] at h1
        rw [h1]; exact hlast
    refine ⟨_, hparts, hshape, ?_⟩
    have hflat := parts_some_flatten _ _ hparts
    rw [← count_flatten_one _ (fun s hs => ?_), hflat]
    obtain ⟨u, hu, hnot⟩ := hshape s hs
    rw [hu, List.count_cons_self, List.count_eq_zero_of_not_mem hnot]

/-- C11 at a concrete input: the path `/a//b//`, whose segments are `/a`,
`/`, `/b`, `/` and `/`. -/
theorem parts_segments_shape_witness :
    "/a//b//".toList.head? = some '/' ∧
    parts "/a//b//".toList =
      .ok (some ["/a".toList, "/".toList, "/b".toList, "/".toList, "/".toList]) ∧
    ∃ segs, parts "/a//b//".toList = .ok (some segs) ∧
      (∀ s ∈ segs, ∃ t, s = '/' :: t ∧ '/' ∉ t) ∧ segs.length = "/a//b//".toList.count '/' :=
  ⟨rfl, rfl, parts_segments_shape "/a//b//".toList rfl⟩

/-! ## Claim C12: when `parts` gives `nil` -/

/-- C12: `parts(path)` is `nil` exactly when the path is empty or its first
character is not `'/'`; for every other path it is a non-empty list of
segments.  In neither case does it panic. -/
theorem parts_nil_iff (path : Str) :
    (parts path = .ok none ↔ (path = [] ∨ ∃ c t, path = c :: t ∧ c ≠ '/')) ∧
      (¬ (path = [] ∨ ∃ c t, path = c :: t ∧ c ≠ '/') →
        ∃ segs, parts path = .ok (some segs) ∧ segs ≠ []) := by
  cases path with
  | nil =>
    refine ⟨⟨fun _ => Or.inl rfl, fun _ => rfl⟩, fun h => absurd (Or.inl rfl) h⟩
  | cons c t =>
    by_cases hc : c = '/'
    · subst hc
      obtain ⟨segs, hp, _, hne, _⟩ := parts_of_slash t
      refine ⟨⟨fun h => ?_, fun h => ?_⟩, fun _ => ⟨segs, hp, hne⟩⟩
      · rw [hp] at h
        simp at h
      · rcases h with h | ⟨c2, t2, h, hne2⟩
        · simp at h
        · simp only [List.cons.injEq] at h
          exact absurd h.1.symm hne2
    · have hp : parts (c :: t) = .ok none := by simp [parts, hc]
      refine ⟨⟨fun _ => Or.inr ⟨c, t, rfl, hc⟩, fun _ => hp⟩, fun h => ?_⟩
      exact absurd (Or.inr ⟨c, t, rfl, hc⟩) h

/-! ## Claim C13: literal and parameter segments -/

theorem notColonBrace_iff (c : Char) : notColonBrace c = true ↔ c ≠ ':' ∧ c ≠ '}' := by
  simp [notColonBrace]

/-- A run of characters of the class, stopped by one outside it. -/
theorem takeWhile_dropWhile_stop (p : Char → Bool) (a : Str) (b : Char) (r : Str)
    (ha : ∀ c ∈ a, p c = true) (hb : p b = false) :
    (a ++ b :: r).takeWhile p = a ∧ (a ++ b :: r).dropWhile p = b :: r := by
  induction a with
  | nil => simp [List.takeWhile, List.dropWhile, hb]
  | cons x t ih =>
    have hx : p x = true := ha x (by simp)
    obtain ⟨h1, h2⟩ := ih (fun c hc => ha c (List.mem_cons_of_mem _ hc))
    show (x :: (t ++ b :: r)).takeWhile p = x :: t ∧ (x :: (t ++ b :: r)).dropWhile p = b :: r
    simp only [List.takeWhile, List.dropWhile, hx]
    exact ⟨by rw [h1], h2⟩

/-- The default pattern matches exactly the texts of the form
`/{name:evaluator}`, and the groups are `name` and `evaluator`. -/
theorem defaultParamNodeRegex_iff (s name ev : Str) :
    defaultParamNodeRegex s = [s, name, ev] ↔ ParamForm s name ev := by
  constructor
  · intro h
    unfold defaultParamNodeRegex at h
    split at h
    · rename_i rest
      split at h
      · rename_i rest2 hd1
        split at h
        · rename_i hd2
          split at h
          · rename_i hne
            simp only [List.cons.injEq, and_true, true_and] at h
            obtain ⟨hn, he⟩ := h
            have hrest := List.takeWhile_append_dropWhile notColonBrace rest
            have hrest2 := List.takeWhile_append_dropWhile notColonBrace rest2
            rw [hd1, hn] at hrest
            rw [hd2, he] at hrest2
            refine ⟨by rw [← hrest, ← hrest2], ?_, ?_, ?_, ?_⟩
            · rw [← hn]; exact hne.1
            · rw [← he]; exact hne.2
            · intro c hc
              rw [← hn] at hc
              exact (notColonBrace_iff c).mp (List.mem_takeWhile_imp hc)
            · intro c hc
              rw [← he] at hc
              exact (notColonBrace_iff c).mp (List.mem_takeWhile_imp hc)
          · simp at h
        · simp at h
      · simp at h
    · simp at h
  · rintro ⟨hs, hn, he, hcn, hce⟩
    subst hs
    obtain ⟨t1, d1⟩ := takeWhile_dropWhile_stop notColonBrace name ':' (ev ++ ['}'])
      (fun c hc => (notColonBrace_iff c).mpr (hcn c hc)) (by decide)
    obtain ⟨t2, d2⟩ := takeWhile_dropWhile_stop notColonBrace ev '}' []
      (fun c hc => (notColonBrace_iff c).mpr (hce c hc)) (by decide)
    simp only [defaultParamNodeRegex, d1, d2, t1, t2]
    simp [hn, he]

/-- C13: with the default pattern `specPartNode` returns, for every text
`s`, a node with `Part = s`, no children and no handlers; it is a parameter
node exactly when `s` is `/{name:evaluator}` with both parts non-empty and
free of `':'` and `'}'`, and then `ParamName = name` and `ParamEval =
evaluator`; for every other `s` it is a literal node with empty `ParamName`
and `ParamEval`. -/
theorem specPartNode_default_classifies {H : Type} (s : Str) :
    ∃ n : node H, specPartNode s (some defaultParamNodeRegex) = .ok n ∧
      n.Part = s ∧ n.SubNodes = [] ∧ n.Handlers = none ∧
      (n.NodeType = nodetype_param ↔ ∃ name ev, ParamForm s name ev) ∧
      (∀ name ev, ParamForm s name ev →
        n.NodeType = nodetype_param ∧ n.ParamName = name ∧ n.ParamEval = ev) ∧
      (¬ (∃ name ev, ParamForm s name ev) →
        n.NodeType = nodetype_literal ∧ n.ParamName = [] ∧ n.ParamEval = []) := by
  obtain ⟨n, hn, hp, hsub, hh⟩ := specPartNode_ok (H := H) s _ twoGroups_default
  have hlit : nodetype_literal ≠ nodetype_param := by decide
  refine ⟨n, hn, hp, hsub, hh, ?_, ?_, ?_⟩
  · rcases specPartNode_default s n hn with ⟨ht, _, _, hre⟩ | ⟨ht, _, _, hre⟩
    · constructor
      · intro h2; rw [ht] at h2; exact absurd h2 hlit
      · rintro ⟨name, ev, hf⟩
        rw [(defaultParamNodeRegex_iff s name ev).mpr hf] at hre
        simp at hre
    · exact ⟨fun _ => ⟨_, _, (defaultParamNodeRegex_iff s _ _).mp hre⟩, fun _ => ht⟩
  · intro name ev hf
    have hre2 := (defaultParamNodeRegex_iff s name ev).mpr hf
    rcases specPartNode_default s n hn with ⟨_, _, _, hre⟩ | ⟨ht, _, _, hre⟩
    · rw [hre2] at hre; simp at hre
    · rw [hre2] at hre
      simp only [List.cons.injEq, and_true, true_and] at hre
      exact ⟨ht, hre.1.symm, hre.2.symm⟩
  · intro hno
    rcases specPartNode_default s n hn with ⟨ht, h1, h2, _⟩ | ⟨_, _, _, hre⟩
    · exact ⟨ht, h1, h2⟩
    · exact absurd ⟨_, _, (defaultParamNodeRegex_iff s _ _).mp hre⟩ hno

/-! ## Claim C14: the method filter -/

/-- C14: the handler `HttpMethod(m).MethodHandler(h)`, called on `r`,
invokes `h` exactly when `r.Method` is `m`, then once, on `r` itself, and
what it writes is what that invocation of `h` writes; when the methods
differ it invokes nothing and writes nothing.  `Any(h)` is `h`. -/
theorem MethodHandler_filters_by_method {V : Type} (m : HttpMethod) (h : Handler V)
    (r : Request V) :
    (HttpMethod.MethodHandlerCalls m r ≠ [] ↔ r.Method = m) ∧
      (r.Method = m →
        HttpMethod.MethodHandlerCalls m r = [r] ∧ HttpMethod.MethodHandler m h r = h r) ∧
      (r.Method ≠ m →
        HttpMethod.MethodHandlerCalls m r = [] ∧ HttpMethod.MethodHandler m h r = []) ∧
      HttpMethod.MethodHandler m h r = (HttpMethod.MethodHandlerCalls m r).flatMap h ∧
      Any h = h := by
  by_cases hm : r.Method = m
  · have hc : HttpMethod.MethodHandlerCalls m r = [r] := by
      simp only [HttpMethod.MethodHandlerCalls, hm, ↓reduceIte]
    have ho : HttpMethod.MethodHandler m h r = h r := by
      simp only [HttpMethod.MethodHandler, hm, ↓reduceIte]
    refine ⟨?_, fun _ => ⟨hc, ho⟩, fun h2 => absurd hm h2, ?_, rfl⟩
    · rw [hc]; simp [hm]
    · rw [hc, ho]; simp
  · have hc : HttpMethod.MethodHandlerCalls m r = [] := by
      simp only [HttpMethod.MethodHandlerCalls, hm, ↓reduceIte]
    have ho : HttpMethod.MethodHandler m h r = [] := by
      simp only [HttpMethod.MethodHandler, hm, ↓reduceIte]
    refine ⟨?_, fun h2 => absurd h2 hm, fun _ => ⟨hc, ho⟩, ?_, rfl⟩
    · rw [hc]; simp [hm]
    · rw [hc, ho]; rfl

/-! ## Claim C15: an invalid request path -/

/-- C15: on any router, for a request whose path is empty or does not start
with `'/'`, `matchPath` returns no handlers and no map and `ServeHTTP`
calls the not-found handler (if one is set) on the request and nothing else;
that is what `ServeHTTP` does for every request that matches no route. -/
theorem invalid_path_is_not_found {V : Type} [Inhabited V] (rtr : router V) (r : Request V)
    (h : r.Path.head? ≠ some '/') :
    matchPath r.Path rtr.routes rtr.paramFuncs = .ok (none, none) ∧
      ServeHTTP rtr r =
        (match rtr.NotFoundHandler with
          | some nf => .ok { calls := [.notFound], out := nf r }
          | none => .ok { calls := [], out := [] }) ∧
      ∀ r2 : Request V, matchPath r2.Path rtr.routes rtr.paramFuncs = .ok (none, none) →
        ServeHTTP rtr r2 =
          match rtr.NotFoundHandler with
          | some nf => .ok { calls := [.notFound], out := nf r2 }
          | none => .ok { calls := [], out := [] } := by
  have hm := matchPath_invalid r.Path rtr.routes rtr.paramFuncs h
  exact ⟨hm, ServeHTTP_not_found rtr r none none hm rfl,
    fun r2 h2 => ServeHTTP_not_found rtr r2 none none h2 rfl⟩

/-- C15 at a concrete input: the router with the route `/onlyget` and the
request path `no-slash`; the empty path behaves the same. -/
theorem invalid_path_is_not_found_witness :
    exampleBadPath.Path.head? ≠ some '/' ∧
    ServeHTTP exampleRouterOnlyGet exampleBadPath =
      .ok { calls := [.notFound], out := defaultNotFoundHandler exampleBadPath } ∧
    ServeHTTP exampleRouterOnlyGet { exampleBadPath with Path := [] } =
      .ok { calls := [.notFound],
            out := defaultNotFoundHandler { exampleBadPath with Path := [] } } :=
  ⟨by decide,
    (invalid_path_is_not_found exampleRouterOnlyGet exampleBadPath (by decide)).2.1,
    (invalid_path_is_not_found exampleRouterOnlyGet { exampleBadPath with Path := [] }
      (by decide)).2.1⟩

/-! ## Claim C18: the final depth -/

/-- The sibling loop at the final depth: siblings that do not match are
passed over, and the first one that matches ends the loop with its handler
slice, whatever stands after it. -/
theorem findLoop_final_first_match {H V : Type} [Inhabited V] (pf : ParamFuncMap V) (part : Str)
    (recur : List (Param V) → List (node H) → Outcome (Option (List H) × List (Param V)))
    (n : node H) (post : List (node H)) (p : Param V)
    (hn : matchPartNode part n pf Param.zero = .ok (true, p)) :
    ∀ (pre : List (node H)) (q : Param V) (ptail : List (Param V)),
      (∀ x ∈ pre, ∃ p2, matchPartNode part x pf (Param.zero : Param V) = .ok (false, p2)) →
      findLoop pf part [] recur (pre ++ n :: post) (q :: ptail) = .ok (n.Handlers, p :: ptail) := by
  intro pre
  induction pre with
  | nil =>
    intro q ptail _
    simp only [List.nil_append, findLoop, hn, List.length_nil, ↓reduceIte]
  | cons x t ih =>
    intro q ptail hpre
    obtain ⟨p2, hx⟩ := hpre x (by simp)
    show findLoop pf part [] recur (x :: (t ++ n :: post)) (q :: ptail) = _
    simp only [findLoop, hx]
    exact ih p2 ptail (fun y hy => hpre y (List.mem_cons_of_mem _ hy))

/-- C18: at the final depth (one segment left), when no sibling before `n`
matches the segment and `n` does, `findHandler` returns the handler slice of
`n` as it is, with the parameter slot that the match of `n` left; the
siblings after `n` play no part.  So when `n` has no handlers (`nil`) the
result is `nil`, also when a later sibling matches and has handlers. -/
theorem findHandler_final_depth_returns_first_match {H V : Type} [Inhabited V]
    (pf : ParamFuncMap V) (part : Str) (pre : List (node H)) (n : node H) (post : List (node H))
    (q p : Param V) (ptail : List (Param V))
    (hpre : ∀ x ∈ pre, ∃ p2, matchPartNode part x pf (Param.zero : Param V) = .ok (false, p2))
    (hn : matchPartNode part n pf Param.zero = .ok (true, p)) :
    findHandler pf [part] (q :: ptail) (pre ++ n :: post) = .ok (n.Handlers, p :: ptail) ∧
      (∀ post2, findHandler pf [part] (q :: ptail) (pre ++ n :: post2) =
        findHandler pf [part] (q :: ptail) (pre ++ n :: post)) ∧
      (n.Handlers = none →
        findHandler pf [part] (q :: ptail) (pre ++ n :: post) = .ok (none, p :: ptail)) := by
  have hmain : ∀ post2, findHandler pf [part] (q :: ptail) (pre ++ n :: post2) =
      .ok (n.Handlers, p :: ptail) := by
    intro post2
    rw [findHandler_cons]
    exact findLoop_final_first_match pf part _ n post2 p hn pre q ptail hpre
  refine ⟨hmain post, fun post2 => by rw [hmain post2, hmain post], fun h0 => ?_⟩
  rw [hmain post, h0]

/-- C18 at a concrete input: in the tree with the routes `/a/b` and
`/{x:any}`, at the segment `/a`, the node `/a` has no handlers and comes
first; the parameter node after it matches too and holds the handler `2`,
and the result is `nil`. -/
theorem findHandler_final_depth_returns_first_match_witness :
    (∀ x ∈ ([] : List (node Nat)),
      ∃ p2, matchPartNode "/a".toList x exampleFuncs (Param.zero : Param Nat) = .ok (false, p2)) ∧
    matchPartNode "/a".toList exampleParamNode exampleFuncs (Param.zero : Param Nat) =
      .ok (true, { Name := "x".toList, ValueRaw := "a".toList, Value := 1 }) ∧
    exampleParamNode.Handlers = some [2] ∧
    exampleTree = [] ++ exampleNodeA :: [exampleParamNode] ∧
    findHandler exampleFuncs ["/a".toList] [(Param.zero : Param Nat)] exampleTree =
      .ok (none, [Param.zero]) :=
  ⟨by simp, rfl, rfl, rfl,
    (findHandler_final_depth_returns_first_match exampleFuncs "/a".toList [] exampleNodeA
      [exampleParamNode] Param.zero Param.zero [] (by simp) rfl).1⟩

/-! ## Claim C19: parameter nodes with the same name -/

/-- Slots with other names leave the entry under `name` as it was. -/
theorem fillParamMap_other {V : Type} :
    ∀ (ps : List (Param V)) (m0 : ParamMap V) (name : Str),
      (∀ p ∈ ps, p.Name ≠ name) → fillParamMap ps m0 name = m0 name := by
  intro ps
  induction ps with
  | nil => intro m0 name _; rfl
  | cons q more ih =>
    intro m0 name h
    have hq : q.Name ≠ name := h q (by simp)
    simp only [fillParamMap]
    split
    · rw [ih _ name (fun p hp => h p (List.mem_cons_of_mem _ hp))]
      exact Function.update_noteq (fun h2 => hq h2.symm) _ _
    · exact ih m0 name (fun p hp => h p (List.mem_cons_of_mem _ hp))

/-- The entry under a name is the last slot of the buffer with that name. -/
theorem fillParamMap_deepest {V : Type} :
    ∀ (ps : List (Param V)) (m0 : ParamMap V) (i : Nat) (p : Param V),
      ps.get? i = some p → p.Name ≠ [] →
      (∀ j p2, i < j → ps.get? j = some p2 → p2.Name ≠ p.Name) →
      fillParamMap ps m0 p.Name = some p := by
  intro ps
  induction ps with
  | nil => intro m0 i p h; simp at h
  | cons q more ih =>
    intro m0 i p hi hne hlater
    cases i with
    | zero =>
      simp only [List.get?_cons_zero, Option.some.injEq] at hi
      subst hi
      simp only [fillParamMap, ne_eq, hne, not_false_eq_true, ↓reduceIte]
      rw [fillParamMap_other more _ q.Name]
      · exact Function.update_same _ _ _
      · intro p2 hp2
        obtain ⟨j, hj⟩ := List.get?_of_mem hp2
        exact hlater (j + 1) p2 (Nat.succ_pos j) (by simpa using hj)
    | succ k =>
      simp only [List.get?_cons_succ] at hi
      have hl : ∀ j p2, k < j → more.get? j = some p2 → p2.Name ≠ p.Name :=
        fun j p2 hkj hj => hlater (j + 1) p2 (Nat.succ_lt_succ hkj) (by simpa using hj)
      simp only [fillParamMap]
      split
      · exact ih _ k p hi hne hl
      · exact ih _ k p hi hne hl

/-- Position by position, from the node's side: the node at a position of a
chain has its segment and its parameter slot at the same position. -/
theorem MatchChain.at_index {H V : Type} [Inhabited V] {pf : ParamFuncMap V} {segs : List Str}
    {nodes chain : List (node H)} {ps : List (Param V)} {hs : Option (List H)}
    (h : MatchChain pf segs nodes chain ps hs) :
    ∀ (i : Nat) (n : node H), chain.get? i = some n →
      ∃ seg p, segs.get? i = some seg ∧ ps.get? i = some p ∧
        matchPartNode seg n pf Param.zero = .ok (true, p) := by
  induction h with
  | last seg nodes n p _ hm =>
    intro i m hi
    cases i with
    | zero =>
      simp only [List.get?_cons_zero, Option.some.injEq] at hi
      subst hi
      exact ⟨seg, p, rfl, rfl, hm⟩
    | succ j => simp at hi
  | step seg rest nodes n chain p ps hs _ hm _ ih =>
    intro i m hi
    cases i with
    | zero =>
      simp only [List.get?_cons_zero, Option.some.injEq] at hi
      subst hi
      exact ⟨seg, p, rfl, rfl, hm⟩
    | succ j =>
      simp only [List.get?_cons_succ] at hi
      obtain ⟨seg2, p2, h1, h2, h3⟩ := ih j m hi
      exact ⟨seg2, p2, by simpa using h1, by simpa using h2, h3⟩

/-- The names under which the filled map has an entry are the names of the
parameter nodes of the chain, in a tree whose parameter nodes have names. -/
theorem paramMap_entry_iff {H V : Type} [Inhabited V] {pf : ParamFuncMap V} {segs : List Str}
    {nodes chain : List (node H)} {ps : List (Param V)} {hs : Option (List H)}
    (hchain : MatchChain pf segs nodes chain ps hs)
    (hinv : EveryLevel (LevelOk (fun t nm => (t = nodetype_literal ∨ t = nodetype_param) ∧
      (t = nodetype_param → nm ≠ []))) nodes) (name : Str) :
    (∃ p, fillParamMap ps (fun _ => none) name = some p) ↔
      ∃ n ∈ chain, n.NodeType = nodetype_param ∧ n.ParamName = name := by
  constructor
  · rintro ⟨p, hp⟩
    rcases fillParamMap_some ps _ name p hp with h0 | ⟨i, hi, hname, hne⟩
    · simp at h0
    · obtain ⟨n, seg, hn, _, hm⟩ := hchain.at_slot i p hi
      rcases matchPartNode_true_cases seg n pf p hm with ⟨_, _, hz⟩ | ⟨ht, fn, _, _, _, hpv⟩
      · rw [hz] at hname
        exact absurd hname.symm hne
      · exact ⟨n, List.get?_mem hn, ht, by rw [← hname, hpv]⟩
  · rintro ⟨n, hn, ht, hnn⟩
    obtain ⟨i, seg, p, _, _, hp, hm⟩ := hchain.at_node n hn
    have hne : name ≠ [] := by
      rw [← hnn]
      exact (hchain.node_ok _ hinv n hn).2 ht
    apply fillParamMap_isSome ps _ name hne
    left
    refine ⟨p, List.get?_mem hp, ?_⟩
    rcases matchPartNode_true_cases seg n pf p hm with ⟨ht0, _, _⟩ | ⟨_, fn, _, _, _, hpv⟩
    · rw [ht] at ht0; exact absurd ht0 (by decide)
    · rw [hpv]; exact hnn

/-- C19: on the tree of a router reached from `NewRouter()`, when
`matchPath` returns handlers, the map it returns holds, under the name of a
parameter node of the matched chain, the parameter resolved at the deepest
node of the chain with that name (from that node's own segment); the names
with an entry are the distinct names of the chain's parameter nodes, so
there are as many entries as distinct names and at most as many as
parameter nodes. -/
theorem paramMap_keeps_deepest {V : Type} [Inhabited V] (rtr : router V)
    (hreach : Reachable rtr) (pf : ParamFuncMap V) (path : Str) (hs : List (Handler V))
    (pm : Option (ParamMap V)) (h : matchPath path rtr.routes pf = .ok (some hs, pm)) :
    ∃ segs chain ps m, parts path = .ok (some segs) ∧ pm = some m ∧
      MatchChain pf segs rtr.routes chain ps (some hs) ∧
      (∀ i n, chain.get? i = some n → n.NodeType = nodetype_param →
        (∀ j n2, i < j → chain.get? j = some n2 →
          ¬ (n2.NodeType = nodetype_param ∧ n2.ParamName = n.ParamName)) →
        ∃ seg fn, segs.get? i = some seg ∧ pf n.ParamEval = some fn ∧
          m n.ParamName =
            some { Name := n.ParamName, ValueRaw := seg.drop 1, Value := (fn (seg.drop 1)).2 }) ∧
      (∀ name, (∃ p, m name = some p) ↔
        name ∈ ((chain.filter (fun n => decide (n.NodeType = nodetype_param))).map
          (fun n => n.ParamName)).dedup) ∧
      Set.ncard {name | ∃ p, m name = some p} =
        ((chain.filter (fun n => decide (n.NodeType = nodetype_param))).map
          (fun n => n.ParamName)).dedup.length ∧
      ((chain.filter (fun n => decide (n.NodeType = nodetype_param))).map
          (fun n => n.ParamName)).dedup.length ≤
        (chain.filter (fun n => decide (n.NodeType = nodetype_param))).length := by
  obtain ⟨segs, chain, ps, hparts, hchain, hpm⟩ := matchPath_some path rtr.routes pf hs pm h
  have hinv := hreach.levelOk
  have hkeys : ∀ name, (∃ p, fillParamMap ps (fun _ => none) name = some p) ↔
      name ∈ ((chain.filter (fun n => decide (n.NodeType = nodetype_param))).map
        (fun n => n.ParamName)).dedup := by
    intro name
    rw [paramMap_entry_iff hchain hinv name, List.mem_dedup, List.mem_map]
    constructor
    · rintro ⟨n, hn, ht, hnn⟩
      exact ⟨n, List.mem_filter.mpr ⟨hn, by simpa using ht⟩, hnn⟩
    · rintro ⟨n, hn, hnn⟩
      obtain ⟨hn1, hn2⟩ := List.mem_filter.mp hn
      exact ⟨n, hn1, by simpa using hn2, hnn⟩
  refine ⟨segs, chain, ps, _, hparts, hpm, hchain, ?_, hkeys, ?_, ?_⟩
  · intro i n hi ht hlater
    obtain ⟨seg, p, hseg, hp, hm⟩ := hchain.at_index i n hi
    have hnne : n.ParamName ≠ [] := (hchain.node_ok _ hinv n (List.get?_mem hi)).2 ht
    rcases matchPartNode_true_cases seg n pf p hm with ⟨ht0, _, _⟩ | ⟨_, fn, hfn, _, _, hpv⟩
    · rw [ht] at ht0; exact absurd ht0 (by decide)
    · refine ⟨seg, fn, hseg, hfn, ?_⟩
      have hname : p.Name = n.ParamName := by rw [hpv]
      rw [← hpv, ← hname]
      apply fillParamMap_deepest ps _ i p hp (by rw [hname]; exact hnne)
      intro j p2 hij hj hp2
      obtain ⟨n2, seg2, hn2, _, hm2⟩ := hchain.at_slot j p2 hj
      rcases matchPartNode_true_cases seg2 n2 pf p2 hm2 with ⟨_, _, hz⟩ | ⟨ht2, fn2, _, _, _, hpv2⟩
      · rw [hz, hname] at hp2
        exact hnne hp2.symm
      · apply hlater j n2 hij hn2
        refine ⟨ht2, ?_⟩
        rw [← hname, ← hp2, hpv2]
  · have hset : {name | ∃ p, fillParamMap ps (fun _ => none) name = some p} =
        ↑(((chain.filter (fun n => decide (n.NodeType = nodetype_param))).map
          (fun n => n.ParamName)).dedup.toFinset) := by
      ext name
      simp only [Set.mem_setOf_eq, Finset.mem_coe, List.mem_toFinset]
      exact hkeys name
    rw [hset, Set.ncard_coe_Finset, List.toFinset_card_of_nodup (List.nodup_dedup _)]
  · calc ((chain.filter (fun n => decide (n.NodeType = nodetype_param))).map
          (fun n => n.ParamName)).dedup.length
        ≤ ((chain.filter (fun n => decide (n.NodeType = nodetype_param))).map
          (fun n => n.ParamName)).length := (List.dedup_sublist _).length_le
      _ = (chain.filter (fun n => decide (n.NodeType = nodetype_param))).length :=
          List.length_map _ _
/-- C19 at a concrete input: the route `/{x:any}/{x:any}` and the path
`/abc/de`: both segments resolve a parameter `x`, and the map holds the one
of the second segment. -/
theorem paramMap_keeps_deepest_witness :
    Reachable exampleRouterTwice ∧
    matchPath "/abc/de".toList exampleRouterTwice.routes exampleFuncs =
      .ok (some [exampleHandler], some (fillParamMap
        [{ Name := "x".toList, ValueRaw := "abc".toList, Value := 3 },
         { Name := "x".toList, ValueRaw := "de".toList, Value := 2 }]
        (fun _ => none))) ∧
    fillParamMap
        [{ Name := "x".toList, ValueRaw := "abc".toList, Value := 3 },
         ({ Name := "x".toList, ValueRaw := "de".toList, Value := 2 } : Param Nat)]
        (fun _ => none) "x".toList =
      some { Name := "x".toList, ValueRaw := "de".toList, Value := 2 } ∧
    ∃ segs chain ps m, parts "/abc/de".toList = .ok (some segs) ∧
      (some (fillParamMap
        [{ Name := "x".toList, ValueRaw := "abc".toList, Value := 3 },
         { Name := "x".toList, ValueRaw := "de".toList, Value := 2 }]
        (fun _ => none)) : Option (ParamMap Nat)) = some m ∧
      MatchChain exampleFuncs segs exampleRouterTwice.routes chain ps (some [exampleHandler]) ∧
      (∀ i n, chain.get? i = some n → n.NodeType = nodetype_param →
        (∀ j n2, i < j → chain.get? j = some n2 →
          ¬ (n2.NodeType = nodetype_param ∧ n2.ParamName = n.ParamName)) →
        ∃ seg fn, segs.get? i = some seg ∧ exampleFuncs n.ParamEval = some fn ∧
          m n.ParamName =
            some { Name := n.ParamName, ValueRaw := seg.drop 1, Value := (fn (seg.drop 1)).2 }) ∧
      (∀ name, (∃ p, m name = some p) ↔
        name ∈ ((chain.filter (fun n => decide (n.NodeType = nodetype_param))).map
          (fun n => n.ParamName)).dedup) ∧
      Set.ncard {name | ∃ p, m name = some p} =
        ((chain.filter (fun n => decide (n.NodeType = nodetype_param))).map
          (fun n => n.ParamName)).dedup.length ∧
      ((chain.filter (fun n => decide (n.NodeType = nodetype_param))).map
          (fun n => n.ParamName)).dedup.length ≤
        (chain.filter (fun n => decide (n.NodeType = nodetype_param))).length :=
  ⟨Reachable.addRoute NewRouter exampleRouterTwice "/{x:any}/{x:any}".toList [exampleHandler] true
      Reachable.new rfl,
    rfl, rfl,
    paramMap_keeps_deepest exampleRouterTwice
      (Reachable.addRoute NewRouter exampleRouterTwice "/{x:any}/{x:any}".toList [exampleHandler]
        true Reachable.new rfl)
      exampleFuncs "/abc/de".toList [exampleHandler] _ rfl⟩

/-! ## Claim C20: no index or slice out of range -/

/-- `AddRoute` never panics when the pattern has two capture groups. -/
theorem AddRoute_total {V : Type} (rtr : router V) (hre : TwoGroups rtr.ParamRegex)
    (pathSpec : Str) (handlers : List (Handler V)) :
    ∃ b rtr2, AddRoute rtr pathSpec handlers = .ok (b, rtr2) := by
  by_cases hne : handlers = []
  · subst hne
    exact ⟨false, rtr, by simp [AddRoute]⟩
  · have hlen : handlers.length > 0 := List.length_pos.mpr hne
    obtain ⟨r, hr⟩ := parts_total pathSpec
    cases r with
    | none => exact ⟨false, rtr, by simp only [AddRoute, hlen, ↓reduceIte, hr]⟩
    | some segs =>
      obtain ⟨hsegs, _⟩ := parts_segments_ne_nil pathSpec segs hr
      obtain ⟨t, ht⟩ := addPartsToTree_total rtr.ParamRegex hre handlers segs rtr.routes hsegs
      exact ⟨true, { rtr with routes := t }, AddRoute_of_parts rtr pathSpec handlers segs t hne hr ht⟩

/-- C20, as amended: `matchPath` never panics, on any tree, registry and
path, and `AddRoute` never panics, on any tree, spec and handler list, when
the pattern is `nil` or has at least two capture groups (the default has
two).  `parts` gives `nil` or a non-empty list of non-empty segments;
`findHandler`, on at least one segment, non-empty segments and a buffer with
one slot per segment, returns and leaves the buffer with as many slots;
`addPartsToTree` returns on at least one segment. -/
theorem matchPath_AddRoute_never_panic {V : Type} [Inhabited V] (rtr : router V) :
    (∀ path : Str, parts path = .ok none ∨
      ∃ segs, parts path = .ok (some segs) ∧ segs ≠ [] ∧ ∀ s ∈ segs, s ≠ []) ∧
    (∀ (pf : ParamFuncMap V) (segs : List Str) (params : List (Param V))
      (nodes : List (node (Handler V))),
      segs ≠ [] → (∀ s ∈ segs, s ≠ []) → params.length = segs.length →
      ∃ r ps, findHandler pf segs params nodes = .ok (r, ps) ∧ ps.length = segs.length) ∧
    (∀ (path : Str) (nodes : List (node (Handler V))) (pf : ParamFuncMap V),
      ∃ r, matchPath path nodes pf = .ok r) ∧
    (TwoGroups rtr.ParamRegex →
      ∀ (segs : List Str) (nodes : List (node (Handler V))) (handlers : List (Handler V)),
        segs ≠ [] → ∃ t, addPartsToTree rtr.ParamRegex handlers segs nodes = .ok t) ∧
    (TwoGroups rtr.ParamRegex →
      ∀ (pathSpec : Str) (handlers : List (Handler V)),
        ∃ b rtr2, AddRoute rtr pathSpec handlers = .ok (b, rtr2)) := by
  refine ⟨?_, ?_, ?_, ?_, ?_⟩
  · intro path
    obtain ⟨r, hr⟩ := parts_total path
    cases r with
    | none => exact Or.inl hr
    | some segs =>
      obtain ⟨h1, h2⟩ := parts_segments_ne_nil path segs hr
      exact Or.inr ⟨segs, hr, h1, h2⟩
  · intro pf segs params nodes hne hseg hlen
    obtain ⟨⟨r, ps⟩, hf, hl⟩ := findHandler_total pf segs params nodes hne hseg (by omega)
    exact ⟨r, ps, hf, by simpa [hlen] using hl⟩
  · intro path nodes pf
    rcases matchPath_total path nodes pf with h | ⟨hs, pm, h⟩
    · exact ⟨_, h⟩
    · exact ⟨_, h⟩
  · intro hre segs nodes handlers hne
    exact addPartsToTree_total rtr.ParamRegex hre handlers segs nodes hne
  · intro hre pathSpec handlers
    exact AddRoute_total rtr hre pathSpec handlers

/-- C20 at a concrete input: a new router, the tree with the route
`/onlyget`, and a path and a spec with empty segments. -/
theorem matchPath_AddRoute_never_panic_witness :
    TwoGroups (NewRouter : router Nat).ParamRegex ∧
    (∃ r, matchPath "/a//".toList exampleRouterOnlyGet.routes exampleFuncs = .ok r) ∧
    ∃ b rtr2, AddRoute (NewRouter : router Nat) "/a//{x:any}".toList [exampleHandler] =
      .ok (b, rtr2) :=
  ⟨twoGroups_default,
    (matchPath_AddRoute_never_panic (NewRouter : router Nat)).2.2.1
      "/a//".toList exampleRouterOnlyGet.routes exampleFuncs,
    (matchPath_AddRoute_never_panic (NewRouter : router Nat)).2.2.2.2 twoGroups_default
      "/a//{x:any}".toList [exampleHandler]⟩

/-! ## Claim C16: what a registration changes -/

/-- A successful `addPartsToTree` changes the tree as `Added` says. -/
theorem addPartsToTree_added {H : Type} (re : Option Regexp) (hs : List H) :
    ∀ (segs : List Str) (nodes nodes2 : List (node H)),
      addPartsToTree re hs segs nodes = .ok nodes2 → Added hs segs nodes nodes2 := by
  intro segs
  induction segs with
  | nil => intro nodes nodes2 h; simp [addPartsToTree] at h
  | cons part rest ih =>
    intro nodes nodes2 h
    rw [addPartsToTree_cons] at h
    cases hpn : specPartNode (H := H) part re with
    | panicked => simp [hpn] at h
    | ok partNode =>
      rw [hpn] at h
      simp only at h
      obtain ⟨hpart, hsub0, hh0⟩ := specPartNode_fields part re partNode hpn
      rcases addAtLevel_ok _ partNode nodes nodes2 h with
        ⟨pre, n, post, m, hn, hpre, hnp, hu, h2⟩ | ⟨hall, m, hu, h2⟩
      · obtain ⟨ht, hp, hnm, hev, hcase⟩ := updateMatchNode_ok _ _ _ n m hu
        subst hn h2
        rw [hpart] at hpre hnp
        rcases hcase with ⟨hr, hsubs, hhs⟩ | ⟨hr, hrec, hhs⟩
        · subst hr
          exact Added.found_last part pre n m post hpre hnp ⟨ht, hp, hnm, hev⟩ hsubs hhs
        · exact Added.found_step part rest pre n m post hr hpre hnp ⟨ht, hp, hnm, hev⟩ hhs
            (ih _ _ hrec)
      · obtain ⟨_, hp, _, _, hcase⟩ := updateMatchNode_ok _ _ _ partNode m hu
        subst h2
        rw [hpart] at hall hp
        rcases hcase with ⟨hr, hsubs, hhs⟩ | ⟨hr, hrec, hhs⟩
        · subst hr
          rw [hsub0] at hsubs
          rw [hh0] at hhs
          exact Added.new_last part nodes m hall hp hsubs hhs
        · rw [hsub0] at hrec
          rw [hh0] at hhs
          exact Added.new_step part rest nodes m hr hall hp hhs (ih _ _ hrec)

theorem get?_middle {α : Type} (pre : List α) (x : α) (post : List α) :
    (pre ++ x :: post).get? pre.length = some x := by
  induction pre with
  | nil => rfl
  | cons a t ih => simpa using ih

theorem get?_off_middle {α : Type} (pre : List α) (x y : α) (post : List α) (i : Nat)
    (h : i ≠ pre.length) : (pre ++ x :: post).get? i = (pre ++ y :: post).get? i := by
  induction pre generalizing i with
  | nil =>
    cases i with
    | zero => simp at h
    | succ j => rfl
  | cons a t ih =>
    cases i with
    | zero => rfl
    | succ j =>
      simp only [List.cons_append, List.get?_cons_succ]
      exact ih j (fun hj => h (by simp [hj]))

theorem nodeAt_cons {H : Type} (i : Nat) (is : List Nat) (nodes : List (node H)) :
    nodeAt (i :: is) nodes =
      match nodes.get? i with
      | none => none
      | some n => if is.length = 0 then some n else nodeAt is n.SubNodes := rfl

theorem nodeAt_nil_nodes {H : Type} (pos : List Nat) : nodeAt pos ([] : List (node H)) = none := by
  cases pos with
  | nil => rfl
  | cons i is => rfl

/-- Away from the changed sibling, positions lead to the same nodes. -/
theorem nodeAt_off_middle {H : Type} (pre : List (node H)) (x y : node H) (post : List (node H))
    (i : Nat) (is : List Nat) (h : i ≠ pre.length) :
    nodeAt (i :: is) (pre ++ x :: post) = nodeAt (i :: is) (pre ++ y :: post) := by
  rw [nodeAt_cons, nodeAt_cons, get?_off_middle pre x y post i h]

theorem nodeAt_middle {H : Type} (pre : List (node H)) (x : node H) (post : List (node H))
    (is : List Nat) :
    nodeAt (pre.length :: is) (pre ++ x :: post) =
      if is.length = 0 then some x else nodeAt is x.SubNodes := by
  rw [nodeAt_cons, get?_middle]

/-- Positions of the old siblings lead to the same nodes after a node is put
behind them. -/
theorem nodeAt_append_old {H : Type} (nodes : List (node H)) (m : node H) (i : Nat)
    (is : List Nat) (h : i < nodes.length) :
    nodeAt (i :: is) (nodes ++ [m]) = nodeAt (i :: is) nodes := by
  rw [nodeAt_cons, nodeAt_cons, List.get?_append h]

/-- After a registration every node of the old tree is found at its old
position, with its old `NodeType`, `Part`, `ParamName` and `ParamEval`. -/
theorem Added.old_nodes_stay {H : Type} {hs : List H} {segs : List Str}
    {old new : List (node H)} (h : Added hs segs old new) :
    ∀ pos n, nodeAt pos old = some n → ∃ n2, nodeAt pos new = some n2 ∧ SameHeader n2 n := by
  induction h with
  | found_last part pre n m post _ _ hhdr hsub _ =>
    intro pos a ha
    cases pos with
    | nil => simp [nodeAt] at ha
    | cons i is =>
      by_cases hi : i = pre.length
      · subst hi
        rw [nodeAt_middle] at ha ⊢
        by_cases h0 : is.length = 0
        · simp only [h0, ↓reduceIte, Option.some.injEq] at ha ⊢
          subst ha
          exact ⟨m, rfl, hhdr⟩
        · simp only [h0, ↓reduceIte] at ha ⊢
          rw [hsub]
          exact ⟨a, ha, rfl, rfl, rfl, rfl⟩
      · rw [nodeAt_off_middle pre m n post i is hi]
        exact ⟨a, ha, rfl, rfl, rfl, rfl⟩
  | found_step part rest pre n m post _ _ _ hhdr _ _ ih =>
    intro pos a ha
    cases pos with
    | nil => simp [nodeAt] at ha
    | cons i is =>
      by_cases hi : i = pre.length
      · subst hi
        rw [nodeAt_middle] at ha ⊢
        by_cases h0 : is.length = 0
        · simp only [h0, ↓reduceIte, Option.some.injEq] at ha ⊢
          subst ha
          exact ⟨m, rfl, hhdr⟩
        · simp only [h0, ↓reduceIte] at ha ⊢
          exact ih is a ha
      · rw [nodeAt_off_middle pre m n post i is hi]
        exact ⟨a, ha, rfl, rfl, rfl, rfl⟩
  | new_last part nodes m _ _ _ _ =>
    intro pos a ha
    cases pos with
    | nil => simp [nodeAt] at ha
    | cons i is =>
      have hi : i < nodes.length := by
        by_contra hc
        rw [nodeAt_cons, List.get?_eq_none.mpr (by omega)] at ha
        simp at ha
      rw [nodeAt_append_old nodes m i is hi]
      exact ⟨a, ha, rfl, rfl, rfl, rfl⟩
  | new_step part rest nodes m _ _ _ _ _ _ =>
    intro pos a ha
    cases pos with
    | nil => simp [nodeAt] at ha
    | cons i is =>
      have hi : i < nodes.length := by
        by_contra hc
        rw [nodeAt_cons, List.get?_eq_none.mpr (by omega)] at ha
        simp at ha
      rw [nodeAt_append_old nodes m i is hi]
      exact ⟨a, ha, rfl, rfl, rfl, rfl⟩

theorem nodesAtDepth_nil {H : Type} (d : Nat) : nodesAtDepth d ([] : List (node H)) = [] := by
  cases d with
  | zero => rfl
  | succ k => rfl

theorem nodesAtDepth_succ_append {H : Type} (d : Nat) (as bs : List (node H)) :
    nodesAtDepth (d + 1) (as ++ bs) = nodesAtDepth (d + 1) as ++ nodesAtDepth (d + 1) bs := by
  simp [nodesAtDepth, List.flatMap_append]

theorem nodesAtDepth_succ_cons {H : Type} (d : Nat) (a : node H) (as : List (node H)) :
    nodesAtDepth (d + 1) (a :: as) = nodesAtDepth d a.SubNodes ++ nodesAtDepth (d + 1) as := by
  simp [nodesAtDepth]

/-- A registration adds at most one node at each depth of the tree. -/
theorem Added.one_node_a_level {H : Type} {hs : List H} {segs : List Str}
    {old new : List (node H)} (h : Added hs segs old new) :
    ∀ d, (nodesAtDepth d new).length ≤ (nodesAtDepth d old).length + 1 := by
  induction h with
  | found_last part pre n m post _ _ _ hsub _ =>
    intro d
    cases d with
    | zero => simp [nodesAtDepth]
    | succ k =>
      simp only [nodesAtDepth_succ_append, nodesAtDepth_succ_cons, hsub, List.length_append]
      omega
  | found_step part rest pre n m post _ _ _ _ _ _ ih =>
    intro d
    cases d with
    | zero => simp [nodesAtDepth]
    | succ k =>
      have := ih k
      simp only [nodesAtDepth_succ_append, nodesAtDepth_succ_cons, List.length_append]
      omega
  | new_last part nodes m _ _ hsub _ =>
    intro d
    cases d with
    | zero => simp [nodesAtDepth]
    | succ k =>
      simp only [nodesAtDepth_succ_append, nodesAtDepth_succ_cons, hsub, nodesAtDepth_nil,
        List.length_append, List.length_nil]
      omega
  | new_step part rest nodes m _ _ _ _ _ ih =>
    intro d
    cases d with
    | zero => simp [nodesAtDepth]
    | succ k =>
      have := ih k
      simp only [nodesAtDepth_nil, List.length_nil] at this
      simp only [nodesAtDepth_succ_append, nodesAtDepth_succ_cons, nodesAtDepth_nil,
        List.length_append, List.length_nil]
      omega

theorem handlersAtPos_nil_nodes {H : Type} (pos : List Nat) :
    handlersAtPos pos ([] : List (node H)) = none := by
  simp [handlersAtPos, nodeAt_nil_nodes]

theorem partsAlong_cons {H : Type} (i : Nat) (is : List Nat) (nodes : List (node H)) :
    partsAlong (i :: is) nodes =
      match nodes.get? i with
      | none => none
      | some n =>
        match partsAlong is n.SubNodes with
        | none => none
        | some texts => some (n.Part :: texts) := rfl

/-- After a registration there is a position, the one of the terminal node
of the segments, at which the handler slice is the old one followed by the
new handlers; at every other position the handler slice is the old one
(`nil` at the positions of new nodes). -/
theorem Added.handlers_frame {H : Type} {hs : List H} {segs : List Str}
    {old new : List (node H)} (h : Added hs segs old new) :
    ∃ tpos nt, partsAlong tpos new = some segs ∧ tpos.length = segs.length ∧
      nodeAt tpos new = some nt ∧
      ∀ pos n2, nodeAt pos new = some n2 →
        n2.Handlers =
          if pos = tpos then goAppend (handlersAtPos pos old) hs else handlersAtPos pos old := by
  induction h with
  | found_last part pre n m post _ hnp hhdr hsub hh =>
    refine ⟨[pre.length], m, ?_, rfl, by rw [nodeAt_middle]; rfl, ?_⟩
    · rw [partsAlong_cons, get?_middle]
      simp [partsAlong, hhdr.2.1, hnp]
    · intro pos n2 hn2
      cases pos with
      | nil => simp [nodeAt] at hn2
      | cons i is =>
        by_cases hi : i = pre.length
        · subst hi
          rw [nodeAt_middle] at hn2
          by_cases h0 : is.length = 0
          · have his : is = [] := List.length_eq_zero.mp h0
            subst his
            simp only [List.length_nil, ↓reduceIte, Option.some.injEq] at hn2
            subst hn2
            simp only [↓reduceIte, handlersAtPos, nodeAt_middle, List.length_nil]
            exact hh
          · simp only [h0, ↓reduceIte] at hn2
            have hne : ¬ (pre.length :: is = [pre.length]) := by
              intro h2
              simp only [List.cons.injEq, true_and] at h2
              exact h0 (by simp [h2])
            simp only [hne, ↓reduceIte, handlersAtPos, nodeAt_middle, h0]
            rw [hsub] at hn2
            rw [hn2]
        · have hne : ¬ (i :: is = [pre.length]) := by
            intro h2
            simp only [List.cons.injEq] at h2
            exact hi h2.1
          rw [nodeAt_off_middle pre m n post i is hi] at hn2
          simp only [hne, ↓reduceIte, handlersAtPos, hn2]
  | found_step part rest pre n m post hrest _ hnp hhdr hh _ ih =>
    obtain ⟨tpos, nt, hparts, hlen, hnt, hall⟩ := ih
    have htne : tpos.length ≠ 0 := by
      rw [hlen]
      exact fun h0 => hrest (List.length_eq_zero.mp h0)
    refine ⟨pre.length :: tpos, nt, ?_, by simp [hlen], ?_, ?_⟩
    · rw [partsAlong_cons, get?_middle]
      simp [hparts, hhdr.2.1, hnp]
    · rw [nodeAt_middle]
      simp only [htne, ↓reduceIte]
      exact hnt
    · intro pos n2 hn2
      cases pos with
      | nil => simp [nodeAt] at hn2
      | cons i is =>
        by_cases hi : i = pre.length
        · subst hi
          rw [nodeAt_middle] at hn2
          by_cases h0 : is.length = 0
          · have his : is = [] := List.length_eq_zero.mp h0
            subst his
            simp only [List.length_nil, ↓reduceIte, Option.some.injEq] at hn2
            subst hn2
            have hne : ¬ ([pre.length] = pre.length :: tpos) := by
              intro h2
              simp only [List.cons.injEq, true_and] at h2
              exact htne (by simp [← h2])
            simp only [hne, ↓reduceIte, handlersAtPos, nodeAt_middle, List.length_nil]
            exact hh
          · simp only [h0, ↓reduceIte] at hn2
            have := hall is n2 hn2
            rw [this]
            simp only [List.cons.injEq, true_and, handlersAtPos, nodeAt_middle, h0, ↓reduceIte]
        · have hne : ¬ (i :: is = pre.length :: tpos) := by
            intro h2
            simp only [List.cons.injEq] at h2
            exact hi h2.1
          rw [nodeAt_off_middle pre m n post i is hi] at hn2
          simp only [hne, ↓reduceIte, handlersAtPos, hn2]
  | new_last part nodes m _ hmp hsub hh =>
    refine ⟨[nodes.length], m, ?_, rfl, by rw [nodeAt_middle]; rfl, ?_⟩
    · rw [partsAlong_cons, get?_middle]
      simp [partsAlong, hmp]
    · intro pos n2 hn2
      cases pos with
      | nil => simp [nodeAt] at hn2
      | cons i is =>
        by_cases hi : i < nodes.length
        · have hne : ¬ (i :: is = [nodes.length]) := by
            intro h2
            simp only [List.cons.injEq] at h2
            omega
          rw [nodeAt_append_old nodes m i is hi] at hn2
          simp only [hne, ↓reduceIte, handlersAtPos, hn2]
        · have hold : nodeAt (i :: is) nodes = none := by
            rw [nodeAt_cons, List.get?_eq_none.mpr (by omega)]
          by_cases hi2 : i = nodes.length
          · subst hi2
            rw [nodeAt_middle] at hn2
            by_cases h0 : is.length = 0
            · have his : is = [] := List.length_eq_zero.mp h0
              subst his
              simp only [List.length_nil, ↓reduceIte, Option.some.injEq] at hn2
              subst hn2
              simp only [↓reduceIte, handlersAtPos, hold]
              exact hh
            · simp only [h0, ↓reduceIte, hsub, nodeAt_nil_nodes] at hn2
              simp at hn2
          · rw [nodeAt_cons, List.get?_eq_none.mpr (by simp; omega)] at hn2
            simp at hn2
  | new_step part rest nodes m hrest _ hmp hh _ ih =>
    obtain ⟨tpos, nt, hparts, hlen, hnt, hall⟩ := ih
    have htne : tpos.length ≠ 0 := by
      rw [hlen]
      exact fun h0 => hrest (List.length_eq_zero.mp h0)
    refine ⟨nodes.length :: tpos, nt, ?_, by simp [hlen], ?_, ?_⟩
    · rw [partsAlong_cons, get?_middle]
      simp [hparts, hmp]
    · rw [nodeAt_middle]
      simp only [htne, ↓reduceIte]
      exact hnt
    · intro pos n2 hn2
      cases pos with
      | nil => simp [nodeAt] at hn2
      | cons i is =>
        by_cases hi : i < nodes.length
        · have hne : ¬ (i :: is = nodes.length :: tpos) := by
            intro h2
            simp only [List.cons.injEq] at h2
            omega
          rw [nodeAt_append_old nodes m i is hi] at hn2
          simp only [hne, ↓reduceIte, handlersAtPos, hn2]
        · have hold : nodeAt (i :: is) nodes = none := by
            rw [nodeAt_cons, List.get?_eq_none.mpr (by omega)]
          by_cases hi2 : i = nodes.length
          · subst hi2
            rw [nodeAt_middle] at hn2
            by_cases h0 : is.length = 0
            · have his : is = [] := List.length_eq_zero.mp h0
              subst his
              simp only [List.length_nil, ↓reduceIte, Option.some.injEq] at hn2
              subst hn2
              have hne : ¬ ([nodes.length] = nodes.length :: tpos) := by
                intro h2
                simp only [List.cons.injEq, true_and] at h2
                exact htne (by simp [← h2])
              simp only [hne, ↓reduceIte, handlersAtPos, hold]
              exact hh
            · simp only [h0, ↓reduceIte] at hn2
              have := hall is n2 hn2
              rw [this]
              simp only [List.cons.injEq, true_and, handlersAtPos, hold, nodeAt_nil_nodes]
          · rw [nodeAt_cons, List.get?_eq_none.mpr (by simp; omega)] at hn2
            simp at hn2

theorem forall₂_sameHeader_refl {H : Type} (l : List (node H)) : List.Forall₂ SameHeader l l := by
  induction l with
  | nil => exact List.Forall₂.nil
  | cons a t ih => exact List.Forall₂.cons ⟨rfl, rfl, rfl, rfl⟩ ih

theorem forall₂_sameHeader_middle {H : Type} (pre : List (node H)) (m n : node H)
    (post : List (node H)) (h : SameHeader m n) :
    List.Forall₂ SameHeader (pre ++ m :: post) (pre ++ n :: post) := by
  induction pre with
  | nil => exact List.Forall₂.cons h (forall₂_sameHeader_refl post)
  | cons a t ih => exact List.Forall₂.cons ⟨rfl, rfl, rfl, rfl⟩ ih

theorem siblingsAt_cons {H : Type} (i : Nat) (is : List Nat) (nodes : List (node H)) :
    siblingsAt (i :: is) nodes =
      match nodes.get? i with
      | none => none
      | some n => siblingsAt is n.SubNodes := rfl

/-- After a registration every sibling list of the old tree is found at its
old position as the old siblings, one by one with their old `NodeType`,
`Part`, `ParamName` and `ParamEval`, followed by at most one new node. -/
theorem Added.siblings_grow {H : Type} {hs : List H} {segs : List Str}
    {old new : List (node H)} (h : Added hs segs old new) :
    ∀ pos sibs, siblingsAt pos old = some sibs →
      ∃ upd extra, siblingsAt pos new = some (upd ++ extra) ∧ extra.length ≤ 1 ∧
        List.Forall₂ SameHeader upd sibs := by
  induction h with
  | found_last part pre n m post _ _ hhdr hsub _ =>
    intro pos sibs hs0
    cases pos with
    | nil =>
      simp only [siblingsAt, Option.some.injEq] at hs0
      subst hs0
      exact ⟨pre ++ m :: post, [], by simp [siblingsAt], by simp,
        forall₂_sameHeader_middle pre m n post hhdr⟩
    | cons i is =>
      by_cases hi : i = pre.length
      · subst hi
        rw [siblingsAt_cons, get?_middle] at hs0 ⊢
        simp only at hs0 ⊢
        rw [hsub]
        exact ⟨sibs, [], by simp [hs0], by simp, forall₂_sameHeader_refl sibs⟩
      · rw [siblingsAt_cons, get?_off_middle pre m n post i hi, ← siblingsAt_cons]
        exact ⟨sibs, [], by simp [hs0], by simp, forall₂_sameHeader_refl sibs⟩
  | found_step part rest pre n m post _ _ _ hhdr _ _ ih =>
    intro pos sibs hs0
    cases pos with
    | nil =>
      simp only [siblingsAt, Option.some.injEq] at hs0
      subst hs0
      exact ⟨pre ++ m :: post, [], by simp [siblingsAt], by simp,
        forall₂_sameHeader_middle pre m n post hhdr⟩
    | cons i is =>
      by_cases hi : i = pre.length
      · subst hi
        rw [siblingsAt_cons, get?_middle] at hs0 ⊢
        simp only at hs0 ⊢
        exact ih is sibs hs0
      · rw [siblingsAt_cons, get?_off_middle pre m n post i hi, ← siblingsAt_cons]
        exact ⟨sibs, [], by simp [hs0], by simp, forall₂_sameHeader_refl sibs⟩
  | new_last part nodes m _ _ _ _ =>
    intro pos sibs hs0
    cases pos with
    | nil =>
      simp only [siblingsAt, Option.some.injEq] at hs0
      subst hs0
      exact ⟨nodes, [m], rfl, by simp, forall₂_sameHeader_refl nodes⟩
    | cons i is =>
      have hi : i < nodes.length := by
        by_contra hc
        rw [siblingsAt_cons, List.get?_eq_none.mpr (by omega)] at hs0
        simp at hs0
      rw [siblingsAt_cons, List.get?_append hi, ← siblingsAt_cons]
      exact ⟨sibs, [], by simp [hs0], by simp, forall₂_sameHeader_refl sibs⟩
  | new_step part rest nodes m _ _ _ _ _ _ =>
    intro pos sibs hs0
    cases pos with
    | nil =>
      simp only [siblingsAt, Option.some.injEq] at hs0
      subst hs0
      exact ⟨nodes, [m], rfl, by simp, forall₂_sameHeader_refl nodes⟩
    | cons i is =>
      have hi : i < nodes.length := by
        by_contra hc
        rw [siblingsAt_cons, List.get?_eq_none.mpr (by omega)] at hs0
        simp at hs0
      rw [siblingsAt_cons, List.get?_append hi, ← siblingsAt_cons]
      exact ⟨sibs, [], by simp [hs0], by simp, forall₂_sameHeader_refl sibs⟩

/-- C16: after a successful `AddRoute(p, hs)`, on any tree: every node of
the old tree stands at its old position with its old `NodeType`, `Part`,
`ParamName` and `ParamEval`; every old sibling list is followed by at most
one new node, and at most one node is new at each depth; the node at the
terminal position of `p` has its old handler slice followed by `hs`, and at
every other position the handler slice is the old one (`nil` for a new
node).  Nothing but the tree changes in the router. -/
theorem AddRoute_frame {V : Type} (rtr rtr2 : router V) (p : Str) (hs : List (Handler V))
    (hadd : AddRoute rtr p hs = .ok (true, rtr2)) :
    (∀ pos n, nodeAt pos rtr.routes = some n →
      ∃ n2, nodeAt pos rtr2.routes = some n2 ∧ n2.NodeType = n.NodeType ∧ n2.Part = n.Part ∧
        n2.ParamName = n.ParamName ∧ n2.ParamEval = n.ParamEval) ∧
    (∀ pos sibs, siblingsAt pos rtr.routes = some sibs →
      ∃ upd extra, siblingsAt pos rtr2.routes = some (upd ++ extra) ∧ extra.length ≤ 1 ∧
        List.Forall₂ SameHeader upd sibs) ∧
    (∀ d, (nodesAtDepth d rtr2.routes).length ≤ (nodesAtDepth d rtr.routes).length + 1) ∧
    (∃ segs tpos nt, parts p = .ok (some segs) ∧ partsAlong tpos rtr2.routes = some segs ∧
      nodeAt tpos rtr2.routes = some nt ∧
      nt.Handlers = goAppend (handlersAtPos tpos rtr.routes) hs ∧
      ∀ pos n2, nodeAt pos rtr2.routes = some n2 → pos ≠ tpos →
        n2.Handlers = handlersAtPos pos rtr.routes) ∧
    rtr2 = { rtr with routes := rtr2.routes } := by
  rcases AddRoute_ok rtr rtr2 p hs true hadd with ⟨hb, _⟩ | ⟨_, _, segs, hp, hadd2, hr⟩
  · simp at hb
  · have hA := addPartsToTree_added _ _ _ _ _ hadd2
    refine ⟨hA.old_nodes_stay, hA.siblings_grow, hA.one_node_a_level, ?_, hr⟩
    obtain ⟨tpos, nt, hparts, _, hnt, hall⟩ := hA.handlers_frame
    refine ⟨segs, tpos, nt, hp, hparts, hnt, ?_, ?_⟩
    · have := hall tpos nt hnt
      simpa using this
    · intro pos n2 hn2 hne
      have := hall pos n2 hn2
      simpa [hne] using this

/-- C16 at a concrete input: registering `/u/abc` on the router that holds
`/u/{x:any}`. -/
theorem AddRoute_frame_witness :
    AddRoute exampleRouter "/u/abc".toList [exampleHandler2] = .ok (true, exampleRouterGrown) ∧
    nodeAt [0, 1] exampleRouterGrown.routes =
      some { NodeType := nodetype_literal, Part := "/abc".toList, ParamName := [],
             ParamEval := [], SubNodes := [], Handlers := some [exampleHandler2] } ∧
    (∀ pos n, nodeAt pos exampleRouter.routes = some n →
      ∃ n2, nodeAt pos exampleRouterGrown.routes = some n2 ∧ n2.NodeType = n.NodeType ∧
        n2.Part = n.Part ∧ n2.ParamName = n.ParamName ∧ n2.ParamEval = n.ParamEval) ∧
    (∀ d, (nodesAtDepth d exampleRouterGrown.routes).length ≤
      (nodesAtDepth d exampleRouter.routes).length + 1) :=
  ⟨rfl, rfl,
    (AddRoute_frame exampleRouter exampleRouterGrown "/u/abc".toList [exampleHandler2] rfl).1,
    (AddRoute_frame exampleRouter exampleRouterGrown "/u/abc".toList [exampleHandler2] rfl).2.2.1⟩

/-! ## Claim C17: registrations keep matches -/

theorem findPure_cons {H V : Type} [Inhabited V] (pf : ParamFuncMap V) (part : Str)
    (rest : List Str) (nodes : List (node H)) :
    findPure pf (part :: rest) nodes = findPureLoop pf part rest (findPure pf rest) nodes := rfl

theorem findPure_nil_nodes {H V : Type} [Inhabited V] (pf : ParamFuncMap V) (segs : List Str) :
    findPure pf segs ([] : List (node H)) = none := by
  cases segs with
  | nil => rfl
  | cons s t => rfl

/-- The sibling loop of `findHandler` returns the slice `findPureLoop`
gives, when the recursive calls agree in the same way. -/
theorem findLoop_eq_pure {H V : Type} [Inhabited V] (pf : ParamFuncMap V) (part : Str)
    (rest : List Str)
    (recur : List (Param V) → List (node H) → Outcome (Option (List H) × List (Param V)))
    (recurP : List (node H) → Option (List H)) (hpart : part ≠ [])
    (hrec : rest.length ≠ 0 → ∀ ps ns, rest.length ≤ ps.length →
      ∃ ps2, recur ps ns = .ok (recurP ns, ps2) ∧ ps2.length = ps.length) :
    ∀ (nodes : List (node H)) (params : List (Param V)), rest.length + 1 ≤ params.length →
      ∃ ps, findLoop pf part rest recur nodes params =
          .ok (findPureLoop pf part rest recurP nodes, ps) ∧
        ps.length = params.length := by
  intro nodes
  induction nodes with
  | nil => intro params _; exact ⟨params, rfl, rfl⟩
  | cons n ns ih =>
    intro params hlen
    cases params with
    | nil => simp at hlen
    | cons q ptail =>
      obtain ⟨⟨b, p0⟩, hm⟩ := matchPartNode_total part n pf (Param.zero : Param V) hpart
      have hnm : nodeMatches pf part n = b := by simp only [nodeMatches, hm]
      cases b with
      | false =>
        simp only [findLoop, hm, findPureLoop, hnm, Bool.false_eq_true, ↓reduceIte]
        obtain ⟨ps, h1, h2⟩ := ih (p0 :: ptail) (by simpa using hlen)
        exact ⟨ps, h1, by simpa using h2⟩
      | true =>
        simp only [findLoop, hm, findPureLoop, hnm, ↓reduceIte]
        by_cases h0 : rest.length = 0
        · simp only [h0, ↓reduceIte]
          exact ⟨_, rfl, by simp⟩
        · simp only [h0, ↓reduceIte]
          obtain ⟨pt2, hr, hl⟩ := hrec h0 ptail n.SubNodes (by simpa using hlen)
          rw [hr]
          cases hres : recurP n.SubNodes with
          | some l => exact ⟨_, rfl, by simpa using hl⟩
          | none =>
            simp only
            obtain ⟨ps, h1, h2⟩ := ih (p0 :: pt2) (by simp [hl]; simpa using hlen)
            exact ⟨ps, h1, by simpa [hl] using h2⟩

/-- `findHandler` returns the slice `findPure` gives. -/
theorem findHandler_eq_pure {H V : Type} [Inhabited V] (pf : ParamFuncMap V) :
    ∀ (segs : List Str) (params : List (Param V)) (nodes : List (node H)),
      segs ≠ [] → (∀ s ∈ segs, s ≠ []) → segs.length ≤ params.length →
      ∃ ps, findHandler pf segs params nodes = .ok (findPure pf segs nodes, ps) ∧
        ps.length = params.length := by
  intro segs
  induction segs with
  | nil => intro _ _ h; exact absurd rfl h
  | cons part rest ih =>
    intro params nodes _ hne hlen
    rw [findHandler_cons, findPure_cons]
    apply findLoop_eq_pure pf part rest _ _ (hne part (by simp))
    · intro h0 ps ns hl
      exact ih ps ns (by intro h; simp [h] at h0) (fun s hs => hne s (by simp [hs])) hl
    · simpa using hlen

/-- The handler slice `matchPath` returns on a valid path is the one
`findPure` gives for its segments. -/
theorem matchPath_eq_pure {H V : Type} [Inhabited V] (pf : ParamFuncMap V) (path : Str)
    (segs : List Str) (nodes : List (node H)) (hp : parts path = .ok (some segs)) :
    ∃ pm, matchPath path nodes pf = .ok (findPure pf segs nodes, pm) ∧
      (findPure pf segs nodes ≠ none → pm ≠ none) := by
  obtain ⟨hne, hseg⟩ := parts_segments_ne_nil path segs hp
  obtain ⟨ps, hf, _⟩ := findHandler_eq_pure pf segs
    (List.replicate segs.length (Param.zero : Param V)) nodes hne hseg (by simp)
  rw [matchPath_of_parts path segs nodes pf hp, hf]
  cases findPure pf segs nodes with
  | none => exact ⟨none, rfl, fun h => absurd rfl h⟩
  | some l => exact ⟨_, rfl, fun _ => by simp⟩

/-- Nodes that agree in `NodeType`, `Part` and `ParamEval` match the same
segments. -/
theorem nodeMatches_sameHeader {H V : Type} [Inhabited V] (pf : ParamFuncMap V) (part : Str)
    (a b : node H) (h : SameHeader b a) : nodeMatches pf part b = nodeMatches pf part a := by
  obtain ⟨h1, h2, h3, h4⟩ := h
  simp only [nodeMatches, matchPartNode, h1, h2, h3, h4]

theorem Grown.refl_append {H : Type} (hs : List H) :
    ∀ (nodes extra : List (node H)), Grown hs [] extra → Grown hs nodes (nodes ++ extra)
  | [], _, h => h
  | ⟨t, p, nm, ev, subs, hd⟩ :: ns, extra, h =>
    Grown.cons _ _ ns (ns ++ extra) ⟨rfl, rfl, rfl, rfl⟩ (Or.inl rfl)
      (by simpa using Grown.refl_append hs subs [] Grown.done)
      (Grown.refl_append hs ns extra h)

theorem Grown.unchanged {H : Type} (hs : List H) (nodes : List (node H)) : Grown hs nodes nodes := by
  simpa using Grown.refl_append hs nodes [] Grown.done

theorem Grown.after_siblings {H : Type} (hs : List H) {a b : List (node H)} (h : Grown hs a b) :
    ∀ pre : List (node H), Grown hs (pre ++ a) (pre ++ b) := by
  intro pre
  induction pre with
  | nil => exact h
  | cons x t ih =>
    exact Grown.cons x x _ _ ⟨rfl, rfl, rfl, rfl⟩ (Or.inl rfl) (Grown.unchanged hs x.SubNodes) ih

/-- A registration of non-empty handlers lets the tree grow. -/
theorem Added.grown {H : Type} {hs : List H} (hne : hs ≠ []) {segs : List Str}
    {old new : List (node H)} (h : Added hs segs old new) : Grown hs old new := by
  induction h with
  | found_last part pre n m post _ _ hhdr hsub hh =>
    apply Grown.after_siblings
    refine Grown.cons n m post post hhdr (Or.inr hh) ?_ (Grown.unchanged hs post)
    rw [hsub]; exact Grown.unchanged hs _
  | found_step part rest pre n m post _ _ _ hhdr hh _ ih =>
    apply Grown.after_siblings
    exact Grown.cons n m post post hhdr (Or.inl hh) ih (Grown.unchanged hs post)
  | new_last part nodes m _ _ hsub hh =>
    apply Grown.refl_append
    refine Grown.fresh m (Or.inr ?_) (by rw [hsub]; exact Grown.done)
    rw [hh, goAppend_ne_nil none hs hne]
    exact ⟨_, rfl, by simpa using hne⟩
  | new_step part rest nodes m _ _ _ hh _ ih =>
    apply Grown.refl_append
    exact Grown.fresh m (Or.inl hh) ih

/-- When the tree grows, a sibling loop that found nothing finds nothing or
a non-empty slice, and one that found a non-empty slice finds a non-empty
slice, provided the same holds of the recursive calls. -/
theorem findPureLoop_grown {H V : Type} [Inhabited V] (pf : ParamFuncMap V) (hs : List H)
    (hne : hs ≠ []) (part : Str) (rest : List Str) (recur : List (node H) → Option (List H))
    (hnil : recur [] = none)
    (hrec : ∀ a b, Grown hs a b →
      (recur a = none → recur b = none ∨ NonEmptySlice (recur b)) ∧
        (NonEmptySlice (recur a) → NonEmptySlice (recur b)))
    {old new : List (node H)} (h : Grown hs old new) :
    (findPureLoop pf part rest recur old = none →
        findPureLoop pf part rest recur new = none ∨
          NonEmptySlice (findPureLoop pf part rest recur new)) ∧
      (NonEmptySlice (findPureLoop pf part rest recur old) →
        NonEmptySlice (findPureLoop pf part rest recur new)) := by
  induction h with
  | done => exact ⟨fun h0 => Or.inl h0, fun h0 => h0⟩
  | fresh m hm hsub _ =>
    refine ⟨fun _ => ?_, fun h0 => ?_⟩
    · simp only [findPureLoop]
      by_cases hmatch : nodeMatches pf part m = true
      · simp only [hmatch, ↓reduceIte]
        by_cases h0 : rest.length = 0
        · simp only [h0, ↓reduceIte]
          exact hm
        · simp only [h0, ↓reduceIte]
          rcases (hrec [] m.SubNodes hsub).1 hnil with h1 | ⟨l, h1, h2⟩
          · simp [h1]
          · right; rw [h1]; exact ⟨l, rfl, h2⟩
      · simp [hmatch]
    · obtain ⟨l, h1, _⟩ := h0
      simp [findPureLoop] at h1
  | cons a b as bs hhdr hh hsub _ _ ih =>
    have hmatch := nodeMatches_sameHeader pf part a b hhdr
    by_cases hma : nodeMatches pf part a = true
    · have hmb : nodeMatches pf part b = true := by rw [hmatch]; exact hma
      by_cases h0 : rest.length = 0
      · simp only [findPureLoop, hma, hmb, h0, ↓reduceIte]
        rcases hh with hh | hh
        · rw [hh]
          exact ⟨fun h1 => Or.inl h1, fun h1 => h1⟩
        · have hb : NonEmptySlice b.Handlers := by
            rw [hh, goAppend_ne_nil _ hs hne]
            exact ⟨_, rfl, by simp [hne]⟩
          exact ⟨fun _ => Or.inr hb, fun _ => hb⟩
      · simp only [findPureLoop, hma, hmb, h0, ↓reduceIte]
        obtain ⟨hr1, hr2⟩ := hrec a.SubNodes b.SubNodes hsub
        cases hra : recur a.SubNodes with
        | some l =>
          simp only
          refine ⟨fun h1 => by simp at h1, fun h1 => ?_⟩
          have hb := hr2 (by rw [hra]; exact h1)
          obtain ⟨l2, hl2, hl2ne⟩ := hb
          rw [hl2]
          exact ⟨l2, rfl, hl2ne⟩
        | none =>
          simp only
          rcases hr1 hra with hrb | ⟨l2, hl2, hl2ne⟩
          · rw [hrb]
            exact ih
          · rw [hl2]
            exact ⟨fun _ => Or.inr ⟨l2, rfl, hl2ne⟩, fun _ => ⟨l2, rfl, hl2ne⟩⟩
    · have hmb : ¬ (nodeMatches pf part b = true) := by rw [hmatch]; exact hma
      simp only [findPureLoop, hma, hmb, Bool.false_eq_true, ↓reduceIte]
      exact ih

/-- When the tree grows, `findPure` keeps finding nothing or starts finding
a non-empty slice, and keeps finding a non-empty slice where it found one. -/
theorem findPure_grown {H V : Type} [Inhabited V] (pf : ParamFuncMap V) (hs : List H)
    (hne : hs ≠ []) :
    ∀ (segs : List Str) (old new : List (node H)), Grown hs old new →
      (findPure pf segs old = none →
          findPure pf segs new = none ∨ NonEmptySlice (findPure pf segs new)) ∧
        (NonEmptySlice (findPure pf segs old) → NonEmptySlice (findPure pf segs new)) := by
  intro segs
  induction segs with
  | nil =>
    intro old new _
    exact ⟨fun _ => Or.inl rfl, fun ⟨l, h1, _⟩ => by simp [findPure] at h1⟩
  | cons part rest ih =>
    intro old new hg
    rw [findPure_cons, findPure_cons]
    exact findPureLoop_grown pf hs hne part rest (findPure pf rest) (findPure_nil_nodes pf rest)
      (fun a b hab => ih a b hab) hg

/-- C17: when `matchPath(q)` returns a non-empty handler list on a tree, it
returns a non-empty handler list on the tree a successful `AddRoute(p, hs)`
leaves, with the same registry; the list may be another one. -/
theorem AddRoute_keeps_matches {V : Type} [Inhabited V] (rtr rtr2 : router V) (p : Str)
    (hs : List (Handler V)) (pf : ParamFuncMap V) (q : Str) (l : List (Handler V))
    (pm : Option (ParamMap V)) (hadd : AddRoute rtr p hs = .ok (true, rtr2))
    (hm : matchPath q rtr.routes pf = .ok (some l, pm)) (hl : l ≠ []) :
    ∃ l2 pm2, matchPath q rtr2.routes pf = .ok (some l2, some pm2) ∧ l2 ≠ [] := by
  rcases AddRoute_ok rtr rtr2 p hs true hadd with ⟨hb, _⟩ | ⟨_, hne, psegs, _, hadd2, _⟩
  · simp at hb
  · have hg := (addPartsToTree_added _ _ _ _ _ hadd2).grown hne
    obtain ⟨r, hr⟩ := parts_total q
    cases r with
    | none => simp [matchPath, hr] at hm
    | some segs =>
      obtain ⟨pm1, h1, _⟩ := matchPath_eq_pure pf q segs rtr.routes hr
      rw [hm] at h1
      simp only [Outcome.ok.injEq, Prod.mk.injEq] at h1
      have hold : NonEmptySlice (findPure pf segs rtr.routes) := ⟨l, h1.1.symm, hl⟩
      obtain ⟨l2, hl2, hl2ne⟩ := (findPure_grown pf hs hne segs _ _ hg).2 hold
      obtain ⟨pm2, h2, hpm2⟩ := matchPath_eq_pure pf q segs rtr2.routes hr
      rw [hl2] at h2 hpm2
      cases pm2 with
      | none => exact absurd rfl (hpm2 (by simp))
      | some m => exact ⟨l2, m, h2, hl2ne⟩

/-- C17 at a concrete input: with the routes `/{x:any}/c` and `/a/b`, the
path `/a/b` gives the handlers of `/a/b`; after `/{x:any}/b` is registered
it still matches, now with the handlers of `/{x:any}/b`, because the
parameter node, which is tried first, has gained the child `/b`. -/
theorem AddRoute_keeps_matches_witness :
    AddRoute exampleRouterTwoRoutes "/{x:any}/b".toList [exampleHandler] =
      .ok (true, exampleRouterThreeRoutes) ∧
    matchPath "/a/b".toList exampleRouterTwoRoutes.routes exampleFuncs =
      .ok (some [exampleHandler2], some (fun _ => none)) ∧
    [exampleHandler2] ≠ [] ∧
    matchPath "/a/b".toList exampleRouterThreeRoutes.routes exampleFuncs =
      .ok (some [exampleHandler], some (fillParamMap
        [{ Name := "x".toList, ValueRaw := "a".toList, Value := 1 }, Param.zero]
        (fun _ => none))) ∧
    ∃ l2 pm2, matchPath "/a/b".toList exampleRouterThreeRoutes.routes exampleFuncs =
      .ok (some l2, some pm2) ∧ l2 ≠ [] :=
  ⟨rfl, rfl, by simp, rfl,
    AddRoute_keeps_matches exampleRouterTwoRoutes exampleRouterThreeRoutes "/{x:any}/b".toList
      [exampleHandler] exampleFuncs "/a/b".toList [exampleHandler2] (some (fun _ => none)) rfl rfl
      (by simp)⟩

/-! ## Claims C7, C9 and C20 on a pattern with one capture group -/

/-- C9 as first stated fails: on a router whose `ParamRegex` is the
one-group pattern `^/:([^/]+)$`, `AddRoute("/:id", exampleHandler)` has a
non-empty handler list and a path spec that starts with `'/'`, yet it does
not return `true`: `specPartNode` reads `matches[2]` of a match that has two
entries, and the call panics. -/
theorem AddRoute_true_iff_fails_one_group :
    [exampleHandler] ≠ [] ∧ "/:id".toList.head? = some '/' ∧
    AddRoute exampleRouterOneGroup "/:id".toList [exampleHandler] = .panicked ∧
    ¬ ∃ b rtr2, AddRoute exampleRouterOneGroup "/:id".toList [exampleHandler] = .ok (b, rtr2) ∧
      (b = true ↔ [exampleHandler] ≠ [] ∧ "/:id".toList.head? = some '/') ∧
      (b = false → rtr2 = exampleRouterOneGroup) := by
  have hp : AddRoute exampleRouterOneGroup "/:id".toList [exampleHandler] = .panicked := rfl
  refine ⟨by simp, rfl, hp, ?_⟩
  rintro ⟨b, rtr2, h, _⟩
  rw [hp] at h
  exact Outcome.noConfusion h

/-- C7 as first stated fails: on a router whose `ParamRegex` is the
one-group pattern `^/:([^/]+)$`, the valid path spec `/users/:id` cannot be
registered at all, with non-empty handlers: the first `AddRoute` panics at
`matches[2]`, so there is no tree after two registrations to compare with
the tree after one. -/
theorem AddRoute_twice_fails_one_group :
    "/users/:id".toList.head? = some '/' ∧ [Get exampleHandler] ≠ [] ∧
    [Post exampleHandler2] ≠ [] ∧
    AddRoute exampleRouterOneGroup "/users/:id".toList [Get exampleHandler] = .panicked ∧
    AddRoute exampleRouterOneGroup "/users/:id".toList
      ([Get exampleHandler] ++ [Post exampleHandler2]) = .panicked ∧
    ¬ ∃ r1 r2 segs,
      AddRoute exampleRouterOneGroup "/users/:id".toList [Get exampleHandler] = .ok (true, r1) ∧
      AddRoute r1 "/users/:id".toList [Post exampleHandler2] = .ok (true, r2) ∧
      AddRoute exampleRouterOneGroup "/users/:id".toList
        ([Get exampleHandler] ++ [Post exampleHandler2]) = .ok (true, r2) ∧
      SameShape r1.routes r2.routes ∧
      parts "/users/:id".toList = .ok (some segs) ∧
      handlersAt segs r2.routes =
        some ((handlersAt segs exampleRouterOneGroup.routes).getD [] ++ [Get exampleHandler] ++
          [Post exampleHandler2]) := by
  have hp : AddRoute exampleRouterOneGroup "/users/:id".toList [Get exampleHandler] =
      .panicked := rfl
  refine ⟨rfl, by simp, by simp, hp, rfl, ?_⟩
  rintro ⟨r1, r2, segs, h, _⟩
  rw [hp] at h
  exact Outcome.noConfusion h

/-- C20 as first stated fails: `AddRoute` is not total for every input.  On
a router whose `ParamRegex` is the one-group pattern `^/:([^/]+)$` the
segment `/:id` matches with the two entries `["/:id", "id"]`, the index
`matches[2]` in `specPartNode` is out of range, and `addPartsToTree` and
`AddRoute` panic on the spec `/:id/x`. -/
theorem AddRoute_not_total_one_group :
    oneGroupRegex "/:id".toList = ["/:id".toList, "id".toList] ∧
    goIndex (oneGroupRegex "/:id".toList) 2 = .panicked ∧
    (specPartNode "/:id".toList (some oneGroupRegex) : Outcome (node (Handler Nat))) = .panicked ∧
    addPartsToTree (some oneGroupRegex) [exampleHandler] ["/:id".toList, "/x".toList] [] =
      .panicked ∧
    AddRoute exampleRouterOneGroup "/:id/x".toList [exampleHandler] = .panicked ∧
    ¬ ∃ b rtr2, AddRoute exampleRouterOneGroup "/:id/x".toList [exampleHandler] = .ok (b, rtr2) := by
  have hp : AddRoute exampleRouterOneGroup "/:id/x".toList [exampleHandler] = .panicked := rfl
  refine ⟨rfl, rfl, rfl, rfl, hp, ?_⟩
  rintro ⟨b, rtr2, h⟩
  rw [hp] at h
  exact Outcome.noConfusion h

end Flexrouter
